import Mathlib

/-!
Verification development for the core of the `oc3` dynamic loose octree
(`src/core/Octree.ts`, `src/core/ObjectStore.ts`, `src/worker-backend.ts`).

The embedding uses exact rationals for the coordinate arithmetic (the
source computes in IEEE doubles over Float32-stored bounds; all the
properties treated here are order/structure properties, not rounding
properties).  JavaScript `Infinity` appears in two places in the source
and is modelled explicitly where it matters:

* the ray/slab tests return `Infinity` for a miss: modelled as `Option ℚ`
  with `none` for the miss (faithful whenever the ray direction has no
  zero component, which the theorems about rays assume);
* `new Box3()` (the empty box the worker backend passes to `remove`) has
  `min = (+inf,+inf,+inf)`, `max = (-inf,-inf,-inf)`: modelled by the
  extended-rational box type `EBox` below.

List-walking loops over the store's index-linked lists receive explicit
fuel; every theorem either supplies provably sufficient fuel or carries a
well-formedness hypothesis implying it.
-/

set_option autoImplicit false

namespace Oc3


/-- An axis-aligned box with exact rational coordinates (three.js `Box3`
with finite entries). -/
structure Box where
  minx : ℚ
  miny : ℚ
  minz : ℚ
  maxx : ℚ
  maxy : ℚ
  maxz : ℚ
  deriving DecidableEq, Repr

/-- Extended rational: a JavaScript number that is either `-Infinity`,
finite, or `+Infinity` (`NaN` never reaches the places this type is used). -/
inductive EQv where
  | ninf : EQv
  | fin (q : ℚ) : EQv
  | pinf : EQv
  deriving DecidableEq, Repr

/-- JavaScript `<` on extended values (no `NaN` involved). -/
def EQv.lt : EQv → EQv → Bool
  | .ninf, .ninf => false
  | .ninf, _ => true
  | .fin _, .ninf => false
  | .fin a, .fin b => a < b
  | .fin _, .pinf => true
  | .pinf, _ => false

/-- A three.js `Box3` whose coordinates may be infinite; `new Box3()` is
the canonical instance. -/
structure EBox where
  minx : EQv
  miny : EQv
  minz : EQv
  maxx : EQv
  maxy : EQv
  maxz : EQv
  deriving DecidableEq, Repr

/-- `new Box3()`: min at `+Infinity`, max at `-Infinity` on every axis. -/
def emptyBox3 : EBox :=
  ⟨.pinf, .pinf, .pinf, .ninf, .ninf, .ninf⟩

/-- View a finite box as an extended one. -/
def Box.toE (b : Box) : EBox :=
  ⟨.fin b.minx, .fin b.miny, .fin b.minz, .fin b.maxx, .fin b.maxy, .fin b.maxz⟩

/-- three.js `Box3.intersectsBox` for two finite boxes (`a.intersectsBox b`:
`a` is `this`, `b` the argument):
`return b.max.x < a.min.x || b.min.x > a.max.x || ... ? false : true`. -/
def Box.intersectsBox (a b : Box) : Bool :=
  !(b.maxx < a.minx || b.minx > a.maxx ||
    b.maxy < a.miny || b.miny > a.maxy ||
    b.maxz < a.minz || b.minz > a.maxz)

/-- three.js `Box3.intersectsBox` where `this` is a possibly-empty
(extended) box and the argument is finite — the shape used by
`Node.remove`'s guard `box.intersectsBox(this.box)`. -/
def EBox.intersectsBox (a : EBox) (b : Box) : Bool :=
  !(EQv.lt (.fin b.maxx) a.minx || EQv.lt a.maxx (.fin b.minx) ||
    EQv.lt (.fin b.maxy) a.miny || EQv.lt a.maxy (.fin b.miny) ||
    EQv.lt (.fin b.maxz) a.minz || EQv.lt a.maxz (.fin b.minz))

/-- `a.min.c ≤ a.max.c` on every axis: a geometrically meaningful AABB. -/
def Box.valid (a : Box) : Prop :=
  a.minx ≤ a.maxx ∧ a.miny ≤ a.maxy ∧ a.minz ≤ a.maxz

instance (a : Box) : Decidable a.valid := by
  unfold Box.valid; infer_instance

/-- Box containment (used for the child-box ⊆ parent-box invariant). -/
def Box.subset (a b : Box) : Prop :=
  b.minx ≤ a.minx ∧ a.maxx ≤ b.maxx ∧
  b.miny ≤ a.miny ∧ a.maxy ≤ b.maxy ∧
  b.minz ≤ a.minz ∧ a.maxz ≤ b.maxz

instance (a b : Box) : Decidable (a.subset b) := by
  unfold Box.subset; infer_instance

/-- One object record: bounds, user id, next-pointer (`-1` = end of list). -/
structure Rec where
  box : Box
  id : ℤ
  next : ℤ
  deriving DecidableEq, Repr

/-- The zero-filled record a fresh buffer slot reads back as. -/
def Rec.zero : Rec :=
  ⟨⟨0, 0, 0, 0, 0, 0⟩, 0, 0⟩

/-- The array-backed pool allocator.  `freeList` is used as a stack:
`push` conses, `pop` takes the head (JS pushes/pops at the array end). -/
structure Store where
  buf : ℕ → Rec
  freeList : List ℕ
  next : ℕ
  capacity : ℕ

/-- A fresh `ObjectStore` (initial capacity 1024 records). -/
def Store.init : Store :=
  ⟨fun _ => Rec.zero, [], 0, 1024⟩

/-- `ObjectStore.get` / `getRaw` (both read the same record). -/
def Store.get (s : Store) (idx : ℕ) : Rec :=
  s.buf idx

/-- Write one record into a slot. -/
def Store.write (s : Store) (idx : ℕ) (r : Rec) : Store :=
  { s with buf := fun j => if j = idx then r else s.buf j }

/-- `ObjectStore.add`: pop a free slot (or take `next++`), grow when the
slot is at or beyond capacity, write the record pointing at the old head,
and return the new head (the allocated index). -/
def Store.add (s : Store) (head : ℤ) (box : Box) (id : ℤ) : Store × ℕ :=
  let (idx, s1) :=
    match s.freeList with
    | i :: rest => (i, { s with freeList := rest })
    | [] => (s.next, { s with next := s.next + 1 })
  let s2 := if idx ≥ s1.capacity then { s1 with capacity := s1.capacity * 2 } else s1
  (s2.write idx ⟨box, id, head⟩, idx)

/-- Loop body of `ObjectStore.remove`.  `origHead` is the head the loop
will return when it splices an interior node or finds no match;
fuel-exhaustion (never reached on well-formed lists) returns unchanged. -/
def Store.removeGo (s : Store) (origHead : ℤ) (id : ℤ) :
    ℕ → ℤ → ℤ → Store × ℤ
  | 0, _, _ => (s, origHead)
  | fuel + 1, prev, cur =>
    if cur = -1 then (s, origHead)
    else
      let r := s.buf cur.toNat
      if r.id = id then
        if prev = -1 then
          ({ s with freeList := cur.toNat :: s.freeList }, r.next)
        else
          ({ s with
              buf := fun j => if j = prev.toNat then { s.buf j with next := r.next } else s.buf j,
              freeList := cur.toNat :: s.freeList }, origHead)
      else
        Store.removeGo s origHead id fuel cur r.next

/-- `ObjectStore.remove`: drop the first record with the given id from the
list, returning the (possibly unchanged) head. -/
def Store.remove (s : Store) (fuel : ℕ) (head : ℤ) (id : ℤ) : Store × ℤ :=
  Store.removeGo s head id fuel (-1) head

/-- `ObjectStore.count`: list length by traversal. -/
def Store.count (s : Store) : ℕ → ℤ → ℕ
  | 0, _ => 0
  | fuel + 1, head =>
    if head = -1 then 0 else 1 + Store.count s fuel (s.buf head.toNat).next

/-- The slot indices of a list, front to back (the traversal order of
`ObjectStore.traverse`). -/
def Store.chain (s : Store) : ℕ → ℤ → List ℕ
  | 0, _ => []
  | fuel + 1, head =>
    if head = -1 then [] else head.toNat :: Store.chain s fuel (s.buf head.toNat).next

/-- `ObjectStore.clear`: reset `next` and the free list; buffer retained. -/
def Store.clear (s : Store) : Store :=
  { s with next := 0, freeList := [] }

/-- Relational description of a nil-terminated list in the store: `SChain
s head l` holds when following `next` from `head` visits exactly the
slots `l` and ends at `-1`, all slots below `s.next`. -/
inductive SChain (s : Store) : ℤ → List ℕ → Prop
  | nil : SChain s (-1) []
  | cons {i : ℕ} {l : List ℕ} :
      i < s.next → SChain s (s.buf i).next l → SChain s (i : ℤ) (i :: l)

/-- A single octree node. -/
inductive Node where
  | mk (level : ℕ) (box : Box) (head : ℤ) (children : List Node)

namespace Node

def level : Node → ℕ
  | .mk l _ _ _ => l

def box : Node → Box
  | .mk _ b _ _ => b

def head : Node → ℤ
  | .mk _ _ h _ => h

def children : Node → List Node
  | .mk _ _ _ cs => cs

end Node


/-- `Node.getChildIndex` as a function of the node box and the object box:
the eight if-branches of the source, else `-1`. -/
def getChildIndex (nbox objBox : Box) : ℤ :=
  let mx := (nbox.minx + nbox.maxx) / 2
  let my := (nbox.miny + nbox.maxy) / 2
  let mz := (nbox.minz + nbox.maxz) / 2
  let lX := decide (objBox.maxx ≤ mx)
  let uX := decide (objBox.minx ≥ mx)
  let lY := decide (objBox.maxy ≤ my)
  let uY := decide (objBox.miny ≥ my)
  let lZ := decide (objBox.maxz ≤ mz)
  let uZ := decide (objBox.minz ≥ mz)
  if lX && lY && lZ then 0
  else if uX && lY && lZ then 1
  else if lX && uY && lZ then 2
  else if uX && uY && lZ then 3
  else if lX && lY && uZ then 4
  else if uX && lY && uZ then 5
  else if lX && uY && uZ then 6
  else if uX && uY && uZ then 7
  else -1

/-- The box of child `i` created by `Node.split`: per axis, bit `1`, `2`,
`4` of `i` selects the upper half `[mid, max]`, otherwise `[min, mid]`. -/
def octantBox (parent : Box) (i : ℕ) : Box :=
  let mx := (parent.minx + parent.maxx) / 2
  let my := (parent.miny + parent.maxy) / 2
  let mz := (parent.minz + parent.maxz) / 2
  ⟨if i % 2 = 1 then mx else parent.minx,
   if i / 2 % 2 = 1 then my else parent.miny,
   if i / 4 % 2 = 1 then mz else parent.minz,
   if i % 2 = 1 then parent.maxx else mx,
   if i / 2 % 2 = 1 then parent.maxy else my,
   if i / 4 % 2 = 1 then parent.maxz else mz⟩

/-- The eight fresh children `Node.split` builds. -/
def splitChildren (level : ℕ) (parent : Box) : List Node :=
  (List.range 8).map fun i => Node.mk (level + 1) (octantBox parent i) (-1) []

/-- The branch chain of `getChildIndex` over the six abstract per-axis
decisions (used to settle branch questions by `decide`). -/
def chainIdx (lX uX lY uY lZ uZ : Bool) : ℤ :=
  if lX && lY && lZ then 0
  else if uX && lY && lZ then 1
  else if lX && uY && lZ then 2
  else if uX && uY && lZ then 3
  else if lX && lY && uZ then 4
  else if uX && lY && uZ then 5
  else if lX && uY && uZ then 6
  else if uX && uY && uZ then 7
  else -1

/-! `Node.insert` and `Node.split` recurse into freshly created children,
so they are not structurally recursive on the tree; the recursion is
structural on a fuel argument that drops by one per level of descent.
The façade supplies `2*maxDepth + 3`, which is provably sufficient on
every reachable tree (node depth never exceeds `maxDepth`). -/

/-- The redistribution loop of `Node.split`: for each record of the old
list, insert into the classified child (via `inserter`, which is the
one-level-down `Node.insert` and may recursively split) or re-add the
straddler to this node's own list.  `wf` is the walk fuel (a bound on the
old list's length). -/
def splitWalkF (inserter : Box → ℤ → Node → Store → Node × Store) :
    ℕ → ℤ → Node → Store → Node × Store
  | 0, _, n, s => (n, s)
  | wf + 1, cur, .mk level nbox head cs, s =>
    if cur = -1 then (.mk level nbox head cs, s)
    else
      let r := s.buf cur.toNat
      if getChildIndex nbox r.box ≠ -1 then
        match cs[(getChildIndex nbox r.box).toNat]? with
        | some c =>
          let p := inserter r.box r.id c s
          splitWalkF inserter wf r.next
            (.mk level nbox head (cs.set (getChildIndex nbox r.box).toNat p.1)) p.2
        | none => splitWalkF inserter wf r.next (.mk level nbox head cs) s
      else
        let p := s.add head r.box r.id
        splitWalkF inserter wf r.next (.mk level nbox (p.2 : ℤ) cs) p.1

/-- `Node.insert`: self-filter on box intersection; delegate to a child
when children exist and classification succeeds; otherwise prepend to this
node's list and — when the node is a leaf below `maxDepth` holding at
least `maxObjects` — split: create the eight octant children, detach the
list, and walk it redistributing every record. -/
def Node.insertGo (mo md : ℕ) : ℕ → Box → ℤ → Node → Store → Node × Store
  | 0, _, _, n, s => (n, s)
  | fuel + 1, boxI, id, .mk level nbox head cs, s =>
    if nbox.intersectsBox boxI = false then (.mk level nbox head cs, s)
    else if cs.isEmpty = false ∧ getChildIndex nbox boxI ≠ -1 then
      match cs[(getChildIndex nbox boxI).toNat]? with
      | some c =>
        let p := Node.insertGo mo md fuel boxI id c s
        (.mk level nbox head (cs.set (getChildIndex nbox boxI).toNat p.1), p.2)
      | none => (.mk level nbox head cs, s)
    else
      let p := s.add head boxI id
      if cs.isEmpty = true ∧ level < md ∧ mo ≤ Store.count p.1 (p.1.next + 1) (p.2 : ℤ) then
        splitWalkF (fun b i nn ss => Node.insertGo mo md fuel b i nn ss)
          (p.1.next + 1) (p.2 : ℤ)
          (.mk level nbox (-1) (splitChildren level nbox)) p.1
      else (.mk level nbox (p.2 : ℤ) cs, p.1)

/-- Sequential child recursion of `Node.remove`
(`for (const c of this.children) c.remove(...)`). -/
def removeKids (remover : Node → Store → Node × Store) : List Node → Store → List Node × Store
  | [], s => ([], s)
  | c :: cs, s =>
    let p := remover c s
    let q := removeKids remover cs p.2
    (p.1 :: q.1, q.2)

/-- `Node.remove`: prune on the (possibly empty) box, try this node's own
list, and recurse into every child only when the head did not move. -/
def Node.removeGo (rbox : EBox) (id : ℤ) : ℕ → Node → Store → Node × Store
  | 0, n, s => (n, s)
  | fuel + 1, .mk level nbox head cs, s =>
    if rbox.intersectsBox nbox = false then (.mk level nbox head cs, s)
    else
      let p := if head ≠ -1 then Store.remove s (s.next + 1) head id else (s, head)
      if p.2 ≠ head then (.mk level nbox p.2 cs, p.1)
      else
        let q := removeKids (fun c ss => Node.removeGo rbox id fuel c ss) cs p.1
        (.mk level nbox p.2 q.1, q.2)

/-- Concatenated recursion over a children list for the read-only queries. -/
def queryKids (q : Node → List ℤ) : List Node → List ℤ
  | [] => []
  | c :: cs => q c ++ queryKids q cs

/-- `Node.aabbQuery`: prune on the query box, recurse into children, then
emit the ids of this node's own intersecting records. -/
def Node.aabbQueryGo (s : Store) (qbox : Box) : ℕ → Node → List ℤ
  | 0, _ => []
  | fuel + 1, .mk _ nbox head cs =>
    if qbox.intersectsBox nbox = false then []
    else
      queryKids (fun c => Node.aabbQueryGo s qbox fuel c) cs ++
        (Store.chain s (s.next + 1) head).filterMap fun i =>
          if qbox.intersectsBox (s.buf i).box then some (s.buf i).id else none

/-- One frustum plane `(normal, constant)`. -/
structure Plane where
  nx : ℚ
  ny : ℚ
  nz : ℚ
  c : ℚ
  deriving DecidableEq, Repr

/-- three.js `Frustum.intersectsBox`: the box is rejected iff its
positive vertex w.r.t. some plane is on the negative side. -/
def frustumIntersectsBox (planes : List Plane) (b : Box) : Bool :=
  planes.all fun p =>
    let px := if p.nx > 0 then b.maxx else b.minx
    let py := if p.ny > 0 then b.maxy else b.miny
    let pz := if p.nz > 0 then b.maxz else b.minz
    decide (0 ≤ p.nx * px + p.ny * py + p.nz * pz + p.c)

/-- `Node.frustumQuery`: same traversal shape as the AABB query with the
frustum tests substituted. -/
def Node.frustumQueryGo (s : Store) (planes : List Plane) : ℕ → Node → List ℤ
  | 0, _ => []
  | fuel + 1, .mk _ nbox head cs =>
    if frustumIntersectsBox planes nbox = false then []
    else
      queryKids (fun c => Node.frustumQueryGo s planes fuel c) cs ++
        (Store.chain s (s.next + 1) head).filterMap fun i =>
          if frustumIntersectsBox planes (s.buf i).box then some (s.buf i).id else none

/-! ## Slab tests and raycast

`intersectRayBounds` / `intersectRayBoxSlab` are the two (syntactically
identical) slab tests at the bottom of `Octree.ts`.  `none` models the
`Infinity` miss; the arithmetic is exact, faithful for rays whose
direction has no zero component (`invDir` is then finite). -/

/-- `intersectRayBounds(ray, invDir, bounds)` on a record's bounds. -/
def intersectRayBounds (ox oy oz ix iy iz : ℚ) (b : Box) : Option ℚ :=
  let tMin0 := (b.minx - ox) * ix
  let tMax0 := (b.maxx - ox) * ix
  let tMin := if tMin0 > tMax0 then tMax0 else tMin0
  let tMax := if tMin0 > tMax0 then tMin0 else tMax0
  let tYMin0 := (b.miny - oy) * iy
  let tYMax0 := (b.maxy - oy) * iy
  let tYMin := if tYMin0 > tYMax0 then tYMax0 else tYMin0
  let tYMax := if tYMin0 > tYMax0 then tYMin0 else tYMax0
  if tMin > tYMax ∨ tYMin > tMax then none
  else
    let tMin1 := if tYMin > tMin then tYMin else tMin
    let tMax1 := if tYMax < tMax then tYMax else tMax
    let tZMin0 := (b.minz - oz) * iz
    let tZMax0 := (b.maxz - oz) * iz
    let tZMin := if tZMin0 > tZMax0 then tZMax0 else tZMin0
    let tZMax := if tZMin0 > tZMax0 then tZMin0 else tZMax0
    if tMin1 > tZMax ∨ tZMin > tMax1 then none
    else
      let tMin2 := if tZMin > tMin1 then tZMin else tMin1
      let tMax2 := if tZMax < tMax1 then tZMax else tMax1
      if tMin2 ≥ 0 then some tMin2 else if tMax2 ≥ 0 then some tMax2 else none

/-- `intersectRayBoxSlab(ray, invDir, box)` on a node box. -/
def intersectRayBoxSlab (ox oy oz ix iy iz : ℚ) (b : Box) : Option ℚ :=
  let tmin0 := (b.minx - ox) * ix
  let tmax0 := (b.maxx - ox) * ix
  let tmin := if tmin0 > tmax0 then tmax0 else tmin0
  let tmax := if tmin0 > tmax0 then tmin0 else tmax0
  let tymin0 := (b.miny - oy) * iy
  let tymax0 := (b.maxy - oy) * iy
  let tymin := if tymin0 > tymax0 then tymax0 else tymin0
  let tymax := if tymin0 > tymax0 then tymin0 else tymax0
  if tmin > tymax ∨ tymin > tmax then none
  else
    let tmin1 := if tymin > tmin then tymin else tmin
    let tmax1 := if tymax < tmax then tymax else tmax
    let tzmin0 := (b.minz - oz) * iz
    let tzmax0 := (b.maxz - oz) * iz
    let tzmin := if tzmin0 > tzmax0 then tzmax0 else tzmin0
    let tzmax := if tzmin0 > tzmax0 then tzmin0 else tzmax0
    if tmin1 > tzmax ∨ tzmin > tmax1 then none
    else
      let tmin2 := if tzmin > tmin1 then tzmin else tmin1
      let tmax2 := if tzmax < tmax1 then tzmax else tmax1
      if tmin2 ≥ 0 then some tmin2 else if tmax2 ≥ 0 then some tmax2 else none

/-! The raycast child-ordering step of the source pushes `(t, i)` pairs
into ONE flat array (`tNear.push(t, i)`), sorts the WHOLE flat array
numerically, and then reads `children[tNear[j+1]]` off the odd positions.
The model reproduces this literally: distances and child indices are
sorted together, and a non-integer or out-of-range "index" yields the
JavaScript `undefined`, modelled as `none` on the traversal stack (a
popped `undefined` ends the `while (node)` loop). -/

/-- Build the flat `tNear` array: for `i = 0..7`, on a finite slab result
`t` append `t` then `i`. -/
def tNearFlat (ox oy oz ix iy iz : ℚ) : List Node → ℕ → List ℚ
  | [], _ => []
  | c :: cs, i =>
    if 8 ≤ i then []
    else
      (match intersectRayBoxSlab ox oy oz ix iy iz c.box with
       | some t => [t, (i : ℚ)]
       | none => []) ++ tNearFlat ox oy oz ix iy iz cs (i + 1)

/-- Insertion of one element into a sorted rational list. -/
def insortQ (x : ℚ) : List ℚ → List ℚ
  | [] => [x]
  | y :: ys => if x ≤ y then x :: y :: ys else y :: insortQ x ys

/-- Ascending numeric sort (`tNear.sort((a, b) => a - b)`); duplicates are
equal values, so any ascending sort produces the JS result. -/
def sortQ : List ℚ → List ℚ
  | [] => []
  | x :: xs => insortQ x (sortQ xs)

/-- The values at odd positions 1, 3, 5, … — the loop
`for (j = len-2; j >= 0; j -= 2) push(children[tNear[j+1]])` makes these,
in this order, the pop order of the pushed children. -/
def pickOdds : List ℚ → List ℚ
  | _ :: b :: rest => b :: pickOdds rest
  | _ => []

/-- JavaScript `children[v]` for a numeric `v`: an element for an integer
index in range, otherwise `undefined` (`none`). -/
def selChild (cs : List Node) (v : ℚ) : Option Node :=
  if v.den = 1 ∧ 0 ≤ v.num then cs[v.num.toNat]? else none

/-- The children pushed at one node, in pop order: the odd positions of
the sorted flat array, looked up in the children array. -/
def pushedChildren (ox oy oz ix iy iz : ℚ) (cs : List Node) : List (Option Node) :=
  (pickOdds (sortQ (tNearFlat ox oy oz ix iy iz cs 0))).map (selChild cs)

/-- The raycast stack loop, structural on fuel.  The stack holds JS
values that are either nodes or `undefined` (`none`); popping `undefined`
makes `while (node)` exit, abandoning the rest of the stack. -/
def raycastGo (s : Store) (ox oy oz ix iy iz : ℚ) : ℕ → List (Option Node) → List (ℤ × ℚ)
  | 0, _ => []
  | _ + 1, [] => []
  | _ + 1, none :: _ => []
  | fuel + 1, some n :: rest =>
    ((Store.chain s (s.next + 1) n.head).filterMap fun i =>
      match intersectRayBounds ox oy oz ix iy iz (s.buf i).box with
      | some t => some ((s.buf i).id, t)
      | none => none) ++
    raycastGo s ox oy oz ix iy iz fuel (pushedChildren ox oy oz ix iy iz n.children ++ rest)

/-! ## Octree façade (`class Octree`) -/

/-- The façade: configuration, store, root. -/
structure Octree where
  box : Box
  maxDepth : ℕ
  maxObjects : ℕ
  store : Store
  root : Node

/-- `new Octree(box, opts)` (defaults: `maxDepth = 8`, `maxObjects = 16`,
box = cube of side 1000 centred at the origin). -/
def Octree.create (box : Box) (maxDepth maxObjects : ℕ) : Octree :=
  ⟨box, maxDepth, maxObjects, Store.init, Node.mk 0 box (-1) []⟩

/-- The default root box `[-500, 500]³`. -/
def defaultRootBox : Box :=
  ⟨-500, -500, -500, 500, 500, 500⟩

/-- `Octree.insert`.  The recursion fuel `2*maxDepth + 3` is an artifact
of the embedding; on reachable trees it provably never runs out. -/
def Octree.insert (t : Octree) (box : Box) (id : ℤ) : Octree :=
  let p := Node.insertGo t.maxObjects t.maxDepth (2 * t.maxDepth + 3)
    box id t.root t.store
  { t with root := p.1, store := p.2 }

/-- `Octree.remove` (the box may be the worker's empty `new Box3()`). -/
def Octree.remove (t : Octree) (rbox : EBox) (id : ℤ) : Octree :=
  let p := Node.removeGo rbox id (t.maxDepth + 2) t.root t.store
  { t with root := p.1, store := p.2 }

/-- `Octree.update`: remove then insert, both with the NEW box. -/
def Octree.update (t : Octree) (box : Box) (id : ℤ) : Octree :=
  (t.remove box.toE id).insert box id

/-- `Octree.aabbQuery` (ids in visitor call order). -/
def Octree.aabbQuery (t : Octree) (qbox : Box) : List ℤ :=
  Node.aabbQueryGo t.store qbox (t.maxDepth + 2) t.root

/-- `Octree.frustumQuery` (ids in visitor call order). -/
def Octree.frustumQuery (t : Octree) (planes : List Plane) : List ℤ :=
  Node.frustumQueryGo t.store planes (t.maxDepth + 2) t.root

/-- `Octree.raycast`: reset `out`, precompute `invDir`, run the node walk.
Faithful when no direction component is zero (JS would give `±Infinity`
inverse components; ℚ gives `0`). -/
def Octree.raycast (t : Octree) (ox oy oz dx dy dz : ℚ) : List (ℤ × ℚ) :=
  raycastGo t.store ox oy oz (1 / dx) (1 / dy) (1 / dz) (8 ^ (t.maxDepth + 2) + 1) [some t.root]

/-- `Octree.clear`. -/
def Octree.clear (t : Octree) : Octree :=
  { t with store := t.store.clear, root := Node.mk t.root.level t.root.box (-1) [] }

/-! ## Specification-side definitions -/

/-- Interval entry value of one slab axis: `min(t1, t2)`. -/
def axLo (mn mx o i : ℚ) : ℚ :=
  min ((mn - o) * i) ((mx - o) * i)

/-- Interval exit value of one slab axis: `max(t1, t2)`. -/
def axHi (mn mx o i : ℚ) : ℚ :=
  max ((mn - o) * i) ((mx - o) * i)

/-- The slab interval entry point `t_enter`. -/
def tEnter (ox oy oz ix iy iz : ℚ) (b : Box) : ℚ :=
  max (max (axLo b.minx b.maxx ox ix) (axLo b.miny b.maxy oy iy)) (axLo b.minz b.maxz oz iz)

/-- The slab interval exit point `t_exit`. -/
def tExit (ox oy oz ix iy iz : ℚ) (b : Box) : ℚ :=
  min (min (axHi b.minx b.maxx ox ix) (axHi b.miny b.maxy oy iy)) (axHi b.minz b.maxz oz iz)

/-- The per-axis fit conditions of octant `i` (bit 0 → x, bit 1 → y,
bit 2 → z; bit set → `bmin ≥ mid`, clear → `bmax ≤ mid`), as the spec
words them. -/
def fitsBits (nbox objBox : Box) (i : ℕ) : Prop :=
  (if i % 2 = 1 then objBox.minx ≥ (nbox.minx + nbox.maxx) / 2
   else objBox.maxx ≤ (nbox.minx + nbox.maxx) / 2) ∧
  (if i / 2 % 2 = 1 then objBox.miny ≥ (nbox.miny + nbox.maxy) / 2
   else objBox.maxy ≤ (nbox.miny + nbox.maxy) / 2) ∧
  (if i / 4 % 2 = 1 then objBox.minz ≥ (nbox.minz + nbox.maxz) / 2
   else objBox.maxz ≤ (nbox.minz + nbox.maxz) / 2)

instance (nbox objBox : Box) (i : ℕ) : Decidable (fitsBits nbox objBox i) := by
  unfold fitsBits; infer_instance

/-- The box straddles some midplane of `nbox`: on some axis it fits on
neither side. -/
def straddles (nbox objBox : Box) : Prop :=
  (¬ objBox.maxx ≤ (nbox.minx + nbox.maxx) / 2 ∧ ¬ objBox.minx ≥ (nbox.minx + nbox.maxx) / 2) ∨
  (¬ objBox.maxy ≤ (nbox.miny + nbox.maxy) / 2 ∧ ¬ objBox.miny ≥ (nbox.miny + nbox.maxy) / 2) ∨
  (¬ objBox.maxz ≤ (nbox.minz + nbox.maxz) / 2 ∧ ¬ objBox.minz ≥ (nbox.minz + nbox.maxz) / 2)

instance (nbox objBox : Box) : Decidable (straddles nbox objBox) := by
  unfold straddles; infer_instance

/-- On each axis the box fits on exactly the side selected by `i`'s bit
and NOT on the other side (the tie-free fit: the box does not touch the
midplane with zero width). -/
def fitsBitsExclusive (nbox objBox : Box) (i : ℕ) : Prop :=
  (if i % 2 = 1 then
     objBox.minx ≥ (nbox.minx + nbox.maxx) / 2 ∧ ¬ objBox.maxx ≤ (nbox.minx + nbox.maxx) / 2
   else objBox.maxx ≤ (nbox.minx + nbox.maxx) / 2 ∧ ¬ objBox.minx ≥ (nbox.minx + nbox.maxx) / 2) ∧
  (if i / 2 % 2 = 1 then
     objBox.miny ≥ (nbox.miny + nbox.maxy) / 2 ∧ ¬ objBox.maxy ≤ (nbox.miny + nbox.maxy) / 2
   else objBox.maxy ≤ (nbox.miny + nbox.maxy) / 2 ∧ ¬ objBox.miny ≥ (nbox.miny + nbox.maxy) / 2) ∧
  (if i / 4 % 2 = 1 then
     objBox.minz ≥ (nbox.minz + nbox.maxz) / 2 ∧ ¬ objBox.maxz ≤ (nbox.minz + nbox.maxz) / 2
   else objBox.maxz ≤ (nbox.minz + nbox.maxz) / 2 ∧ ¬ objBox.minz ≥ (nbox.minz + nbox.maxz) / 2)

instance (nbox objBox : Box) (i : ℕ) : Decidable (fitsBitsExclusive nbox objBox i) := by
  unfold fitsBitsExclusive; infer_instance

/-- The sub-box the spec assigns to octant `i`, written with the three
low bits of `i` (`testBit 0` → x half, `testBit 1` → y half,
`testBit 2` → z half). -/
def octantSpec (parent : Box) (i : ℕ) : Box :=
  ⟨if i.testBit 0 then (parent.minx + parent.maxx) / 2 else parent.minx,
   if i.testBit 1 then (parent.miny + parent.maxy) / 2 else parent.miny,
   if i.testBit 2 then (parent.minz + parent.maxz) / 2 else parent.minz,
   if i.testBit 0 then parent.maxx else (parent.minx + parent.maxx) / 2,
   if i.testBit 1 then parent.maxy else (parent.miny + parent.maxy) / 2,
   if i.testBit 2 then parent.maxz else (parent.minz + parent.maxz) / 2⟩

/-- `SubNode m n`: `m` is a node of the subtree rooted at `n`. -/
inductive SubNode : Node → Node → Prop
  | refl (n : Node) : SubNode n n
  | child {m c n : Node} : c ∈ n.children → SubNode m c → SubNode m n

/-- The records stored at a list of slots. -/
def recsOfL (s : Store) (L : List ℕ) : List (Box × ℤ) :=
  L.map fun j => ((s.buf j).box, (s.buf j).id)

/-- The ids stored at a list of slots. -/
def idsOfL (s : Store) (L : List ℕ) : List ℤ :=
  L.map fun j => (s.buf j).id

/-- All records of a subtree, children first, then the node's own list
(the emission order of the queries); `fuel` bounds the node depth. -/
def Node.contents (s : Store) : ℕ → Node → List (Box × ℤ)
  | 0, _ => []
  | fuel + 1, .mk _ _ head cs =>
    (cs.map fun c => Node.contents s fuel c).flatten ++
      recsOfL s (Store.chain s (s.next + 1) head)

mutual

/-- The combined per-subtree invariant of reachable trees, relating the
subtree rooted at a node to the list `L` of store slots it references
(children slots first, own list last — the emission order of the
queries).  It packages: a valid box; levels bounded by `maxDepth` and
children one level down, present only below `maxDepth` and always eight;
the eight children's boxes the positional octant boxes of the parent;
the own list a nil-terminated store chain whose records carry valid
boxes intersecting the node box. -/
def TreeInv (s : Store) (md : ℕ) : Node → List ℕ → Prop
  | .mk level nbox head cs, L =>
    nbox.valid ∧ level ≤ md ∧
    (cs = [] ∨ (cs.length = 8 ∧ level < md)) ∧
    ∃ cl ol, KidsInv s md (level + 1) nbox 0 cs cl ∧ SChain s head ol ∧
      (∀ j ∈ ol, nbox.intersectsBox (s.buf j).box = true ∧ (s.buf j).box.valid) ∧
      L = cl ++ ol

/-- The invariant for a children list under a parent box, `pos` the
octant index of the first listed child. -/
def KidsInv (s : Store) (md : ℕ) (lv : ℕ) (pbox : Box) : ℕ → List Node → List ℕ → Prop
  | _, [], L => L = []
  | pos, c :: cs, L =>
    ∃ l1 l2, (c.level = lv ∧ c.box = octantBox pbox pos ∧ TreeInv s md c l1) ∧
      KidsInv s md lv pbox (pos + 1) cs l2 ∧ L = l1 ++ l2

end


/-- One mutating command of claim C5's sequences. -/
inductive Op where
  | ins (box : Box) (id : ℤ) : Op
  | rem (box : Box) (id : ℤ) : Op
  deriving DecidableEq, Repr

/-- Run a sequence of commands through the façade. -/
def applyOps (t : Octree) : List Op → Octree
  | [] => t
  | .ins b i :: ops => applyOps (t.insert b i) ops
  | .rem b i :: ops => applyOps (t.remove b.toE i) ops

/-- The id of an op. -/
def Op.id : Op → ℤ
  | .ins _ i => i
  | .rem _ i => i

/-- The box of an op. -/
def Op.box : Op → Box
  | .ins b _ => b
  | .rem b _ => b

/-- The live records carried through a command sequence front to back:
an insert appends its record, a remove deletes the records carrying its
id. -/
def liveFold : List Op → List (Box × ℤ) → List (Box × ℤ)
  | [], acc => acc
  | .ins b i :: ops, acc => liveFold ops (acc ++ [(b, i)])
  | .rem _ i :: ops, acc => liveFold ops (acc.filter fun r => r.2 ≠ i)

/-- The records inserted and not subsequently removed. -/
def liveAfter (ops : List Op) : List (Box × ℤ) :=
  liveFold ops []

/-- Step-wise validity of a command sequence against the running live
set: every box is a valid AABB intersecting the root box, an insert's id
is not currently live, and a remove carries the exact box and id of one
live record. -/
def SeqOK (rootBox : Box) : List (Box × ℤ) → List Op → Prop
  | _, [] => True
  | live, .ins b i :: ops =>
    b.valid ∧ rootBox.intersectsBox b = true ∧ (∀ r ∈ live, r.2 ≠ i) ∧
      SeqOK rootBox (live ++ [(b, i)]) ops
  | live, .rem b i :: ops =>
    rootBox.intersectsBox b = true ∧ (b, i) ∈ live ∧
      SeqOK rootBox (live.filter fun r => r.2 ≠ i) ops

/-- A placeholder command (out-of-range reads of `List.getD`). -/
def opDummy : Op :=
  .ins ⟨0, 0, 0, 0, 0, 0⟩ 0

/-- The position-`k` command, when a remove, repeats the box and id of an
earlier insert. -/
def remCheck (pre : List Op) : Op → Bool
  | .rem b i => decide (Op.ins b i ∈ pre)
  | _ => true

/-- Claim C5's hypothesis on a command sequence: insert ids pairwise
distinct, remove ids pairwise distinct, every box a valid AABB
intersecting the root box, and every remove matching the box and id of an
earlier insert. -/
def OpsValid (rootBox : Box) (ops : List Op) : Prop :=
  ((ops.filterMap fun o => match o with | .ins _ i => some i | _ => none).Nodup) ∧
  ((ops.filterMap fun o => match o with | .rem _ i => some i | _ => none).Nodup) ∧
  (∀ o ∈ ops, rootBox.intersectsBox o.box = true ∧ o.box.valid) ∧
  (∀ k < ops.length, remCheck (ops.take k) (ops.getD k opDummy) = true)

instance (rootBox : Box) (ops : List Op) : Decidable (OpsValid rootBox ops) := by
  unfold OpsValid
  have : DecidablePred fun o : Op => rootBox.intersectsBox o.box = true ∧ o.box.valid :=
    fun o => by infer_instance
  infer_instance

/-! Concrete instances used by counterexamples and witnesses. -/

/-- The shared `[-10, 10]³` root box of the concrete scenarios. -/
def box10 : Box :=
  ⟨-10, -10, -10, 10, 10, 10⟩

/-- C1 scenario: a record poking out of the root box westwards plus a
small record forcing a split; both end up inside the `x,y,z < 0` octant
subtree. -/
def exTreeC1 : Octree :=
  ((Octree.create box10 8 2).insert ⟨-20, -20, -20, -5, -5, -5⟩ 1).insert
    ⟨-9, -9, -9, -8, -8, -8⟩ 2

/-- C2 scenario: one record before the midplane `z = 0`, one after, with
a ray flying up the `z` axis through both. -/
def exTreeC2 : Octree :=
  ((Octree.create box10 8 2).insert ⟨1, 1, -6, 2, 2, -5⟩ 1).insert ⟨1, 1, 5, 2, 2, 6⟩ 2

/-- C3 scenario: a single record with id 7. -/
def exTreeC3 : Octree :=
  (Octree.create box10 8 16).insert ⟨1, 1, 1, 2, 2, 2⟩ 7

/-- C4 scenario: two split-forcing records in opposite octants. -/
def exTreeC4 : Octree :=
  ((Octree.create box10 8 2).insert ⟨-9, -9, -9, -8, -8, -8⟩ 1).insert ⟨8, 8, 8, 9, 9, 9⟩ 2

/-- C6 scenario: a straddler of the `x<0, y<0, z>0` octant and a second
record forcing the split; the diagonal ray grazes the corner with
`t_enter = 4` at four children, scrambling the flat sort into pushing
child 4 twice. -/
def exTreeC6 : Octree :=
  ((Octree.create box10 8 2).insert ⟨-6, -3, 0, 0, 0, 3⟩ 1).insert ⟨1, 1, -2, 2, 2, -1⟩ 2

/-! ## Helper lemmas -/

/-- A chain segment: walking the slots of `l` from head `h` ends at
pointer `h'` (not necessarily `-1`). -/
inductive SChainSeg (s : Store) : ℤ → List ℕ → ℤ → Prop
  | nil (h : ℤ) : SChainSeg s h [] h
  | cons {i : ℕ} {l : List ℕ} {h' : ℤ} :
      i < s.next → SChainSeg s (s.buf i).next l h' → SChainSeg s (i : ℤ) (i :: l) h'

/-- The engine-state invariant carried along claim C5's command sequences:
the root at level 0 covers the configured box, the subtree invariant
holds for some slot list with sound free-list accounting, and the
referenced records are (up to permutation) the live set. -/
def OctInv (t : Octree) (live : List (Box × ℤ)) : Prop :=
  t.root.level = 0 ∧ t.root.box = t.box ∧
  ∃ L, TreeInv t.store t.maxDepth t.root L ∧ L.Nodup ∧
    (∀ j ∈ L, j ∉ t.store.freeList) ∧
    (∀ j ∈ t.store.freeList, j < t.store.next) ∧ t.store.freeList.Nodup ∧
    (recsOfL t.store L).Perm live

/-- A concrete C5 command sequence: three inserts (the third forcing a
split at `maxObjects = 2`) and one remove. -/
def exOpsC5 : List Op :=
  [.ins ⟨1, 1, 1, 2, 2, 2⟩ 1, .ins ⟨-3, -3, -3, -1, -1, -1⟩ 2,
   .ins ⟨4, 4, 4, 5, 5, 5⟩ 3, .rem ⟨1, 1, 1, 2, 2, 2⟩ 1]

/-! ## Claim theorems -/

theorem Box.intersectsBox_comm (a b : Box) :
    a.intersectsBox b = b.intersectsBox a := by
  unfold Box.intersectsBox
  rw [Bool.eq_iff_iff]
  simp only [gt_iff_lt, Bool.not_eq_true', Bool.or_eq_false_iff,
    decide_eq_false_iff_not]
  tauto

theorem Box.intersectsBox_of_subset {a b : Box} (q : Box)
    (hsub : a.subset b) (h : a.intersectsBox q = true) :
    b.intersectsBox q = true := by
  simp only [Box.intersectsBox, Bool.not_eq_true', Bool.or_eq_false_iff,
    decide_eq_false_iff_not, not_lt] at h ⊢
  obtain ⟨s1, s2, s3, s4, s5, s6⟩ := hsub
  obtain ⟨⟨⟨⟨⟨h1, h2⟩, h3⟩, h4⟩, h5⟩, h6⟩ := h
  refine ⟨⟨⟨⟨⟨?_, ?_⟩, ?_⟩, ?_⟩, ?_⟩, ?_⟩ <;> linarith

/-- For a finite `this`-box, the extended-box test agrees with the finite one. -/
theorem EBox.intersectsBox_toE (a b : Box) :
    (Box.toE a).intersectsBox b = a.intersectsBox b := by
  simp [EBox.intersectsBox, Box.toE, Box.intersectsBox, EQv.lt, gt_iff_lt]

/-- The empty `new Box3()` intersects no finite box under the three.js test:
`b.max.x < +Infinity` already holds. -/
theorem emptyBox3_intersects_none (b : Box) :
    emptyBox3.intersectsBox b = false := by
  simp [emptyBox3, EBox.intersectsBox, EQv.lt]

/-! ## ObjectStore (`src/core/ObjectStore.ts`)

One 32-byte record = six bounds floats + id + next.  The byte buffer is
modelled as a total function from slot index to record (zero-initialised,
matching a fresh `ArrayBuffer`); `capacity` is carried as a number so the
doubling growth law stays observable. -/

theorem SChain.head_ge {s : Store} {h : ℤ} {l : List ℕ} :
    SChain s h l → h = -1 ∨ ∃ i : ℕ, h = (i : ℤ) ∧ i < s.next := by
  rintro (_ | ⟨hi, _⟩)
  · exact Or.inl rfl
  · exact Or.inr ⟨_, rfl, hi⟩

theorem SChain.deterministic {s : Store} {h : ℤ} :
    ∀ {l₁ l₂ : List ℕ}, SChain s h l₁ → SChain s h l₂ → l₁ = l₂ := by
  intro l₁
  induction l₁ generalizing h with
  | nil =>
    intro l₂ h1 h2
    cases h1
    cases h2
    rfl
  | cons a t ih =>
    intro l₂ h1 h2
    cases h1 with
    | cons ha htail =>
      cases h2 with
      | cons hb htail2 =>
        exact congrArg _ (ih htail htail2)

theorem SChain.chain_eq {s : Store} {h : ℤ} {l : List ℕ}
    (hc : SChain s h l) : ∀ fuel, l.length ≤ fuel → Store.chain s fuel h = l := by
  induction hc with
  | nil =>
    intro fuel _
    cases fuel <;> simp [Store.chain]
  | @cons i l hi htail ih =>
    intro fuel hlen
    cases fuel with
    | zero => simp at hlen
    | succ f =>
      have hne : (i : ℤ) ≠ -1 := by omega
      simp only [Store.chain, hne, if_false]
      rw [Int.toNat_natCast, ih f (by simp only [List.length_cons] at hlen; omega)]

theorem SChain.count_eq {s : Store} {h : ℤ} {l : List ℕ}
    (hc : SChain s h l) : ∀ fuel, l.length ≤ fuel → Store.count s fuel h = l.length := by
  induction hc with
  | nil =>
    intro fuel _
    cases fuel <;> simp [Store.count]
  | @cons i l hi htail ih =>
    intro fuel hlen
    cases fuel with
    | zero => simp at hlen
    | succ f =>
      have hne : (i : ℤ) ≠ -1 := by omega
      simp only [Store.count, hne, if_false]
      rw [Int.toNat_natCast, ih f (by simp only [List.length_cons] at hlen; omega)]
      simp [List.length_cons]
      omega

/-- A `NoDup` list of naturals all below `n` has length at most `n`. -/
theorem length_le_of_nodup_lt {l : List ℕ} {n : ℕ}
    (hnd : l.Nodup) (hlt : ∀ i ∈ l, i < n) : l.length ≤ n := by
  classical
  have hsub : l.toFinset ⊆ Finset.range n := by
    intro i hi
    simp only [Finset.mem_range]
    exact hlt i (List.mem_toFinset.mp hi)
  have := Finset.card_le_card hsub
  rwa [List.toFinset_card_of_nodup hnd, Finset.card_range] at this

/-! ## Octree nodes (`src/core/Octree.ts`, class `Node`)

`children = []` models the source's `children = null`; a split node always
has exactly eight children. -/

theorem ite_gt_min (x y : ℚ) : (if x > y then y else x) = min x y := by
  rcases le_or_lt x y with h | h
  · simp [min_def, h, not_lt.mpr h]
  · simp [min_def, h, not_le.mpr h, le_of_lt h]

theorem ite_gt_max (x y : ℚ) : (if x > y then x else y) = max x y := by
  rcases le_or_lt x y with h | h
  · simp [max_def, h, not_lt.mpr h]
  · simp [max_def, h, not_le.mpr h, le_of_lt h]

/-- The sequential slab algorithm equals the entry/exit characterization:
on a non-empty slab interval it returns `t_enter` when non-negative, else
`t_exit` when non-negative, else a miss; on an empty interval, a miss. -/
theorem intersectRayBoxSlab_spec (ox oy oz ix iy iz : ℚ) (b : Box) :
    intersectRayBoxSlab ox oy oz ix iy iz b =
      if tEnter ox oy oz ix iy iz b ≤ tExit ox oy oz ix iy iz b then
        (if 0 ≤ tEnter ox oy oz ix iy iz b then some (tEnter ox oy oz ix iy iz b)
         else if 0 ≤ tExit ox oy oz ix iy iz b then some (tExit ox oy oz ix iy iz b)
         else none)
      else none := by
  unfold intersectRayBoxSlab tEnter tExit axLo axHi
  simp only [ite_gt_min, ite_gt_max, ge_iff_le]
  generalize (b.minx - ox) * ix = a1
  generalize (b.maxx - ox) * ix = a2
  generalize (b.miny - oy) * iy = b1
  generalize (b.maxy - oy) * iy = b2
  generalize (b.minz - oz) * iz = c1
  generalize (b.maxz - oz) * iz = c2
  have hx : min a1 a2 ≤ max a1 a2 := min_le_max
  have hy : min b1 b2 ≤ max b1 b2 := min_le_max
  have hz : min c1 c2 ≤ max c1 c2 := min_le_max
  generalize min a1 a2 = lx at *
  generalize max a1 a2 = ux at *
  generalize min b1 b2 = ly at *
  generalize max b1 b2 = uy at *
  generalize min c1 c2 = lz at *
  generalize max c1 c2 = uz at *
  split_ifs <;>
    first
      | rfl
      | (exfalso
         simp only [not_le, not_lt, not_or] at *
         simp only [lt_sup_iff, sup_lt_iff, lt_inf_iff, inf_lt_iff, le_sup_iff,
           sup_le_iff, le_inf_iff, inf_le_iff] at *
         casesm* _ ∨ _, _ ∧ _ <;> linarith)
      | (congr 1
         simp [sup_comm, sup_left_comm, sup_assoc, inf_comm, inf_left_comm, inf_assoc])

/-- `intersectRayBounds` and `intersectRayBoxSlab` compute the same
function. -/
theorem intersectRayBounds_eq_slab (ox oy oz ix iy iz : ℚ) (b : Box) :
    intersectRayBounds ox oy oz ix iy iz b = intersectRayBoxSlab ox oy oz ix iy iz b := rfl

/-- `selChild` only returns members of the children list. -/
theorem selChild_mem {cs : List Node} {v : ℚ} {c : Node}
    (h : selChild cs v = some c) : c ∈ cs := by
  unfold selChild at h
  split at h
  · exact List.getElem?_mem h
  · exact absurd h (by simp)

/-- Every hit emitted by the raycast stack loop is a genuine record of a
node of one of the stacked subtrees, and its distance is the record's
slab value — no matter the fuel. -/
theorem raycastGo_sound {s : Store} {ox oy oz ix iy iz : ℚ} :
    ∀ (fuel : ℕ) (stack : List (Option Node)) (id : ℤ) (dist : ℚ),
      (id, dist) ∈ raycastGo s ox oy oz ix iy iz fuel stack →
      ∃ n0 n j, some n0 ∈ stack ∧ SubNode n n0 ∧
        j ∈ Store.chain s (s.next + 1) n.head ∧ (s.buf j).id = id ∧
        intersectRayBounds ox oy oz ix iy iz (s.buf j).box = some dist := by
  intro fuel
  induction fuel with
  | zero => intro stack id dist h; simp [raycastGo] at h
  | succ f ih =>
    intro stack id dist h
    match stack with
    | [] => simp [raycastGo] at h
    | none :: rest => simp [raycastGo] at h
    | some n :: rest =>
      rw [raycastGo, List.mem_append] at h
      rcases h with h | h
      · rcases List.mem_filterMap.mp h with ⟨j, hj, hmatch⟩
        rcases hsl : intersectRayBounds ox oy oz ix iy iz (s.buf j).box with _ | t
        · rw [hsl] at hmatch; simp at hmatch
        · rw [hsl] at hmatch
          simp only [Option.some.injEq, Prod.mk.injEq] at hmatch
          exact ⟨n, n, j, List.mem_cons_self _ _, SubNode.refl n, hj,
            hmatch.1, by rw [hsl, hmatch.2]⟩
      · rcases ih _ _ _ h with ⟨n0, nn, j, hn0, hsub, hj, hid, hslab⟩
        rcases List.mem_append.mp hn0 with hp | hr
        · rcases List.mem_map.mp hp with ⟨v, _, hsel⟩
          have hmem : n0 ∈ n.children := selChild_mem hsel
          exact ⟨n, nn, j, List.mem_cons_self _ _, SubNode.child hmem hsub, hj, hid, hslab⟩
        · exact ⟨n0, nn, j, List.mem_cons_of_mem _ hr, hsub, hj, hid, hslab⟩

/-! ## Invariant machinery for the insert/remove/query correctness proofs -/

/-- Member-based induction principle for the nested `Node` inductive. -/
theorem Node.memRec {P : Node → Prop}
    (h : ∀ lv bx hd cs, (∀ c ∈ cs, P c) → P (.mk lv bx hd cs)) : ∀ n, P n := by
  have key : ∀ k n, sizeOf n ≤ k → P n := by
    intro k
    induction k with
    | zero =>
      intro n hn
      obtain ⟨lv, bx, hd, cs⟩ := n
      simp [Node.mk.sizeOf_spec] at hn
    | succ k ih =>
      intro n hn
      obtain ⟨lv, bx, hd, cs⟩ := n
      refine h lv bx hd cs fun c hc => ih c ?_
      have h1 := List.sizeOf_lt_of_mem hc
      simp only [Node.mk.sizeOf_spec] at hn
      omega
  intro n
  exact key (sizeOf n) n le_rfl

/-- A valid box contained in another intersects it (in either receiver
order). -/
theorem intersects_of_subset_valid {a b : Box} (hv : a.valid) (hs : a.subset b) :
    b.intersectsBox a = true ∧ a.intersectsBox b = true := by
  obtain ⟨v1, v2, v3⟩ := hv
  obtain ⟨s1, s2, s3, s4, s5, s6⟩ := hs
  constructor <;>
    (simp only [Box.intersectsBox, Bool.not_eq_true', Bool.or_eq_false_iff,
       decide_eq_false_iff_not, not_lt, gt_iff_lt]
     refine ⟨⟨⟨⟨⟨?_, ?_⟩, ?_⟩, ?_⟩, ?_⟩, ?_⟩ <;> linarith)

/-- Specification of `ObjectStore.add` under the reachable-store bound
on the free list. -/
theorem Store.add_spec (s : Store) (h : ℤ) (b : Box) (i : ℤ)
    (hfb : ∀ j ∈ s.freeList, j < s.next) :
    (s.add h b i).1.buf (s.add h b i).2 = ⟨b, i, h⟩ ∧
    (∀ j : ℕ, j ≠ (s.add h b i).2 → (s.add h b i).1.buf j = s.buf j) ∧
    s.next ≤ (s.add h b i).1.next ∧
    (s.add h b i).2 < (s.add h b i).1.next ∧
    ((s.add h b i).2 ∈ s.freeList ∨ (s.add h b i).2 = s.next) ∧
    ((s.add h b i).1.freeList = s.freeList.tail ∨ (s.add h b i).1.freeList = s.freeList) ∧
    (∀ j ∈ (s.add h b i).1.freeList, j ∈ s.freeList) ∧
    ((s.add h b i).2 ∉ (s.add h b i).1.freeList ∨ ¬ s.freeList.Nodup) := by
  unfold Store.add Store.write
  cases hfl : s.freeList with
  | nil =>
    dsimp only
    refine ⟨by simp, fun j hj => ?_, ?_, ?_, by simp, ?_, ?_, ?_⟩
    · rw [if_neg hj]
      rcases le_or_lt s.capacity s.next with hc | hc <;> simp [hc, ge_iff_le, not_le.mpr]
    · rcases le_or_lt s.capacity s.next with hc | hc <;>
        simp [hc, ge_iff_le, not_le.mpr, Nat.le_succ]
    · rcases le_or_lt s.capacity s.next with hc | hc <;>
        simp [hc, ge_iff_le, not_le.mpr, Nat.lt_succ_self]
    · rcases le_or_lt s.capacity s.next with hc | hc <;> simp [hc, ge_iff_le, not_le.mpr]
    · rcases le_or_lt s.capacity s.next with hc | hc <;> simp [hc, ge_iff_le, not_le.mpr]
    · rcases le_or_lt s.capacity s.next with hc | hc <;> simp [hc, ge_iff_le, not_le.mpr]
  | cons x rest =>
    have hx : x < s.next := hfb x (by simp [hfl])
    dsimp only
    refine ⟨by simp, fun j hj => ?_, ?_, ?_, by simp, ?_, ?_, ?_⟩
    · rw [if_neg hj]
      rcases le_or_lt s.capacity x with hc | hc <;> simp [hc, ge_iff_le, not_le.mpr]
    · rcases le_or_lt s.capacity x with hc | hc <;> simp [hc, ge_iff_le, not_le.mpr]
    · rcases le_or_lt s.capacity x with hc | hc <;> simp [hc, ge_iff_le, not_le.mpr, hx]
    · rcases le_or_lt s.capacity x with hc | hc <;> simp [hc, ge_iff_le, not_le.mpr]
    · rcases le_or_lt s.capacity x with hc | hc <;>
        (simp [hc, ge_iff_le, not_le.mpr]
         exact fun j hj => Or.inr hj)
    · rcases le_or_lt s.capacity x with hc | hc <;>
        (rcases Classical.em (x :: rest).Nodup with hnd | hnd
         · left
           simp [hc, ge_iff_le, not_le.mpr, (List.nodup_cons.mp hnd).1]
         · right
           exact hnd)

/-- Chains survive a store change that grows `next` and leaves their
slots' records untouched. -/
theorem SChain.mono {s s' : Store} (hnext : s.next ≤ s'.next) :
    ∀ {h : ℤ} {l : List ℕ}, SChain s h l → (∀ j ∈ l, s'.buf j = s.buf j) →
      SChain s' h l := by
  intro h l hc
  induction hc with
  | nil => intro _; exact SChain.nil
  | @cons i l hi htail ih =>
    intro hbuf
    refine SChain.cons (lt_of_lt_of_le hi hnext) ?_
    rw [hbuf i (List.mem_cons_self _ _)]
    exact ih fun j hj => hbuf j (List.mem_cons_of_mem _ hj)

/-- All slots of a chain are below `next`. -/
theorem SChain.slots_lt {s : Store} :
    ∀ {h : ℤ} {l : List ℕ}, SChain s h l → ∀ j ∈ l, j < s.next := by
  intro h l hc
  induction hc with
  | nil => intro j hj; cases hj
  | @cons i l hi _ ih =>
    intro j hj
    rcases List.mem_cons.mp hj with rfl | hj
    · exact hi
    · exact ih j hj

theorem SChain_append_iff {s : Store} {h : ℤ} {xs ys : List ℕ} :
    SChain s h (xs ++ ys) ↔ ∃ m, SChainSeg s h xs m ∧ SChain s m ys := by
  constructor
  · intro hc
    induction xs generalizing h with
    | nil => exact ⟨h, SChainSeg.nil h, hc⟩
    | cons a t ih =>
      cases hc with
      | cons ha htail =>
        rcases ih htail with ⟨m, hseg, hys⟩
        exact ⟨m, SChainSeg.cons ha hseg, hys⟩
  · rintro ⟨m, hseg, hys⟩
    induction hseg with
    | nil => exact hys
    | cons ha _ ih => exact SChain.cons ha (ih hys)

theorem SChainSeg_mono {s s' : Store} (hnext : s.next ≤ s'.next) :
    ∀ {h : ℤ} {l : List ℕ} {m : ℤ}, SChainSeg s h l m →
      (∀ j ∈ l, s'.buf j = s.buf j) → SChainSeg s' h l m := by
  intro h l m hseg
  induction hseg with
  | nil h => intro _; exact SChainSeg.nil h
  | @cons i l h' hi _ ih =>
    intro hbuf
    refine SChainSeg.cons (lt_of_lt_of_le hi hnext) ?_
    rw [hbuf i (List.mem_cons_self _ _)]
    exact ih fun j hj => hbuf j (List.mem_cons_of_mem _ hj)

theorem SChainSeg_slots_lt {s : Store} :
    ∀ {h : ℤ} {l : List ℕ} {m : ℤ}, SChainSeg s h l m → ∀ j ∈ l, j < s.next := by
  intro h l m hseg
  induction hseg with
  | nil => intro j hj; cases hj
  | @cons i l h' hi _ ih =>
    intro j hj
    rcases List.mem_cons.mp hj with rfl | hj
    · exact hi
    · exact ih j hj

theorem SChainSeg.nil_inv {s : Store} {h m : ℤ} (hseg : SChainSeg s h [] m) :
    m = h := by
  cases hseg
  rfl

theorem SChainSeg.last_next {s : Store} :
    ∀ {l : List ℕ} {h m : ℤ}, SChainSeg s h l m → l ≠ [] →
      ∃ p, l.getLast? = some p ∧ (s.buf p).next = m ∧ p ∈ l := by
  intro l
  induction l with
  | nil => intro h m _ hne; exact absurd rfl hne
  | cons a t ih =>
    intro h m hseg _
    cases hseg with
    | cons ha htail =>
      cases t with
      | nil =>
        exact ⟨a, by simp, (SChainSeg.nil_inv htail).symm, by simp⟩
      | cons b u =>
        rcases ih htail (by simp) with ⟨p, h1, h2, h3⟩
        exact ⟨p, by rw [List.getLast?_cons_cons]; exact h1, h2,
          List.mem_cons_of_mem _ h3⟩

/-- The removal walk when no record of the chain carries the id: the
store and the returned head are untouched. -/
theorem Store.removeGo_not_found {s : Store} {id origHead : ℤ} :
    ∀ {l : List ℕ} {cur : ℤ}, SChain s cur l →
      (∀ j ∈ l, (s.buf j).id ≠ id) →
      ∀ fuel, l.length ≤ fuel → ∀ prev,
        Store.removeGo s origHead id fuel prev cur = (s, origHead) := by
  intro l cur hc
  induction hc with
  | nil =>
    intro _ fuel _ prev
    cases fuel <;> simp [Store.removeGo]
  | @cons i l hi htail ih =>
    intro hno fuel hf prev
    cases fuel with
    | zero => simp at hf
    | succ f =>
      have hne : ((i : ℕ) : ℤ) ≠ -1 := by omega
      rw [Store.removeGo, if_neg hne]
      simp only [Int.toNat_natCast]
      rw [if_neg (hno i (List.mem_cons_self _ _))]
      exact ih (fun j hj => hno j (List.mem_cons_of_mem _ hj)) f
        (by simp only [List.length_cons] at hf; omega) _

/-- The removal walk when the first match sits after the unmatched
prefix `l1`: the matching slot is freed; if it was the first walked slot
and `prev = -1` the new head is its `next`, otherwise the predecessor
(`l1`'s last slot, or `prev` when `l1 = []`) is spliced and the original
head is returned. -/
theorem Store.removeGo_found (l1 : List ℕ) :
    ∀ {s : Store} {id origHead : ℤ} {c : ℕ} {l2 : List ℕ} {cur : ℤ} (prev : ℤ),
      SChain s cur (l1 ++ c :: l2) →
      (∀ j ∈ l1, (s.buf j).id ≠ id) →
      (s.buf c).id = id →
      ∀ fuel, l1.length + 1 ≤ fuel →
      Store.removeGo s origHead id fuel prev cur =
        (if (match l1.getLast? with | some p => ((p : ℕ) : ℤ) | none => prev) = -1 then
          ({ s with freeList := c :: s.freeList }, (s.buf c).next)
         else
          ({ s with
              buf := fun j =>
                if j = (match l1.getLast? with
                        | some p => ((p : ℕ) : ℤ)
                        | none => prev).toNat
                then { s.buf j with next := (s.buf c).next } else s.buf j,
              freeList := c :: s.freeList }, origHead)) := by
  induction l1 with
  | nil =>
    intro s id origHead c l2 cur prev hc hno hm fuel hf
    cases fuel with
    | zero => simp at hf
    | succ f =>
      simp only [List.nil_append] at hc
      cases hc with
      | cons hi htail =>
        have hne : ((c : ℕ) : ℤ) ≠ -1 := by omega
        rw [Store.removeGo, if_neg hne]
        simp only [Int.toNat_natCast, List.getLast?_nil]
        rw [if_pos hm]
  | cons a t ih =>
    intro s id origHead c l2 cur prev hc hno hm fuel hf
    cases fuel with
    | zero => simp at hf
    | succ f =>
      simp only [List.cons_append] at hc
      cases hc with
      | cons hi htail =>
        have hne : ((a : ℕ) : ℤ) ≠ -1 := by omega
        rw [Store.removeGo, if_neg hne]
        simp only [Int.toNat_natCast]
        rw [if_neg (hno a (List.mem_cons_self _ _))]
        rw [ih (a : ℤ) htail (fun j hj => hno j (List.mem_cons_of_mem _ hj)) hm f
          (by simp only [List.length_cons] at hf; omega)]
        cases t with
        | nil =>
          simp only [List.getLast?_nil, List.getLast?_singleton]
        | cons b u =>
          rw [List.getLast?_cons_cons]
          cases hq : (b :: u).getLast? with
          | none => simp at hq
          | some q => rfl

/-- Unfolded membership form of the three.js box-overlap test. -/
theorem intersectsBox_iff (a b : Box) :
    a.intersectsBox b = true ↔
      a.minx ≤ b.maxx ∧ b.minx ≤ a.maxx ∧ a.miny ≤ b.maxy ∧ b.miny ≤ a.maxy ∧
        a.minz ≤ b.maxz ∧ b.minz ≤ a.maxz := by
  simp only [Box.intersectsBox, Bool.not_eq_true', Bool.or_eq_false_iff,
    decide_eq_false_iff_not, not_lt, gt_iff_lt]
  tauto

/-- Each octant of a valid parent box is a valid box. -/
theorem octantBox_valid {pbox : Box} (hv : pbox.valid) (i : ℕ) :
    (octantBox pbox i).valid := by
  obtain ⟨v1, v2, v3⟩ := hv
  unfold octantBox Box.valid
  dsimp only
  split_ifs <;> refine ⟨?_, ?_, ?_⟩ <;> linarith

/-- Each octant of a valid parent box is contained in it. -/
theorem octantBox_subset {pbox : Box} (hv : pbox.valid) (i : ℕ) :
    (octantBox pbox i).subset pbox := by
  obtain ⟨v1, v2, v3⟩ := hv
  unfold octantBox Box.subset
  dsimp only
  split_ifs <;> refine ⟨?_, ?_, ?_, ?_, ?_, ?_⟩ <;> linarith

/-- `getChildIndex` is the branch chain over the six per-axis decisions. -/
theorem getChildIndex_eq_chainIdx (nbox b : Box) :
    getChildIndex nbox b =
      chainIdx (decide (b.maxx ≤ (nbox.minx + nbox.maxx) / 2))
        (decide (b.minx ≥ (nbox.minx + nbox.maxx) / 2))
        (decide (b.maxy ≤ (nbox.miny + nbox.maxy) / 2))
        (decide (b.miny ≥ (nbox.miny + nbox.maxy) / 2))
        (decide (b.maxz ≤ (nbox.minz + nbox.maxz) / 2))
        (decide (b.minz ≥ (nbox.minz + nbox.maxz) / 2)) := rfl

/-- A non-`-1` classification is an octant index. -/
theorem getChildIndex_lt (nbox b : Box) (h : getChildIndex nbox b ≠ -1) :
    0 ≤ getChildIndex nbox b ∧ (getChildIndex nbox b).toNat < 8 := by
  rw [getChildIndex_eq_chainIdx] at h ⊢
  revert h
  generalize (decide (b.maxx ≤ (nbox.minx + nbox.maxx) / 2)) = lX
  generalize (decide (b.minx ≥ (nbox.minx + nbox.maxx) / 2)) = uX
  generalize (decide (b.maxy ≤ (nbox.miny + nbox.maxy) / 2)) = lY
  generalize (decide (b.miny ≥ (nbox.miny + nbox.maxy) / 2)) = uY
  generalize (decide (b.maxz ≤ (nbox.minz + nbox.maxz) / 2)) = lZ
  generalize (decide (b.minz ≥ (nbox.minz + nbox.maxz) / 2)) = uZ
  revert lX uX lY uY lZ uZ
  decide

/-- A non-`-1` classification satisfies the per-axis fit conditions of
its octant's bits. -/
theorem getChildIndex_fits {nbox b : Box} (h : getChildIndex nbox b ≠ -1) :
    fitsBits nbox b (getChildIndex nbox b).toNat := by
  rw [getChildIndex_eq_chainIdx] at h ⊢
  revert h
  generalize hlX : (decide (b.maxx ≤ (nbox.minx + nbox.maxx) / 2)) = lX
  generalize huX : (decide (b.minx ≥ (nbox.minx + nbox.maxx) / 2)) = uX
  generalize hlY : (decide (b.maxy ≤ (nbox.miny + nbox.maxy) / 2)) = lY
  generalize huY : (decide (b.miny ≥ (nbox.miny + nbox.maxy) / 2)) = uY
  generalize hlZ : (decide (b.maxz ≤ (nbox.minz + nbox.maxz) / 2)) = lZ
  generalize huZ : (decide (b.minz ≥ (nbox.minz + nbox.maxz) / 2)) = uZ
  cases lX <;> cases uX <;> cases lY <;> cases uY <;> cases lZ <;> cases uZ <;>
    intro h <;> simp_all [chainIdx, fitsBits]

/-- A valid record box that intersects the node box and classifies into an
octant intersects that octant's box — the child's insert self-filter
passes for every record `split` hands down. -/
theorem classify_intersects_octant {nbox b : Box} (hn : nbox.valid) (hb : b.valid)
    (hi : nbox.intersectsBox b = true) (h : getChildIndex nbox b ≠ -1) :
    (octantBox nbox (getChildIndex nbox b).toNat).intersectsBox b = true := by
  have hf := getChildIndex_fits h
  rw [intersectsBox_iff] at hi ⊢
  obtain ⟨n1, n2, n3⟩ := hn
  obtain ⟨b1, b2, b3⟩ := hb
  unfold fitsBits at hf
  unfold octantBox
  dsimp only
  obtain ⟨hfx, hfy, hfz⟩ := hf
  obtain ⟨i1, i2, i3, i4, i5, i6⟩ := hi
  split_ifs at hfx hfy hfz ⊢ <;>
    refine ⟨?_, ?_, ?_, ?_, ?_, ?_⟩ <;> linarith

/-- Unfolding of `TreeInv` at a node. -/
theorem TreeInv_mk {s : Store} {md level : ℕ} {nbox : Box} {head : ℤ}
    {cs : List Node} {L : List ℕ} :
    TreeInv s md (.mk level nbox head cs) L ↔
      nbox.valid ∧ level ≤ md ∧
      (cs = [] ∨ (cs.length = 8 ∧ level < md)) ∧
      ∃ cl ol, KidsInv s md (level + 1) nbox 0 cs cl ∧ SChain s head ol ∧
        (∀ j ∈ ol, nbox.intersectsBox (s.buf j).box = true ∧ (s.buf j).box.valid) ∧
        L = cl ++ ol := by
  rw [TreeInv]

/-- Unfolding of `KidsInv` at the empty list. -/
theorem KidsInv_nil {s : Store} {md lv : ℕ} {pbox : Box} {pos : ℕ} {L : List ℕ} :
    KidsInv s md lv pbox pos [] L ↔ L = [] := by
  rw [KidsInv]

/-- Unfolding of `KidsInv` at a cons. -/
theorem KidsInv_cons {s : Store} {md lv : ℕ} {pbox : Box} {pos : ℕ} {c : Node}
    {cs : List Node} {L : List ℕ} :
    KidsInv s md lv pbox pos (c :: cs) L ↔
      ∃ l1 l2, (c.level = lv ∧ c.box = octantBox pbox pos ∧ TreeInv s md c l1) ∧
        KidsInv s md lv pbox (pos + 1) cs l2 ∧ L = l1 ++ l2 := by
  rw [KidsInv]

/-- Record payloads determine `recsOfL`. -/
theorem recsOfL_congr {s s' : Store} {L : List ℕ}
    (h : ∀ j ∈ L, (s'.buf j).box = (s.buf j).box ∧ (s'.buf j).id = (s.buf j).id) :
    recsOfL s' L = recsOfL s L := by
  unfold recsOfL
  exact List.map_congr_left fun j hj => by rw [(h j hj).1, (h j hj).2]

/-- `TreeInv` survives a store change that grows `next` and leaves the
referenced slots' records untouched. -/
theorem TreeInv_mono {s s' : Store} {md : ℕ} (hnext : s.next ≤ s'.next) :
    ∀ n : Node, ∀ L : List ℕ, TreeInv s md n L →
      (∀ j ∈ L, s'.buf j = s.buf j) → TreeInv s' md n L := by
  refine Node.memRec ?_
  intro lv bx hd cs ihc L hinv hbuf
  rw [TreeInv_mk] at hinv ⊢
  obtain ⟨hv, hlv, hcs, cl, ol, hk, hch, hrec, rfl⟩ := hinv
  refine ⟨hv, hlv, hcs, cl, ol, ?_, ?_, ?_, rfl⟩
  · have key : ∀ cs' : List Node,
        (∀ c ∈ cs', ∀ L, TreeInv s md c L →
          (∀ j ∈ L, s'.buf j = s.buf j) → TreeInv s' md c L) →
        ∀ pos cl', KidsInv s md (lv + 1) bx pos cs' cl' →
          (∀ j ∈ cl', s'.buf j = s.buf j) → KidsInv s' md (lv + 1) bx pos cs' cl' := by
      intro cs'
      induction cs' with
      | nil =>
        intro _ pos cl' hk hb
        rw [KidsInv_nil] at hk ⊢
        exact hk
      | cons c cst ih =>
        intro hmem pos cl' hk hb
        rw [KidsInv_cons] at hk ⊢
        obtain ⟨l1, l2, ⟨hl, hob, hti⟩, hkt, rfl⟩ := hk
        exact ⟨l1, l2,
          ⟨hl, hob, hmem c (List.mem_cons_self _ _) l1 hti
            (fun j hj => hb j (List.mem_append_left _ hj))⟩,
          ih (fun c' hc' => hmem c' (List.mem_cons_of_mem _ hc')) _ l2 hkt
            (fun j hj => hb j (List.mem_append_right _ hj)), rfl⟩
    exact key cs ihc 0 cl hk fun j hj => hbuf j (List.mem_append_left _ hj)
  · exact SChain.mono hnext hch fun j hj => hbuf j (List.mem_append_right _ hj)
  · intro j hj
    rw [hbuf j (List.mem_append_right _ hj)]
    exact hrec j hj

/-- The last element of a list is a member. -/
theorem mem_of_getLast?_eq {l : List ℕ} {p : ℕ} (h : l.getLast? = some p) : p ∈ l := by
  rcases List.mem_getLast?_eq_getLast (show p ∈ l.getLast? from h) with ⟨hne, hp⟩
  rw [hp]
  exact List.getLast_mem hne

/-- Redirecting the `next` of a segment's last slot (others untouched)
yields a segment to the new target. -/
theorem SChainSeg.splice {s s' : Store} (hnext : s.next ≤ s'.next) :
    ∀ {l : List ℕ} {h m m' : ℤ} {p : ℕ}, SChainSeg s h l m → l.getLast? = some p →
      l.Nodup → (∀ j ∈ l, j ≠ p → s'.buf j = s.buf j) →
      (s'.buf p).next = m' → SChainSeg s' h l m' := by
  intro l
  induction l with
  | nil =>
    intro h m m' p _ hl
    simp at hl
  | cons a t ih =>
    intro h m m' p hseg hl hnd hb hp
    cases hseg with
    | cons ha htail =>
      cases t with
      | nil =>
        have hpa : p = a := by simpa using hl.symm
        subst hpa
        refine SChainSeg.cons (lt_of_lt_of_le ha hnext) ?_
        rw [← hp]
        exact SChainSeg.nil _
      | cons b u =>
        rw [List.getLast?_cons_cons] at hl
        have hpm : p ∈ b :: u := mem_of_getLast?_eq hl
        have hap : a ≠ p := fun he => (List.nodup_cons.mp hnd).1 (he ▸ hpm)
        refine SChainSeg.cons (lt_of_lt_of_le ha hnext) ?_
        rw [hb a (List.mem_cons_self _ _) hap]
        exact ih htail hl (List.nodup_cons.mp hnd).2
          (fun j hj hjp => hb j (List.mem_cons_of_mem _ hj) hjp) hp

/-- Decompose a chain at an interior slot. -/
theorem SChain.decomp {s : Store} {h : ℤ} {l1 l2 : List ℕ} {j0 : ℕ}
    (hc : SChain s h (l1 ++ j0 :: l2)) :
    SChainSeg s h l1 (j0 : ℤ) ∧ j0 < s.next ∧ SChain s (s.buf j0).next l2 := by
  rcases SChain_append_iff.mp hc with ⟨m, hseg, htail⟩
  cases htail with
  | cons hj0 htl => exact ⟨hseg, hj0, htl⟩

/-- `ObjectStore.remove` on a chain with no matching record: the store
and head are returned untouched. -/
theorem Store.remove_chain_not_found {s : Store} {head : ℤ} {ol : List ℕ} {id : ℤ}
    (hc : SChain s head ol) (hno : ∀ j ∈ ol, (s.buf j).id ≠ id)
    {fuel : ℕ} (hf : ol.length ≤ fuel) :
    Store.remove s fuel head id = (s, head) := by
  unfold Store.remove
  exact Store.removeGo_not_found hc hno fuel hf (-1)

/-- `ObjectStore.remove` on a chain whose first match is the slot `j0`:
the slot is unlinked and pushed on the free list, `next` is unchanged,
every record payload (box, id) is unchanged, slots outside the unmatched
prefix are untouched, and the returned head points at the old chain minus
`j0`. -/
theorem Store.remove_chain_found {s : Store} {head : ℤ} {l1 l2 : List ℕ} {j0 : ℕ} {id : ℤ}
    (hc : SChain s head (l1 ++ j0 :: l2)) (hnd : (l1 ++ j0 :: l2).Nodup)
    (hno : ∀ j ∈ l1, (s.buf j).id ≠ id) (hm : (s.buf j0).id = id)
    {fuel : ℕ} (hf : l1.length + 1 ≤ fuel) :
    SChain (Store.remove s fuel head id).1 (Store.remove s fuel head id).2 (l1 ++ l2) ∧
    (Store.remove s fuel head id).1.next = s.next ∧
    (Store.remove s fuel head id).1.freeList = j0 :: s.freeList ∧
    (∀ j, ((Store.remove s fuel head id).1.buf j).box = (s.buf j).box ∧
      ((Store.remove s fuel head id).1.buf j).id = (s.buf j).id) ∧
    (∀ j, j ∉ l1 → (Store.remove s fuel head id).1.buf j = s.buf j) ∧
    ((l1 = [] ∧ (Store.remove s fuel head id).2 = (s.buf j0).next) ∨
      (l1 ≠ [] ∧ (Store.remove s fuel head id).2 = head)) := by
  unfold Store.remove
  rw [Store.removeGo_found l1 (-1) hc hno hm fuel hf]
  obtain ⟨hseg, hj0lt, htl⟩ := SChain.decomp hc
  obtain ⟨hnd1, hnd2, hdisj⟩ := List.nodup_append.mp hnd
  cases hl1 : l1.getLast? with
  | none =>
    have hl1nil : l1 = [] := List.getLast?_eq_none_iff.mp hl1
    subst hl1nil
    rw [if_pos rfl]
    refine ⟨?_, rfl, rfl, fun j => ⟨rfl, rfl⟩, fun j _ => rfl, Or.inl ⟨rfl, rfl⟩⟩
    simp only [List.nil_append]
    refine SChain.mono ?_ htl fun j _ => rfl
    exact le_rfl
  | some p =>
    have hpl1 : p ∈ l1 := mem_of_getLast?_eq hl1
    have hpne : ((p : ℕ) : ℤ) ≠ -1 := by omega
    rw [if_neg hpne]
    simp only [Int.toNat_natCast]
    have hpj0 : p ≠ j0 := fun he => hdisj hpl1 (he ▸ List.mem_cons_self _ _)
    have hl1ne : l1 ≠ [] := fun he => by rw [he] at hl1; simp at hl1
    refine ⟨?_, trivial, trivial, ?_, ?_, Or.inr ⟨hl1ne, trivial⟩⟩
    · refine SChain_append_iff.mpr ⟨(s.buf j0).next, ?_, ?_⟩
      · refine SChainSeg.splice ?_ hseg hl1 hnd1 ?_ ?_
        · exact le_rfl
        · intro j _ hjp
          dsimp only
          rw [if_neg hjp]
        · dsimp only
          rw [if_pos rfl]
      · refine SChain.mono ?_ htl ?_
        · exact le_rfl
        intro j hj
        dsimp only
        rw [if_neg]
        intro he
        exact hdisj (he ▸ hpl1) (List.mem_cons_of_mem _ hj)
    · intro j
      by_cases hj : j = p
      · rw [if_pos hj]
        subst hj
        exact ⟨rfl, rfl⟩
      · rw [if_neg hj]
        exact ⟨rfl, rfl⟩
    · intro j hj
      rw [if_neg (fun he : j = p => hj (he.symm ▸ hpl1))]

/-- `removeKids` with a no-op remover is a no-op. -/
theorem removeKids_id {remover : Node → Store → Node × Store} :
    ∀ {cs : List Node} {s : Store}, (∀ c ∈ cs, remover c s = (c, s)) →
      removeKids remover cs s = (cs, s) := by
  intro cs
  induction cs with
  | nil => intro s _; rfl
  | cons c cst ih =>
    intro s h
    unfold removeKids
    rw [h c (List.mem_cons_self _ _)]
    dsimp only
    rw [ih fun c' hc' => h c' (List.mem_cons_of_mem _ hc')]

/-- Every record referenced from a subtree has a valid box intersecting
the subtree root's box. -/
theorem TreeInv_rec_intersects {s : Store} {md : ℕ} :
    ∀ n : Node, ∀ L : List ℕ, TreeInv s md n L →
      ∀ j ∈ L, n.box.intersectsBox (s.buf j).box = true ∧ (s.buf j).box.valid := by
  refine Node.memRec ?_
  intro lv bx hd cs ihc L hinv j hj
  rw [TreeInv_mk] at hinv
  obtain ⟨hv, _, _, cl, ol, hk, hch, hrec, rfl⟩ := hinv
  rcases List.mem_append.mp hj with hjc | hjo
  · have key : ∀ cs' : List Node,
        (∀ c ∈ cs', ∀ L, TreeInv s md c L →
          ∀ j ∈ L, c.box.intersectsBox (s.buf j).box = true ∧ (s.buf j).box.valid) →
        ∀ pos cl', KidsInv s md (lv + 1) bx pos cs' cl' → ∀ j ∈ cl',
          bx.intersectsBox (s.buf j).box = true ∧ (s.buf j).box.valid := by
      intro cs'
      induction cs' with
      | nil =>
        intro _ pos cl' hk j hj
        rw [KidsInv_nil] at hk
        subst hk
        cases hj
      | cons c cst ih =>
        intro hmem pos cl' hk j hj
        rw [KidsInv_cons] at hk
        obtain ⟨l1, l2, ⟨hl, hob, hti⟩, hkt, rfl⟩ := hk
        rcases List.mem_append.mp hj with hj1 | hj2
        · have hc := hmem c (List.mem_cons_self _ _) l1 hti j hj1
          refine ⟨?_, hc.2⟩
          have hsub : c.box.subset bx := hob ▸ octantBox_subset hv pos
          exact Box.intersectsBox_of_subset _ hsub hc.1
        · exact ih (fun c' hc' => hmem c' (List.mem_cons_of_mem _ hc')) _ l2 hkt j hj2
    exact key cs ihc 0 cl hk j hjc
  · exact hrec j hjo

/-- Filtering out a unique id is erasing its slot. -/
theorem filter_ne_eq_erase {s : Store} {id : ℤ} :
    ∀ {L : List ℕ} {j0 : ℕ}, j0 ∈ L → (s.buf j0).id = id →
      (∀ j ∈ L, (s.buf j).id = id → j = j0) → L.Nodup →
      L.filter (fun j => (s.buf j).id ≠ id) = L.erase j0 := by
  intro L
  induction L with
  | nil => intro j0 hj0; cases hj0
  | cons a t ih =>
    intro j0 hj0 hm huniq hnd
    rcases List.mem_cons.mp hj0 with rfl | hj0t
    · rw [List.erase_cons_head]
      rw [List.filter_cons_of_neg (by simp [hm])]
      have : ∀ j ∈ t, (s.buf j).id ≠ id := by
        intro j hj he
        exact (List.nodup_cons.mp hnd).1 ((huniq j (List.mem_cons_of_mem _ hj) he) ▸ hj)
      rw [List.filter_eq_self.mpr fun j hj => by simpa using this j hj]
    · have haj : a ≠ j0 := fun he => (List.nodup_cons.mp hnd).1 (he ▸ hj0t)
      have hane : (s.buf a).id ≠ id := fun he => haj (huniq a (List.mem_cons_self _ _) he)
      rw [List.filter_cons_of_pos (by simpa using hane)]
      rw [List.erase_cons_tail]
      · rw [ih hj0t hm (fun j hj => huniq j (List.mem_cons_of_mem _ hj))
          (List.nodup_cons.mp hnd).2]
      · simp [haj]

/-- A chain from the null pointer is empty. -/
theorem SChain_nil_inv {s : Store} {h : ℤ} {l : List ℕ}
    (hc : SChain s h l) (he : h = -1) : l = [] := by
  cases hc with
  | nil => rfl
  | cons hi _ => omega

/-- A chain from a non-null pointer starts at that slot. -/
theorem SChain_cons_inv {s : Store} {h : ℤ} {a : ℕ} {t : List ℕ}
    (hc : SChain s h (a :: t)) :
    h = (a : ℤ) ∧ a < s.next ∧ SChain s (s.buf a).next t := by
  cases hc with
  | cons hi htl => exact ⟨rfl, hi, htl⟩

/-- `KidsInv` survives a store change that grows `next` and leaves the
referenced slots' records untouched. -/
theorem KidsInv_mono {s s' : Store} {md lv : ℕ} {pbox : Box} (hnext : s.next ≤ s'.next) :
    ∀ (cs : List Node) (pos : ℕ) (cl : List ℕ), KidsInv s md lv pbox pos cs cl →
      (∀ j ∈ cl, s'.buf j = s.buf j) → KidsInv s' md lv pbox pos cs cl := by
  intro cs
  induction cs with
  | nil =>
    intro pos cl hk _
    rw [KidsInv_nil] at hk ⊢
    exact hk
  | cons c cst ih =>
    intro pos cl hk hb
    rw [KidsInv_cons] at hk ⊢
    obtain ⟨l1, l2, ⟨hl, hob, hti⟩, hkt, rfl⟩ := hk
    exact ⟨l1, l2,
      ⟨hl, hob, TreeInv_mono hnext c l1 hti fun j hj => hb j (List.mem_append_left _ hj)⟩,
      ih _ l2 hkt fun j hj => hb j (List.mem_append_right _ hj), rfl⟩

/-- Each child of a `KidsInv` list owns an invariant-satisfying slot
sublist. -/
theorem KidsInv_mem {s : Store} {md lv : ℕ} {pbox : Box} :
    ∀ {cs : List Node} {pos : ℕ} {cl : List ℕ}, KidsInv s md lv pbox pos cs cl →
      ∀ c ∈ cs, ∃ Lc, TreeInv s md c Lc ∧ c.level = lv ∧ Lc.Sublist cl := by
  intro cs
  induction cs with
  | nil => intro pos cl _ c hc; cases hc
  | cons c0 cst ih =>
    intro pos cl hk c hc
    rw [KidsInv_cons] at hk
    obtain ⟨l1, l2, ⟨hl, _, hti⟩, hkt, rfl⟩ := hk
    rcases List.mem_cons.mp hc with rfl | hc
    · exact ⟨l1, hti, hl, List.sublist_append_left _ _⟩
    · rcases ih hkt c hc with ⟨Lc, h1, h2, h3⟩
      exact ⟨Lc, h1, h2, h3.trans (List.sublist_append_right _ _)⟩

/-- The head of a chain is null (empty list) or its first slot. -/
theorem SChain.head_cases {s : Store} {h : ℤ} {l : List ℕ} (hc : SChain s h l) :
    (h = -1 ∧ l = []) ∨ ∃ a t, l = a :: t ∧ h = (a : ℤ) ∧ a ∈ l := by
  cases hc with
  | nil => exact Or.inl ⟨rfl, rfl⟩
  | cons hi htl => exact Or.inr ⟨_, _, rfl, rfl, List.mem_cons_self _ _⟩

/-- Specification of the `Node.remove` walk on an invariant subtree.
Part 1: if no referenced record carries the id, the walk returns node and
store untouched.  Part 2: if exactly one referenced record carries the id
and the walk is given that record's stored box, it unlinks exactly that
slot, pushes it on the free list, preserves every record payload, leaves
`next` and all unrelated slots alone, and maintains the invariant. -/
theorem Node.removeGo_spec {md : ℕ} {rb : Box} {id : ℤ} :
    ∀ fuel : ℕ, ∀ n : Node, ∀ s : Store, ∀ L : List ℕ,
      TreeInv s md n L → L.Nodup → md + 2 ≤ n.level + fuel →
      ((∀ j ∈ L, (s.buf j).id ≠ id) →
        Node.removeGo rb.toE id fuel n s = (n, s)) ∧
      (∀ j0 ∈ L, (s.buf j0).id = id → (s.buf j0).box = rb →
        (∀ j ∈ L, (s.buf j).id = id → j = j0) →
        ∃ n' s', Node.removeGo rb.toE id fuel n s = (n', s') ∧
          TreeInv s' md n' (L.erase j0) ∧
          n'.level = n.level ∧ n'.box = n.box ∧
          s'.next = s.next ∧ s'.freeList = j0 :: s.freeList ∧
          (∀ j, (s'.buf j).box = (s.buf j).box ∧ (s'.buf j).id = (s.buf j).id) ∧
          (∀ j, j ∉ L → s'.buf j = s.buf j)) := by
  intro fuel
  induction fuel with
  | zero =>
    intro n s L hinv _ hf
    exfalso
    obtain ⟨lv, bx, hd, cs⟩ := n
    rw [TreeInv_mk] at hinv
    have hlv := hinv.2.1
    simp only [Node.level] at hf
    omega
  | succ f ih =>
    intro n s L hinv hnd hf
    obtain ⟨lv, bx, hd, cs⟩ := n
    have hinv' := hinv
    rw [TreeInv_mk] at hinv'
    obtain ⟨hv, hlv, hcs8, cl, ol, hk, hch, hrec, hL⟩ := hinv'
    subst hL
    obtain ⟨hndc, hndo, hdisj⟩ := List.nodup_append.mp hnd
    have hol_lt : ∀ j ∈ ol, j < s.next := SChain.slots_lt hch
    have hol_len : ol.length ≤ s.next := length_le_of_nodup_lt hndo hol_lt
    simp only [Node.level] at hf
    constructor
    · -- Part 1: no match anywhere
      intro hno
      simp only [Node.removeGo]
      by_cases hg : rb.toE.intersectsBox bx = false
      · rw [if_pos hg]
      · rw [if_neg hg]
        have hp : (if hd ≠ -1 then Store.remove s (s.next + 1) hd id else (s, hd)) = (s, hd) := by
          split_ifs with h
          · exact Store.remove_chain_not_found hch
              (fun j hj => hno j (List.mem_append_right _ hj)) (by omega)
          · rfl
        rw [hp]
        have hkids : removeKids (fun c ss => Node.removeGo rb.toE id f c ss) cs s = (cs, s) := by
          refine removeKids_id ?_
          intro c hc
          rcases KidsInv_mem hk c hc with ⟨Lc, hti, hclv, hsub⟩
          exact (ih c s Lc hti (hndc.sublist hsub) (by rw [hclv]; omega)).1
            fun j hj => hno j (List.mem_append_left _ (hsub.subset hj))
        rw [if_neg (by simp)]
        dsimp only
        rw [hkids]
    · -- Part 2: unique match at j0
      intro j0 hj0 hid hbox huniq
      have hguard : rb.toE.intersectsBox bx = true := by
        rw [EBox.intersectsBox_toE]
        have h1 := (TreeInv_rec_intersects (.mk lv bx hd cs) _ hinv j0 hj0).1
        simp only [Node.box] at h1
        rw [hbox] at h1
        rw [Box.intersectsBox_comm]
        exact h1
      simp only [Node.removeGo]
      rw [if_neg (by rw [hguard]; simp)]
      rcases List.mem_append.mp hj0 with hj0c | hj0o
      · -- the record lives inside a child subtree
        have hno_ol : ∀ j ∈ ol, (s.buf j).id ≠ id := by
          intro j hj he
          have hjj := huniq j (List.mem_append_right _ hj) he
          subst hjj
          exact hdisj hj0c hj
        have hp : (if hd ≠ -1 then Store.remove s (s.next + 1) hd id else (s, hd)) = (s, hd) := by
          split_ifs with h
          · exact Store.remove_chain_not_found hch hno_ol (by omega)
          · rfl
        have walk : ∀ (cs' : List Node) (pos : ℕ) (cl' : List ℕ),
            KidsInv s md (lv + 1) bx pos cs' cl' → cl'.Nodup → j0 ∈ cl' →
            (∀ j ∈ cl', (s.buf j).id = id → j = j0) →
            ∃ cs'' s2,
              removeKids (fun c ss => Node.removeGo rb.toE id f c ss) cs' s = (cs'', s2) ∧
              KidsInv s2 md (lv + 1) bx pos cs'' (cl'.erase j0) ∧
              cs''.length = cs'.length ∧
              s2.next = s.next ∧ s2.freeList = j0 :: s.freeList ∧
              (∀ j, (s2.buf j).box = (s.buf j).box ∧ (s2.buf j).id = (s.buf j).id) ∧
              (∀ j, j ∉ cl' → s2.buf j = s.buf j) := by
          intro cs'
          induction cs' with
          | nil =>
            intro pos cl' hk' _ hj0' _
            rw [KidsInv_nil] at hk'
            subst hk'
            cases hj0'
          | cons c cst ihc =>
            intro pos cl' hk' hnd' hj0' huniq'
            rw [KidsInv_cons] at hk'
            obtain ⟨m1, m2, ⟨hclv, hcbox, hti⟩, hkt, rfl⟩ := hk'
            obtain ⟨hm1, hm2, hm12⟩ := List.nodup_append.mp hnd'
            rcases List.mem_append.mp hj0' with hj01 | hj02
            · -- the target child is `c`
              have h2 := (ih c s m1 hti hm1 (by rw [hclv]; omega)).2 j0 hj01 hid hbox
                (fun j hj he => huniq' j (List.mem_append_left _ hj) he)
              obtain ⟨c', s2, heq, hti', hlv', hbox', hnext2, hfl2, hpay2, hframe2⟩ := h2
              have hrest : removeKids (fun c ss => Node.removeGo rb.toE id f c ss) cst s2 =
                  (cst, s2) := by
                refine removeKids_id ?_
                intro c2 hc2
                rcases KidsInv_mem hkt c2 hc2 with ⟨Lc, hti2, hclv2, hsub2⟩
                have hbufr : ∀ j ∈ Lc, s2.buf j = s.buf j := fun j hj =>
                  hframe2 j fun hin => hm12 hin (hsub2.subset hj)
                have hti2' := TreeInv_mono (by omega) c2 Lc hti2 hbufr
                refine (ih c2 s2 Lc hti2' (hm2.sublist hsub2) (by rw [hclv2]; omega)).1 ?_
                intro j hj he
                rw [(hpay2 j).2] at he
                have hjj := huniq' j (List.mem_append_right _ (hsub2.subset hj)) he
                subst hjj
                exact hm12 hj01 (hsub2.subset hj)
              refine ⟨c' :: cst, s2, ?_, ?_, by simp, hnext2, hfl2, hpay2, ?_⟩
              · unfold removeKids
                rw [heq]
                dsimp only
                rw [hrest]
              · rw [List.erase_append_left _ hj01]
                rw [KidsInv_cons]
                refine ⟨m1.erase j0, m2, ⟨by rw [hlv', hclv], by rw [hbox', hcbox], hti'⟩, ?_, rfl⟩
                refine KidsInv_mono (by omega) cst _ m2 hkt ?_
                intro j hj
                exact hframe2 j fun hin => hm12 hin hj
              · intro j hj
                exact hframe2 j fun hin => hj (List.mem_append_left _ hin)
            · -- the target lives further right
              have hcnoop : Node.removeGo rb.toE id f c s = (c, s) := by
                refine (ih c s m1 hti hm1 (by rw [hclv]; omega)).1 ?_
                intro j hj he
                have hjj := huniq' j (List.mem_append_left _ hj) he
                subst hjj
                exact hm12 hj hj02
              obtain ⟨cst'', s2, heq2, hkt', hlen', hnext2, hfl2, hpay2, hframe2⟩ :=
                ihc (pos + 1) m2 hkt hm2 hj02 (fun j hj => huniq' j (List.mem_append_right _ hj))
              refine ⟨c :: cst'', s2, ?_, ?_, by simp [hlen'], hnext2, hfl2, hpay2, ?_⟩
              · unfold removeKids
                rw [hcnoop]
                dsimp only
                rw [heq2]
              · rw [List.erase_append_right _ (fun hin => hm12 hin hj02)]
                rw [KidsInv_cons]
                refine ⟨m1, m2.erase j0, ⟨hclv, hcbox, ?_⟩, hkt', rfl⟩
                refine TreeInv_mono (by omega) c m1 hti ?_
                intro j hj
                exact hframe2 j fun hin => hm12 hj hin
              · intro j hj
                exact hframe2 j fun hin => hj (List.mem_append_right _ hin)
        obtain ⟨cs'', s2, heqw, hkt', hlenw, hnext2, hfl2, hpay2, hframe2⟩ :=
          walk cs 0 cl hk hndc hj0c (fun j hj => huniq j (List.mem_append_left _ hj))
        refine ⟨.mk lv bx hd cs'', s2, ?_, ?_, rfl, rfl, hnext2, hfl2, hpay2, ?_⟩
        · rw [hp]
          rw [if_neg (by simp)]
          dsimp only
          rw [heqw]
        · rw [List.erase_append_left _ hj0c]
          rw [TreeInv_mk]
          refine ⟨hv, hlv, ?_, cl.erase j0, ol, hkt', ?_, ?_, rfl⟩
          · rcases hcs8 with hnil | ⟨hlen8, hlvmd⟩
            · exfalso
              subst hnil
              rw [KidsInv_nil] at hk
              subst hk
              cases hj0c
            · exact Or.inr ⟨by rw [hlenw, hlen8], hlvmd⟩
          · exact SChain.mono (by omega) hch fun j hj => hframe2 j fun hin => hdisj hin hj
          · intro j hj
            rw [(hpay2 j).1]
            exact hrec j hj
        · intro j hj
          exact hframe2 j fun hin => hj (List.mem_append_left _ hin)
      · -- the record is on this node's own list
        obtain ⟨l1, l2, hol⟩ := List.append_of_mem hj0o
        subst hol
        obtain ⟨hndl1, hndl2, hd12⟩ := List.nodup_append.mp hndo
        have hno1 : ∀ j ∈ l1, (s.buf j).id ≠ id := by
          intro j hj he
          have hjj := huniq j (List.mem_append_right _ (List.mem_append_left _ hj)) he
          subst hjj
          exact hd12 hj (List.mem_cons_self _ _)
        have hl1len : l1.length + 1 ≤ s.next + 1 := by
          have : l1.length < (l1 ++ j0 :: l2).length := by simp
          omega
        obtain ⟨hch', hnext', hfl', hpay', hframe', hdval⟩ :=
          Store.remove_chain_found hch hndo hno1 hid hl1len
        have hdne : hd ≠ -1 := by
          intro he
          have := SChain_nil_inv hch he
          simp at this
        have hj0ncl : j0 ∉ cl := fun hc => hdisj hc hj0o
        rw [if_pos hdne]
        rcases hdval with ⟨hl1nil, h2eq⟩ | ⟨hl1ne, h2eq⟩
        · -- the record heads the list: the walk stops after the splice
          subst hl1nil
          simp only [List.nil_append] at hch hch' hndo
          obtain ⟨hhd, hj0lt, htl⟩ := SChain_cons_inv hch
          have hne2 : (Store.remove s (s.next + 1) hd id).2 ≠ hd := by
            rcases SChain.head_cases hch' with ⟨hm1, _⟩ | ⟨a, t, _, ha, hamem⟩
            · rw [hm1, hhd]; omega
            · rw [ha, hhd]
              have : a ≠ j0 := fun he => (List.nodup_cons.mp hndo).1 (he ▸ hamem)
              omega
          rw [if_pos hne2]
          refine ⟨.mk lv bx (Store.remove s (s.next + 1) hd id).2 cs,
            (Store.remove s (s.next + 1) hd id).1, rfl, ?_, rfl, rfl, hnext', hfl', hpay', ?_⟩
          · simp only [List.nil_append]
            rw [List.erase_append_right _ hj0ncl, List.erase_cons_head]
            rw [TreeInv_mk]
            refine ⟨hv, hlv, hcs8, cl, l2, ?_, hch', ?_, rfl⟩
            · exact KidsInv_mono (by omega) cs 0 cl hk fun j _ => hframe' j (by simp)
            · intro j hj
              rw [(hpay' j).1]
              exact hrec j (List.mem_cons_of_mem _ hj)
          · intro j _
            exact hframe' j (by simp)
        · -- interior match: head unchanged, children revisited as no-ops
          rw [if_neg (by rw [h2eq]; simp)]
          have hl1subol : ∀ j ∈ l1, j ∈ l1 ++ j0 :: l2 := fun j hj => List.mem_append_left _ hj
          have hkids : removeKids (fun c ss => Node.removeGo rb.toE id f c ss) cs
              (Store.remove s (s.next + 1) hd id).1 =
              (cs, (Store.remove s (s.next + 1) hd id).1) := by
            refine removeKids_id ?_
            intro c hc
            rcases KidsInv_mem hk c hc with ⟨Lc, hti, hclv, hsub⟩
            have hbufr : ∀ j ∈ Lc, (Store.remove s (s.next + 1) hd id).1.buf j = s.buf j := by
              intro j hj
              refine hframe' j fun hin => ?_
              exact hdisj (hsub.subset hj) (hl1subol j hin)
            have hti' := TreeInv_mono (by omega) c Lc hti hbufr
            refine (ih c (Store.remove s (s.next + 1) hd id).1 Lc hti'
              (hndc.sublist hsub) (by rw [hclv]; omega)).1 ?_
            intro j hj he
            rw [(hpay' j).2] at he
            have hjj := huniq j (List.mem_append_left _ (hsub.subset hj)) he
            subst hjj
            exact hdisj (hsub.subset hj) hj0o
          rw [hkids]
          refine ⟨.mk lv bx (Store.remove s (s.next + 1) hd id).2 cs,
            (Store.remove s (s.next + 1) hd id).1, rfl, ?_, rfl, rfl, hnext', hfl', hpay', ?_⟩
          · rw [List.erase_append_right _ hj0ncl, List.erase_append_right _
              (fun hin => hd12 hin (List.mem_cons_self _ _)), List.erase_cons_head]
            rw [TreeInv_mk]
            refine ⟨hv, hlv, hcs8, cl, l1 ++ l2, ?_, h2eq ▸ hch', ?_, rfl⟩
            · refine KidsInv_mono (by omega) cs 0 cl hk ?_
              intro j hj
              exact hframe' j fun hin => hdisj hj (hl1subol j hin)
            · intro j hj
              rw [(hpay' j).1]
              refine hrec j ?_
              rcases List.mem_append.mp hj with h1 | h2
              · exact List.mem_append_left _ h1
              · exact List.mem_append_right _ (List.mem_cons_of_mem _ h2)
          · intro j hj
            refine hframe' j fun hin => ?_
            exact hj (List.mem_append_right _ (hl1subol j hin))

/-- `Box.subset` is transitive. -/
theorem Box.subset_trans {a b c : Box} (h1 : a.subset b) (h2 : b.subset c) :
    a.subset c := by
  obtain ⟨x1, x2, x3, x4, x5, x6⟩ := h1
  obtain ⟨y1, y2, y3, y4, y5, y6⟩ := h2
  exact ⟨by linarith, by linarith, by linarith, by linarith, by linarith, by linarith⟩

/-- An intersecting-filter `filterMap` over slots whose records all pass
the filter is the id projection. -/
theorem filterMap_all_pass {s : Store} {qbox : Box} :
    ∀ {l : List ℕ}, (∀ j ∈ l, qbox.intersectsBox (s.buf j).box = true) →
      (l.filterMap fun i =>
        if qbox.intersectsBox (s.buf i).box then some (s.buf i).id else none) =
        idsOfL s l := by
  intro l
  induction l with
  | nil => intro _; rfl
  | cons a t ih =>
    intro h
    rw [List.filterMap_cons]
    rw [if_pos (h a (List.mem_cons_self _ _))]
    rw [ih fun j hj => h j (List.mem_cons_of_mem _ hj)]
    rfl

/-- The AABB query on an invariant subtree whose box sits inside the
query box emits exactly the referenced ids, children first. -/
theorem Node.aabbQueryGo_spec {md : ℕ} {qbox : Box} :
    ∀ fuel : ℕ, ∀ n : Node, ∀ s : Store, ∀ L : List ℕ,
      TreeInv s md n L → L.Nodup → md + 2 ≤ n.level + fuel →
      n.box.subset qbox →
      (∀ j ∈ L, qbox.intersectsBox (s.buf j).box = true) →
      Node.aabbQueryGo s qbox fuel n = idsOfL s L := by
  intro fuel
  induction fuel with
  | zero =>
    intro n s L hinv _ hf _ _
    exfalso
    obtain ⟨lv, bx, hd, cs⟩ := n
    rw [TreeInv_mk] at hinv
    have := hinv.2.1
    simp only [Node.level] at hf
    omega
  | succ f ih =>
    intro n s L hinv hnd hf hsub hq
    obtain ⟨lv, bx, hd, cs⟩ := n
    rw [TreeInv_mk] at hinv
    obtain ⟨hv, hlv, _, cl, ol, hk, hch, hrec, hL⟩ := hinv
    subst hL
    obtain ⟨hndc, hndo, _⟩ := List.nodup_append.mp hnd
    simp only [Node.level] at hf
    simp only [Node.box] at hsub
    have hguard : qbox.intersectsBox bx = true := (intersects_of_subset_valid hv hsub).1
    simp only [Node.aabbQueryGo]
    rw [if_neg (by rw [hguard]; simp)]
    have hkids : queryKids (fun c => Node.aabbQueryGo s qbox f c) cs = idsOfL s cl := by
      have key : ∀ (cs' : List Node) (pos : ℕ) (cl' : List ℕ),
          KidsInv s md (lv + 1) bx pos cs' cl' → cl'.Nodup →
          (∀ j ∈ cl', qbox.intersectsBox (s.buf j).box = true) →
          queryKids (fun c => Node.aabbQueryGo s qbox f c) cs' = idsOfL s cl' := by
        intro cs'
        induction cs' with
        | nil =>
          intro pos cl' hk' _ _
          rw [KidsInv_nil] at hk'
          subst hk'
          rfl
        | cons c cst ihk =>
          intro pos cl' hk' hnd' hq'
          rw [KidsInv_cons] at hk'
          obtain ⟨m1, m2, ⟨hclv, hcbox, hti⟩, hkt, rfl⟩ := hk'
          obtain ⟨hm1, hm2, _⟩ := List.nodup_append.mp hnd'
          unfold queryKids
          rw [ih c s m1 hti hm1 (by rw [hclv]; omega)
            (by rw [hcbox]; exact Box.subset_trans (octantBox_subset hv pos) hsub)
            (fun j hj => hq' j (List.mem_append_left _ hj))]
          rw [ihk (pos + 1) m2 hkt hm2 fun j hj => hq' j (List.mem_append_right _ hj)]
          unfold idsOfL
          rw [List.map_append]
      exact key cs 0 cl hk hndc fun j hj => hq j (List.mem_append_left _ hj)
    rw [hkids]
    rw [SChain.chain_eq hch (s.next + 1)
      (Nat.le_succ_of_le (length_le_of_nodup_lt hndo (SChain.slots_lt hch)))]
    rw [filterMap_all_pass fun j hj => hq j (List.mem_append_right _ hj)]
    unfold idsOfL
    rw [List.map_append]

/-- The empty leaf node satisfies the invariant with no slots. -/
theorem TreeInv_empty_leaf {s : Store} {md lv : ℕ} {b : Box}
    (hv : b.valid) (hle : lv ≤ md) : TreeInv s md (.mk lv b (-1) []) [] := by
  rw [TreeInv_mk]
  exact ⟨hv, hle, Or.inl rfl, [], [], KidsInv_nil.mpr rfl, SChain.nil,
    fun j hj => absurd hj (List.not_mem_nil j), rfl⟩

/-- The eight fresh children of a split satisfy the children invariant
with no referenced slots. -/
theorem KidsInv_splitChildren {s : Store} {md lv : ℕ} {pbox : Box}
    (hv : pbox.valid) (hlv : lv < md) :
    KidsInv s md (lv + 1) pbox 0 (splitChildren lv pbox) [] := by
  have hone : ∀ pos, (Node.mk (lv + 1) (octantBox pbox pos) (-1) []).level = lv + 1 ∧
      (Node.mk (lv + 1) (octantBox pbox pos) (-1) []).box = octantBox pbox pos ∧
      TreeInv s md (.mk (lv + 1) (octantBox pbox pos) (-1) []) [] :=
    fun pos => ⟨rfl, rfl, TreeInv_empty_leaf (octantBox_valid hv pos) (by omega)⟩
  show KidsInv s md (lv + 1) pbox 0
    ((List.range 8).map fun i => Node.mk (lv + 1) (octantBox pbox i) (-1) []) []
  have h8 : List.range 8 = [0, 1, 2, 3, 4, 5, 6, 7] := rfl
  rw [h8]
  simp only [List.map]
  rw [KidsInv_cons]
  refine ⟨[], [], hone 0, ?_, rfl⟩
  rw [KidsInv_cons]
  refine ⟨[], [], hone 1, ?_, rfl⟩
  rw [KidsInv_cons]
  refine ⟨[], [], hone 2, ?_, rfl⟩
  rw [KidsInv_cons]
  refine ⟨[], [], hone 3, ?_, rfl⟩
  rw [KidsInv_cons]
  refine ⟨[], [], hone 4, ?_, rfl⟩
  rw [KidsInv_cons]
  refine ⟨[], [], hone 5, ?_, rfl⟩
  rw [KidsInv_cons]
  refine ⟨[], [], hone 6, ?_, rfl⟩
  rw [KidsInv_cons]
  refine ⟨[], [], hone 7, ?_, rfl⟩
  rw [KidsInv_nil]

/-- `ObjectStore.add` on a chain: the allocated slot is fresh for every
currently referenced slot, carries the record, heads the extended chain,
and every other slot is untouched; the free list only shrinks (from the
front) and its invariants persist. -/
theorem Store.add_chain_spec {s : Store} {hd : ℤ} {ol : List ℕ} {b : Box} {i : ℤ}
    (hch : SChain s hd ol)
    (holf : ∀ j ∈ ol, j ∉ s.freeList)
    (hfb : ∀ j ∈ s.freeList, j < s.next) (hfnd : s.freeList.Nodup) :
    SChain (s.add hd b i).1 ((s.add hd b i).2 : ℤ) ((s.add hd b i).2 :: ol) ∧
    (∀ j, j < s.next → j ∉ s.freeList → j ≠ (s.add hd b i).2) ∧
    (s.add hd b i).1.buf (s.add hd b i).2 = ⟨b, i, hd⟩ ∧
    (∀ j, j ≠ (s.add hd b i).2 → (s.add hd b i).1.buf j = s.buf j) ∧
    s.next ≤ (s.add hd b i).1.next ∧
    (∃ fl0, s.freeList = fl0 ++ (s.add hd b i).1.freeList) ∧
    (s.add hd b i).2 ∉ (s.add hd b i).1.freeList ∧
    (∀ j ∈ (s.add hd b i).1.freeList, j < (s.add hd b i).1.next) ∧
    (s.add hd b i).1.freeList.Nodup := by
  obtain ⟨hw, hfr, hnle, hklt, horig, hfltl, hflsub, hknfl⟩ := Store.add_spec s hd b i hfb
  have hfresh : ∀ j, j < s.next → j ∉ s.freeList → j ≠ (s.add hd b i).2 := by
    intro j hjlt hjnfl he
    rcases horig with hin | hnext
    · exact hjnfl (he ▸ hin)
    · omega
  refine ⟨?_, hfresh, hw, hfr, hnle, ?_, ?_, ?_, ?_⟩
  · refine SChain.cons hklt ?_
    rw [hw]
    refine SChain.mono hnle hch ?_
    intro j hj
    exact hfr j fun he => hfresh j (SChain.slots_lt hch j hj) (holf j hj) he
  · rcases hfltl with h | h
    · refine ⟨s.freeList.take 1, ?_⟩
      rw [h, ← List.drop_one, List.take_append_drop]
    · exact ⟨[], by rw [h, List.nil_append]⟩
  · rcases hknfl with h | h
    · exact h
    · exact absurd hfnd h
  · intro j hj
    exact lt_of_lt_of_le (hfb j (hflsub j hj)) hnle
  · rcases hfltl with h | h
    · rw [h]
      exact hfnd.sublist (List.tail_sublist _)
    · rw [h]
      exact hfnd

/-- All slots referenced by an invariant subtree are allocated. -/
theorem TreeInv_slots_lt {s : Store} {md : ℕ} :
    ∀ n : Node, ∀ L : List ℕ, TreeInv s md n L → ∀ j ∈ L, j < s.next := by
  refine Node.memRec ?_
  intro lv bx hd cs ihc L hinv j hj
  rw [TreeInv_mk] at hinv
  obtain ⟨_, _, _, cl, ol, hk, hch, _, rfl⟩ := hinv
  rcases List.mem_append.mp hj with hjc | hjo
  · have key : ∀ (cs' : List Node) (pos : ℕ) (cl' : List ℕ),
        (∀ c ∈ cs', ∀ L, TreeInv s md c L → ∀ j ∈ L, j < s.next) →
        KidsInv s md (lv + 1) bx pos cs' cl' → ∀ j ∈ cl', j < s.next := by
      intro cs'
      induction cs' with
      | nil =>
        intro pos cl' _ hk' j hj
        rw [KidsInv_nil] at hk'
        subst hk'
        cases hj
      | cons c cst ihk =>
        intro pos cl' hmem hk' j hj
        rw [KidsInv_cons] at hk'
        obtain ⟨m1, m2, ⟨_, _, hti⟩, hkt, rfl⟩ := hk'
        rcases List.mem_append.mp hj with h1 | h2
        · exact hmem c (List.mem_cons_self _ _) m1 hti j h1
        · exact ihk _ m2 (fun c' hc' => hmem c' (List.mem_cons_of_mem _ hc')) hkt j h2
    exact key cs 0 cl ihc hk j hjc
  · exact SChain.slots_lt hch j hjo

/-- `recsOfL` distributes over append. -/
theorem recsOfL_append (s : Store) (A B : List ℕ) :
    recsOfL s (A ++ B) = recsOfL s A ++ recsOfL s B :=
  List.map_append _ _ _

/-- Slots drawn from a sublist, the free list, or the fresh region are
disjoint from allocated unfree slots outside that sublist. -/
theorem disjoint_of_provenance {s : Store} {X Y Lc : List ℕ}
    (hx : ∀ j ∈ X, j < s.next ∧ j ∉ s.freeList) (hxl : X.Disjoint Lc)
    (hy : ∀ j ∈ Y, j ∈ Lc ∨ j ∈ s.freeList ∨ s.next ≤ j) : X.Disjoint Y := by
  intro a hax hay
  rcases hy a hay with h | h | h
  · exact hxl hax h
  · exact (hx a hax).2 h
  · have := (hx a hax).1
    omega

/-- Positional read/update of the children invariant: child `k` owns a
contiguous slot segment, and replacing it with any invariant child of the
same level and octant box (over a store that kept the other segments)
re-establishes the invariant on the updated list. -/
theorem KidsInv_update {s : Store} {md lv : ℕ} {pbox : Box} :
    ∀ (cs : List Node) (pos : ℕ) (KL : List ℕ), KidsInv s md lv pbox pos cs KL →
      ∀ (k : ℕ) (c : Node), cs[k]? = some c →
      ∃ A Lc B, KL = A ++ Lc ++ B ∧ TreeInv s md c Lc ∧ c.level = lv ∧
        c.box = octantBox pbox (pos + k) ∧
        ∀ (s' : Store), s.next ≤ s'.next →
          ∀ (c' : Node) (Lc' : List ℕ), TreeInv s' md c' Lc' → c'.level = lv →
          c'.box = octantBox pbox (pos + k) →
          (∀ j ∈ A ++ B, s'.buf j = s.buf j) →
          KidsInv s' md lv pbox pos (cs.set k c') (A ++ Lc' ++ B) := by
  intro cs
  induction cs with
  | nil =>
    intro pos KL _ k c hg
    simp at hg
  | cons c0 cst ihc =>
    intro pos KL hk k c hg
    rw [KidsInv_cons] at hk
    obtain ⟨l1, l2, ⟨h0lv, h0box, h0ti⟩, hkt, rfl⟩ := hk
    cases k with
    | zero =>
      simp only [List.getElem?_cons_zero, Option.some.injEq] at hg
      subst hg
      refine ⟨[], l1, l2, by simp, h0ti, h0lv, by simpa using h0box, ?_⟩
      intro s' hnext c' Lc' hti' hlv' hbox' hbuf
      simp only [List.set_cons_zero, List.nil_append]
      rw [KidsInv_cons]
      refine ⟨Lc', l2, ⟨hlv', by simpa using hbox', hti'⟩, ?_, rfl⟩
      exact KidsInv_mono hnext cst _ l2 hkt fun j hj => hbuf j (by simpa using hj)
    | succ k2 =>
      simp only [List.getElem?_cons_succ] at hg
      obtain ⟨A2, Lc, B2, hdec, hti, hclv, hcbox, hset⟩ := ihc (pos + 1) l2 hkt k2 c hg
      have hpp : pos + 1 + k2 = pos + (k2 + 1) := by omega
      refine ⟨l1 ++ A2, Lc, B2, by rw [hdec]; simp [List.append_assoc], hti, hclv,
        by rw [hcbox, hpp], ?_⟩
      intro s' hnext c' Lc' hti' hlv' hbox' hbuf
      simp only [List.set_cons_succ]
      rw [KidsInv_cons]
      refine ⟨l1, A2 ++ Lc' ++ B2,
        ⟨h0lv, h0box, TreeInv_mono hnext c0 l1 h0ti ?_⟩, ?_, by simp [List.append_assoc]⟩
      · intro j hj
        exact hbuf j (by simp [hj])
      · refine hset s' hnext c' Lc' hti' hlv' (by rw [hbox', hpp]) ?_
        intro j hj
        refine hbuf j ?_
        rcases List.mem_append.mp hj with h1 | h2
        · simp [h1]
        · simp [h2]

/-- Membership through a free-list suffix. -/
theorem suffix_subset {fl fl' : List ℕ} (h : ∃ fl0, fl = fl0 ++ fl') :
    ∀ j ∈ fl', j ∈ fl := by
  obtain ⟨fl0, rfl⟩ := h
  exact fun j hj => List.mem_append_right _ hj

/-- Permutation bookkeeping of the split walk's classified step. -/
theorem perm_shuffle {α : Type} {A Lc B OL R X : List α} {r : α}
    (hX : X.Perm (r :: Lc)) :
    (((A ++ (X ++ B)) ++ OL) ++ R).Perm (((A ++ (Lc ++ B)) ++ OL) ++ (r :: R)) := by
  have h1 : ((A ++ (X ++ B)) ++ OL) ++ R |>.Perm (r :: (((A ++ (Lc ++ B)) ++ OL) ++ R)) := by
    refine List.Perm.trans (List.Perm.append_right R (List.Perm.append_right OL
      (List.Perm.append_left A (hX.append_right B)))) ?_
    have h2 : A ++ ((r :: Lc) ++ B) = A ++ (r :: (Lc ++ B)) := by simp
    rw [h2]
    have h3 : (A ++ (r :: (Lc ++ B))).Perm (r :: (A ++ (Lc ++ B))) := List.perm_middle
    refine List.Perm.trans (List.Perm.append_right R (List.Perm.append_right OL h3)) ?_
    simp only [List.cons_append]
    exact List.Perm.refl _
  refine h1.trans ?_
  exact List.perm_middle.symm

/-- Permutation bookkeeping of the split walk's straddler step. -/
theorem perm_shuffle2 {α : Type} {K O R : List α} {r : α} :
    ((K ++ r :: O) ++ R).Perm ((K ++ O) ++ (r :: R)) := by
  have h1 : ((K ++ r :: O) ++ R).Perm ((r :: (K ++ O)) ++ R) :=
    List.Perm.append_right R List.perm_middle
  refine h1.trans ?_
  simp only [List.cons_append]
  exact List.perm_middle.symm

/-- The subtree contents function computes exactly the referenced
records, children first, on an invariant subtree. -/
theorem TreeInv_contents {md : ℕ} :
    ∀ fuel : ℕ, ∀ n : Node, ∀ s : Store, ∀ L : List ℕ,
      TreeInv s md n L → L.Nodup → md + 2 ≤ n.level + fuel →
      Node.contents s fuel n = recsOfL s L := by
  intro fuel
  induction fuel with
  | zero =>
    intro n s L hinv _ hf
    exfalso
    obtain ⟨lv, bx, hd, cs⟩ := n
    rw [TreeInv_mk] at hinv
    have := hinv.2.1
    simp only [Node.level] at hf
    omega
  | succ f ih =>
    intro n s L hinv hnd hf
    obtain ⟨lv, bx, hd, cs⟩ := n
    rw [TreeInv_mk] at hinv
    obtain ⟨hv, hlv, _, cl, ol, hk, hch, hrec, hL⟩ := hinv
    subst hL
    obtain ⟨hndc, hndo, _⟩ := List.nodup_append.mp hnd
    simp only [Node.level] at hf
    simp only [Node.contents]
    have hkids : ((cs.map fun c => Node.contents s f c).flatten) = recsOfL s cl := by
      have key : ∀ (cs' : List Node) (pos : ℕ) (cl' : List ℕ),
          KidsInv s md (lv + 1) bx pos cs' cl' → cl'.Nodup →
          ((cs'.map fun c => Node.contents s f c).flatten) = recsOfL s cl' := by
        intro cs'
        induction cs' with
        | nil =>
          intro pos cl' hk' _
          rw [KidsInv_nil] at hk'
          subst hk'
          rfl
        | cons c cst ihk =>
          intro pos cl' hk' hnd'
          rw [KidsInv_cons] at hk'
          obtain ⟨m1, m2, ⟨hclv, _, hti⟩, hkt, rfl⟩ := hk'
          obtain ⟨hm1, hm2, _⟩ := List.nodup_append.mp hnd'
          rw [List.map_cons, List.flatten_cons]
          rw [ih c s m1 hti hm1 (by rw [hclv]; omega)]
          rw [ihk (pos + 1) m2 hkt hm2]
          rw [recsOfL_append]
      exact key cs 0 cl hk hndc
    rw [hkids]
    rw [SChain.chain_eq hch (s.next + 1)
      (Nat.le_succ_of_le (length_le_of_nodup_lt hndo (SChain.slots_lt hch)))]
    rw [recsOfL_append]

/-- Positional boxes and levels of an invariant children list. -/
theorem KidsInv_box_at {s : Store} {md lv : ℕ} {pbox : Box} :
    ∀ (cs : List Node) (pos : ℕ) (KL : List ℕ), KidsInv s md lv pbox pos cs KL →
      ∀ k, ∀ hk : k < cs.length,
        (cs.get ⟨k, hk⟩).box = octantBox pbox (pos + k) ∧ (cs.get ⟨k, hk⟩).level = lv := by
  intro cs
  induction cs with
  | nil =>
    intro pos KL _ k hk
    simp at hk
  | cons c cst ihc =>
    intro pos KL hk' k hk
    rw [KidsInv_cons] at hk'
    obtain ⟨l1, l2, ⟨hclv, hcbox, _⟩, hkt, rfl⟩ := hk'
    cases k with
    | zero => exact ⟨by simpa using hcbox, hclv⟩
    | succ k2 =>
      have h2 := ihc (pos + 1) l2 hkt k2 (by simpa using Nat.lt_of_succ_lt_succ hk)
      simp only [List.get_cons_succ]
      refine ⟨?_, h2.2⟩
      rw [h2.1]
      congr 1
      omega

/-- Suffix relations compose. -/
theorem suffix_trans {a b c : List ℕ} (h1 : ∃ fl0, a = fl0 ++ b)
    (h2 : ∃ fl1, b = fl1 ++ c) : ∃ fl2, a = fl2 ++ c := by
  obtain ⟨fl0, rfl⟩ := h1
  obtain ⟨fl1, rfl⟩ := h2
  exact ⟨fl0 ++ fl1, by rw [List.append_assoc]⟩

/-- The contents of an invariant child are its referenced records and
survive any store change that keeps those slots. -/
theorem child_contents_eq {s s' : Store} {md lv : ℕ} {pbox : Box} {cs : List Node}
    {pos : ℕ} {KL : List ℕ} (hki : KidsInv s md lv pbox pos cs KL) (hnd : KL.Nodup)
    (hnext : s.next ≤ s'.next) (hfr : ∀ j ∈ KL, s'.buf j = s.buf j)
    (k : ℕ) (hk : k < cs.length) :
    Node.contents s' (md + 2) (cs.get ⟨k, hk⟩) =
      Node.contents s (md + 2) (cs.get ⟨k, hk⟩) := by
  simp only [List.get_eq_getElem]
  obtain ⟨Ak, Lk, Bk, hdk, htik, hklv, _, _⟩ :=
    KidsInv_update cs pos KL hki k _ (List.getElem?_eq_getElem hk)
  have hLkmem : ∀ j ∈ Lk, j ∈ KL := by
    intro j hj
    rw [hdk]
    exact List.mem_append_left _ (List.mem_append_right _ hj)
  have hLknd : Lk.Nodup := by
    refine hnd.sublist ?_
    rw [hdk]
    exact ((List.sublist_append_right Ak Lk).trans
      (List.sublist_append_left (Ak ++ Lk) Bk))
  have hc1 : Node.contents s (md + 2) cs[k] = recsOfL s Lk :=
    TreeInv_contents (md + 2) _ s Lk htik hLknd (by rw [hklv]; omega)
  have hti' : TreeInv s' md cs[k] Lk :=
    TreeInv_mono hnext _ Lk htik fun j hj => hfr j (hLkmem j hj)
  have hc2 : Node.contents s' (md + 2) cs[k] = recsOfL s' Lk :=
    TreeInv_contents (md + 2) _ s' Lk hti' hLknd (by rw [hklv]; omega)
  rw [hc1, hc2]
  exact recsOfL_congr fun j hj => by rw [hfr j (hLkmem j hj)]; exact ⟨rfl, rfl⟩

/-- Specification of the redistribution walk of `Node.split`: walking an
old-list chain whose records are valid boxes intersecting the parent,
starting from an accumulator node with invariant children and an
invariant straddler list, the walk ends in an invariant accumulator
holding (up to permutation) the accumulated records plus every walked
record; the store only allocates (free list shrinks from the front,
`next` grows, allocated-unfree slots are untouched). -/
theorem splitWalkF_spec {md lv : ℕ} {pbox : Box}
    (inserter : Box → ℤ → Node → Store → Node × Store)
    (hins : ∀ (c : Node) (s : Store) (L : List ℕ) (b : Box) (id : ℤ),
      c.level = lv + 1 → b.valid → TreeInv s md c L → L.Nodup →
      (∀ j ∈ L, j ∉ s.freeList) → (∀ j ∈ s.freeList, j < s.next) → s.freeList.Nodup →
      ∃ n' s' L', inserter b id c s = (n', s') ∧ TreeInv s' md n' L' ∧
        n'.level = c.level ∧ n'.box = c.box ∧
        L'.Nodup ∧ (∀ j ∈ L', j ∉ s'.freeList) ∧
        (∀ j ∈ s'.freeList, j < s'.next) ∧ s'.freeList.Nodup ∧
        s.next ≤ s'.next ∧ (∃ fl0, s.freeList = fl0 ++ s'.freeList) ∧
        (∀ j, j < s.next → j ∉ s.freeList → s'.buf j = s.buf j) ∧
        (∀ j ∈ L', j ∈ L ∨ j ∈ s.freeList ∨ s.next ≤ j) ∧
        (c.box.intersectsBox b = true → (recsOfL s' L').Perm ((b, id) :: recsOfL s L)))
    (hpv : pbox.valid) (hlvmd : lv < md) :
    ∀ (wl : List ℕ) (wf : ℕ) (cur hacc : ℤ) (cs : List Node) (KL OL : List ℕ) (s : Store),
      SChain s cur wl → wl.length ≤ wf →
      (∀ j ∈ wl, (s.buf j).box.valid ∧ pbox.intersectsBox (s.buf j).box = true) →
      (∀ j ∈ wl, j ∉ s.freeList) →
      wl.Disjoint (KL ++ OL) →
      cs.length = 8 →
      KidsInv s md (lv + 1) pbox 0 cs KL →
      SChain s hacc OL →
      (∀ j ∈ OL, pbox.intersectsBox (s.buf j).box = true ∧ (s.buf j).box.valid) →
      (∀ j ∈ OL, getChildIndex pbox (s.buf j).box = -1) →
      (KL ++ OL).Nodup →
      (∀ j ∈ KL ++ OL, j ∉ s.freeList) →
      (∀ j ∈ s.freeList, j < s.next) → s.freeList.Nodup →
      ∃ hacc' cs' KL' OL' s',
        splitWalkF inserter wf cur (.mk lv pbox hacc cs) s = (.mk lv pbox hacc' cs', s') ∧
        cs'.length = 8 ∧
        KidsInv s' md (lv + 1) pbox 0 cs' KL' ∧
        SChain s' hacc' OL' ∧
        (∀ j ∈ OL', pbox.intersectsBox (s'.buf j).box = true ∧ (s'.buf j).box.valid) ∧
        (KL' ++ OL').Nodup ∧
        (∀ j ∈ KL' ++ OL', j ∉ s'.freeList) ∧
        (∀ j ∈ s'.freeList, j < s'.next) ∧ s'.freeList.Nodup ∧
        s.next ≤ s'.next ∧ (∃ fl0, s.freeList = fl0 ++ s'.freeList) ∧
        (∀ j, j < s.next → j ∉ s.freeList → s'.buf j = s.buf j) ∧
        (∀ j ∈ KL' ++ OL', j ∈ KL ++ OL ∨ j ∈ s.freeList ∨ s.next ≤ j) ∧
        (recsOfL s' (KL' ++ OL')).Perm (recsOfL s (KL ++ OL) ++ recsOfL s wl) ∧
        (∀ j ∈ OL', getChildIndex pbox (s'.buf j).box = -1) ∧
        (∀ k, ∀ hk : k < cs.length, ∀ hk2 : k < cs'.length, ∀ r : Box × ℤ,
          (r ∈ Node.contents s (md + 2) (cs.get ⟨k, hk⟩) ∨
            ∃ j ∈ wl, getChildIndex pbox (s.buf j).box = (k : ℤ) ∧
              r = ((s.buf j).box, (s.buf j).id)) →
          r ∈ Node.contents s' (md + 2) (cs'.get ⟨k, hk2⟩)) := by
  intro wl
  induction wl with
  | nil =>
    intro wf cur hacc cs KL OL s hwch _ _ _ _ hcs8 hki hoch horec hstrad hnd hnfl hfb hfnd
    have hcur : cur = -1 := by cases hwch; rfl
    refine ⟨hacc, cs, KL, OL, s, ?_, hcs8, hki, hoch, horec, hnd, hnfl, hfb, hfnd, le_rfl,
      ⟨[], (List.nil_append _).symm⟩, fun j _ _ => rfl, fun j hj => Or.inl hj,
      by simp [recsOfL], hstrad, ?_⟩
    · cases wf with
      | zero => rfl
      | succ wf2 =>
        simp only [splitWalkF]
        rw [if_pos hcur]
    · intro k hk hk2 r hr
      rcases hr with hr | hr
      · exact hr
      · obtain ⟨j, hj, _⟩ := hr
        cases hj
  | cons w rest ihw =>
    intro wf cur hacc cs KL OL s hwch hwlen hwrec hwfl hwdisj hcs8 hki hoch horec hstrad
      hnd hnfl hfb hfnd
    obtain ⟨hcur, hwlt, hrch⟩ := SChain_cons_inv hwch
    cases wf with
    | zero => simp at hwlen
    | succ wf2 =>
      subst hcur
      have hKOlt : ∀ j ∈ KL ++ OL, j < s.next :=
        TreeInv_slots_lt (.mk lv pbox hacc cs) (KL ++ OL)
          (by rw [TreeInv_mk]
              exact ⟨hpv, hlvmd.le, Or.inr ⟨hcs8, hlvmd⟩, KL, OL, hki, hoch, horec, rfl⟩)
      obtain ⟨hwv, hwint⟩ := hwrec w (List.mem_cons_self _ _)
      have hrestlt : ∀ j ∈ rest, j < s.next := SChain.slots_lt hrch
      have hwlen2 : rest.length ≤ wf2 := by simp at hwlen; omega
      simp only [splitWalkF]
      rw [if_neg (by omega : ¬((w : ℕ) : ℤ) = -1)]
      simp only [Int.toNat_natCast]
      by_cases hidx : getChildIndex pbox (s.buf w).box ≠ -1
      · -- classified record: insert into the octant child
        rw [if_pos hidx]
        obtain ⟨hge0, hlt8⟩ := getChildIndex_lt _ _ hidx
        have hklt : (getChildIndex pbox (s.buf w).box).toNat < cs.length := by omega
        have hgete : cs[(getChildIndex pbox (s.buf w).box).toNat]? =
            some (cs.get ⟨(getChildIndex pbox (s.buf w).box).toNat, hklt⟩) :=
          List.getElem?_eq_getElem hklt
        rw [hgete]
        dsimp only
        obtain ⟨A, Lc, B, hKLdec, hcti, hclv, hcbox, hset⟩ :=
          KidsInv_update cs 0 KL hki _ _ hgete
        subst hKLdec
        have hEQ : (A ++ Lc ++ B) ++ OL = (A ++ (Lc ++ B)) ++ OL := by
          rw [List.append_assoc A Lc B]
        rw [hEQ] at hnd hnfl hKOlt hwdisj
        rw [List.append_assoc] at hki
        rw [hEQ]
        have hndK : (A ++ (Lc ++ B)).Nodup := (List.nodup_append.mp hnd).1
        have hndOL : OL.Nodup := (List.nodup_append.mp hnd).2.1
        have hdKO : (A ++ (Lc ++ B)).Disjoint OL := (List.nodup_append.mp hnd).2.2
        have hndA : A.Nodup := (List.nodup_append.mp hndK).1
        have hndLB : (Lc ++ B).Nodup := (List.nodup_append.mp hndK).2.1
        have hdALB : A.Disjoint (Lc ++ B) := (List.nodup_append.mp hndK).2.2
        have hndLc : Lc.Nodup := (List.nodup_append.mp hndLB).1
        have hndB : B.Nodup := (List.nodup_append.mp hndLB).2.1
        have hdLcB : Lc.Disjoint B := (List.nodup_append.mp hndLB).2.2
        have hLcmem : ∀ j ∈ Lc, j ∈ (A ++ (Lc ++ B)) ++ OL := fun j hj =>
          List.mem_append_left _ (List.mem_append_right _ (List.mem_append_left _ hj))
        have hAmem : ∀ j ∈ A, j ∈ (A ++ (Lc ++ B)) ++ OL := fun j hj =>
          List.mem_append_left _ (List.mem_append_left _ hj)
        have hBmem : ∀ j ∈ B, j ∈ (A ++ (Lc ++ B)) ++ OL := fun j hj =>
          List.mem_append_left _ (List.mem_append_right _ (List.mem_append_right _ hj))
        have hOLmem : ∀ j ∈ OL, j ∈ (A ++ (Lc ++ B)) ++ OL := fun j hj =>
          List.mem_append_right _ hj
        obtain ⟨c', s1, Lc', heqc, hti1, hlv1, hbox1, hndLc1, hnf1, hfb1, hfnd1, hnle1,
          hsfx1, hfr1, hprov1, hcont1⟩ :=
          hins _ s Lc (s.buf w).box (s.buf w).id hclv hwv hcti hndLc
            (fun j hj => hnfl j (hLcmem j hj)) hfb hfnd
        rw [heqc]
        dsimp only
        have hcint : (cs.get ⟨(getChildIndex pbox (s.buf w).box).toNat, hklt⟩).box.intersectsBox
            (s.buf w).box = true := by
          rw [hcbox]
          simpa using classify_intersects_octant hpv hwv hwint hidx
        have hperm1 := hcont1 hcint
        have hfr1' : ∀ j, j ∈ (A ++ (Lc ++ B)) ++ OL ∨ j ∈ rest → s1.buf j = s.buf j := by
          intro j hj
          rcases hj with hj | hj
          · exact hfr1 j (hKOlt j hj) (hnfl j hj)
          · exact hfr1 j (hrestlt j hj) (hwfl j (List.mem_cons_of_mem _ hj))
        have hs1sub : ∀ j ∈ s1.freeList, j ∈ s.freeList := suffix_subset hsfx1
        have hdisjLc1 : ∀ (X : List ℕ), (∀ j ∈ X, j < s.next ∧ j ∉ s.freeList) →
            X.Disjoint Lc → X.Disjoint Lc' := fun X hx hxl =>
          disjoint_of_provenance hx hxl hprov1
        have hrestd : rest.Disjoint ((A ++ (Lc' ++ B)) ++ OL) := by
          intro a ha hain
          have harest : a ∈ w :: rest := List.mem_cons_of_mem _ ha
          have haKO : ∀ _ : a ∈ (A ++ (Lc ++ B)) ++ OL, False := fun h => hwdisj harest h
          rcases List.mem_append.mp hain with h1 | h1
          · rcases List.mem_append.mp h1 with h2 | h2
            · exact haKO (hAmem a h2)
            · rcases List.mem_append.mp h2 with h3 | h3
              · exact hdisjLc1 rest
                  (fun j hj => ⟨hrestlt j hj, hwfl j (List.mem_cons_of_mem _ hj)⟩)
                  (fun _ hx hxl => hwdisj (List.mem_cons_of_mem _ hx) (hLcmem _ hxl))
                  ha h3
              · exact haKO (hBmem a h3)
          · exact haKO (hOLmem a h1)
        have hki1 : KidsInv s1 md (lv + 1) pbox 0
            (cs.set (getChildIndex pbox (s.buf w).box).toNat c') (A ++ (Lc' ++ B)) := by
          rw [← List.append_assoc]
          refine hset s1 hnle1 c' Lc' hti1 (by rw [hlv1, hclv]) (by rw [hbox1, hcbox]) ?_
          intro j hj
          rcases List.mem_append.mp hj with h1 | h1
          · exact hfr1' j (Or.inl (hAmem j h1))
          · exact hfr1' j (Or.inl (hBmem j h1))
        have hndnew : ((A ++ (Lc' ++ B)) ++ OL).Nodup := by
          rw [List.nodup_append]
          refine ⟨?_, hndOL, ?_⟩
          · rw [List.nodup_append]
            refine ⟨hndA, ?_, ?_⟩
            · rw [List.nodup_append]
              refine ⟨hndLc1, hndB, ?_⟩
              intro a ha hb
              exact hdisjLc1 B (fun j hj => ⟨hKOlt j (hBmem j hj), hnfl j (hBmem j hj)⟩)
                (fun _ hx hxl => hdLcB hxl hx) hb ha
            · intro a ha hb
              rcases List.mem_append.mp hb with h1 | h1
              · exact hdisjLc1 A (fun j hj => ⟨hKOlt j (hAmem j hj), hnfl j (hAmem j hj)⟩)
                  (fun _ hx hxl => hdALB hx (List.mem_append_left _ hxl)) ha h1
              · exact hdALB ha (List.mem_append_right _ h1)
          · intro a ha hb
            rcases List.mem_append.mp ha with h1 | h1
            · exact hdKO (List.mem_append_left _ h1) hb
            · rcases List.mem_append.mp h1 with h2 | h2
              · exact hdisjLc1 OL (fun j hj => ⟨hKOlt j (hOLmem j hj), hnfl j (hOLmem j hj)⟩)
                  (fun _ hx hxl =>
                    hdKO (List.mem_append_right _ (List.mem_append_left _ hxl)) hx) hb h2
              · exact hdKO (List.mem_append_right _ (List.mem_append_right _ h2)) hb
        have hprovnew : ∀ j ∈ (A ++ (Lc' ++ B)) ++ OL,
            j ∈ (A ++ (Lc ++ B)) ++ OL ∨ j ∈ s.freeList ∨ s.next ≤ j := by
          intro j hj
          rcases List.mem_append.mp hj with h1 | h1
          · rcases List.mem_append.mp h1 with h2 | h2
            · exact Or.inl (hAmem j h2)
            · rcases List.mem_append.mp h2 with h3 | h3
              · rcases hprov1 j h3 with h | h | h
                · exact Or.inl (hLcmem j h)
                · exact Or.inr (Or.inl h)
                · exact Or.inr (Or.inr h)
              · exact Or.inl (hBmem j h3)
          · exact Or.inl (hOLmem j h1)
        obtain ⟨hacc2, cs2, KL2, OL2, s2, heqw, hcs2, hki2, hoch2, horec2, hnd2, hnfl2,
          hfb2, hfnd2, hnle2, hsfx2, hfr2, hprov2, hperm2, hstrad2, hroute2⟩ :=
          ihw wf2 (s.buf w).next hacc (cs.set (getChildIndex pbox (s.buf w).box).toNat c')
            (A ++ (Lc' ++ B)) OL s1
            (SChain.mono hnle1 hrch fun j hj => hfr1' j (Or.inr hj))
            hwlen2
            (fun j hj => by
              rw [hfr1' j (Or.inr hj)]
              exact hwrec j (List.mem_cons_of_mem _ hj))
            (fun j hj hin => hwfl j (List.mem_cons_of_mem _ hj) (hs1sub j hin))
            hrestd
            (by simp [hcs8])
            hki1
            (SChain.mono hnle1 hoch fun j hj => hfr1' j (Or.inl (hOLmem j hj)))
            (fun j hj => by
              rw [hfr1' j (Or.inl (hOLmem j hj))]
              exact horec j hj)
            (fun j hj => by
              rw [hfr1' j (Or.inl (hOLmem j hj))]
              exact hstrad j hj)
            hndnew
            (fun j hj => by
              rcases List.mem_append.mp hj with h1 | h1
              · rcases List.mem_append.mp h1 with h2 | h2
                · exact fun hin => hnfl j (hAmem j h2) (hs1sub j hin)
                · rcases List.mem_append.mp h2 with h3 | h3
                  · exact hnf1 j h3
                  · exact fun hin => hnfl j (hBmem j h3) (hs1sub j hin)
              · exact fun hin => hnfl j (hOLmem j h1) (hs1sub j hin))
            hfb1 hfnd1
        refine ⟨hacc2, cs2, KL2, OL2, s2, heqw, hcs2, hki2, hoch2, horec2, hnd2, hnfl2,
          hfb2, hfnd2, le_trans hnle1 hnle2, suffix_trans hsfx1 hsfx2, ?_, ?_, ?_,
          hstrad2, ?_⟩
        · intro j hjlt hjnfl
          rw [hfr2 j (lt_of_lt_of_le hjlt hnle1) (fun hin => hjnfl (hs1sub j hin))]
          exact hfr1 j hjlt hjnfl
        · intro j hj
          rcases hprov2 j hj with h | h | h
          · exact hprovnew j h
          · exact Or.inr (Or.inl (hs1sub j h))
          · exact Or.inr (Or.inr (by omega))
        · refine hperm2.trans ?_
          have hrR : recsOfL s1 rest = recsOfL s rest :=
            recsOfL_congr fun j hj => by rw [hfr1' j (Or.inr hj)]; exact ⟨rfl, rfl⟩
          have hrA : recsOfL s1 A = recsOfL s A :=
            recsOfL_congr fun j hj => by rw [hfr1' j (Or.inl (hAmem j hj))]; exact ⟨rfl, rfl⟩
          have hrB : recsOfL s1 B = recsOfL s B :=
            recsOfL_congr fun j hj => by rw [hfr1' j (Or.inl (hBmem j hj))]; exact ⟨rfl, rfl⟩
          have hrO : recsOfL s1 OL = recsOfL s OL :=
            recsOfL_congr fun j hj => by rw [hfr1' j (Or.inl (hOLmem j hj))]; exact ⟨rfl, rfl⟩
          simp only [recsOfL_append]
          rw [hrR, hrA, hrB, hrO]
          have hwrec_eq : recsOfL s (w :: rest) =
              ((s.buf w).box, (s.buf w).id) :: recsOfL s rest := rfl
          rw [hwrec_eq]
          exact perm_shuffle hperm1
        · -- routing: every classified record reaches its octant child
          intro k hk hk2 r hr
          have hkset : k < (cs.set (getChildIndex pbox (s.buf w).box).toNat c').length := by
            simpa using hk
          refine hroute2 k hkset hk2 r ?_
          by_cases hkidx : k = (getChildIndex pbox (s.buf w).box).toNat
          · -- the updated child
            subst hkidx
            have hgetset : (cs.set (getChildIndex pbox (s.buf w).box).toNat c').get
                ⟨(getChildIndex pbox (s.buf w).box).toNat, hkset⟩ = c' := by
              simp
            have hcontc : Node.contents s (md + 2)
                (cs.get ⟨(getChildIndex pbox (s.buf w).box).toNat, hk⟩) = recsOfL s Lc :=
              TreeInv_contents (md + 2) _ s Lc hcti hndLc (by rw [hclv]; omega)
            have hcontc' : Node.contents s1 (md + 2) c' = recsOfL s1 Lc' :=
              TreeInv_contents (md + 2) _ s1 Lc' hti1 hndLc1
                (by rw [hlv1, hclv]; omega)
            rcases hr with hr | hr
            · left
              rw [hgetset, hcontc']
              rw [hcontc] at hr
              exact (hperm1.mem_iff).mpr (List.mem_cons_of_mem _ hr)
            · obtain ⟨j, hj, hidxj, hrec_eq⟩ := hr
              rcases List.mem_cons.mp hj with rfl | hj
              · left
                rw [hgetset, hcontc']
                subst hrec_eq
                exact (hperm1.mem_iff).mpr (List.mem_cons_self _ _)
              · right
                exact ⟨j, hj, by rw [hfr1' j (Or.inr hj)]; exact hidxj,
                  by rw [hfr1' j (Or.inr hj)]; exact hrec_eq⟩
          · -- an untouched child
            have hgetset : (cs.set (getChildIndex pbox (s.buf w).box).toNat c').get
                ⟨k, hkset⟩ = cs.get ⟨k, hk⟩ := by
              simp [List.get_eq_getElem, List.getElem_set_ne (Ne.symm hkidx)]
            rw [hgetset]
            rcases hr with hr | hr
            · left
              rw [child_contents_eq hki hndK hnle1
                (fun j hj => hfr1' j (Or.inl (List.mem_append_left _ hj))) k hk]
              exact hr
            · obtain ⟨j, hj, hidxj, hrec_eq⟩ := hr
              rcases List.mem_cons.mp hj with rfl | hj
              · exfalso
                have : (getChildIndex pbox (s.buf j).box).toNat = k := by
                  rw [hidxj]
                  exact Int.toNat_natCast k
                exact hkidx this.symm
              · right
                refine ⟨j, hj, ?_, ?_⟩
                · rw [hfr1' j (Or.inr hj)]
                  exact hidxj
                · rw [hfr1' j (Or.inr hj)]
                  exact hrec_eq
      · -- straddler: re-add to the accumulator's own list
        rw [if_neg hidx]
        obtain ⟨hch1, hfresh, hw1, hfr1, hnle1, hsfx1, hknfl1, hfb1, hfnd1⟩ :=
          Store.add_chain_spec hoch (fun j hj => hnfl j (List.mem_append_right _ hj)) hfb hfnd
        have hs1sub : ∀ j ∈ (s.add hacc (s.buf w).box (s.buf w).id).1.freeList,
            j ∈ s.freeList := suffix_subset hsfx1
        have hkne : ∀ j, j ∈ KL ++ OL ∨ j ∈ rest →
            j ≠ (s.add hacc (s.buf w).box (s.buf w).id).2 := by
          intro j hj
          rcases hj with hj | hj
          · exact hfresh j (hKOlt j hj) (hnfl j hj)
          · exact hfresh j (hrestlt j hj) (hwfl j (List.mem_cons_of_mem _ hj))
        have hfr1' : ∀ j, j ∈ KL ++ OL ∨ j ∈ rest →
            (s.add hacc (s.buf w).box (s.buf w).id).1.buf j = s.buf j := fun j hj =>
          hfr1 j (hkne j hj)
        have hwidx : getChildIndex pbox (s.buf w).box = -1 := not_not.mp hidx
        obtain ⟨hacc2, cs2, KL2, OL2, s2, heqw, hcs2, hki2, hoch2, horec2, hnd2, hnfl2,
          hfb2, hfnd2, hnle2, hsfx2, hfr2, hprov2, hperm2, hstrad2, hroute2⟩ :=
          ihw wf2 (s.buf w).next ((s.add hacc (s.buf w).box (s.buf w).id).2 : ℤ) cs
            KL ((s.add hacc (s.buf w).box (s.buf w).id).2 :: OL)
            (s.add hacc (s.buf w).box (s.buf w).id).1
            (SChain.mono hnle1 hrch fun j hj => hfr1' j (Or.inr hj))
            hwlen2
            (fun j hj => by
              rw [hfr1' j (Or.inr hj)]
              exact hwrec j (List.mem_cons_of_mem _ hj))
            (fun j hj hin => hwfl j (List.mem_cons_of_mem _ hj) (hs1sub j hin))
            (by
              intro a ha hain
              rcases List.mem_append.mp hain with h1 | h1
              · exact hwdisj (List.mem_cons_of_mem _ ha) (List.mem_append_left _ h1)
              · rcases List.mem_cons.mp h1 with h2 | h2
                · exact hkne a (Or.inr ha) h2
                · exact hwdisj (List.mem_cons_of_mem _ ha) (List.mem_append_right _ h2))
            hcs8
            (KidsInv_mono hnle1 cs 0 KL hki fun j hj =>
              hfr1' j (Or.inl (List.mem_append_left _ hj)))
            hch1
            (by
              intro j hj
              rcases List.mem_cons.mp hj with h2 | h2
              · subst h2
                rw [hw1]
                exact ⟨hwint, hwv⟩
              · rw [hfr1' j (Or.inl (List.mem_append_right _ h2))]
                exact horec j h2)
            (by
              intro j hj
              rcases List.mem_cons.mp hj with h2 | h2
              · subst h2
                rw [hw1]
                exact hwidx
              · rw [hfr1' j (Or.inl (List.mem_append_right _ h2))]
                exact hstrad j h2)
            (by
              rw [List.nodup_middle, List.nodup_cons]
              refine ⟨?_, hnd⟩
              intro hin
              exact hkne _ (Or.inl hin) rfl)
            (by
              intro j hj
              rcases List.mem_append.mp hj with h1 | h1
              · exact fun hin => hnfl j (List.mem_append_left _ h1) (hs1sub j hin)
              · rcases List.mem_cons.mp h1 with h2 | h2
                · subst h2
                  exact hknfl1
                · exact fun hin => hnfl j (List.mem_append_right _ h2) (hs1sub j hin))
            hfb1 hfnd1
        refine ⟨hacc2, cs2, KL2, OL2, s2, heqw, hcs2, hki2, hoch2, horec2, hnd2, hnfl2,
          hfb2, hfnd2, le_trans hnle1 hnle2, suffix_trans hsfx1 hsfx2, ?_, ?_, ?_,
          hstrad2, ?_⟩
        · intro j hjlt hjnfl
          rw [hfr2 j (lt_of_lt_of_le hjlt hnle1) (fun hin => hjnfl (hs1sub j hin))]
          exact hfr1 j (hfresh j hjlt hjnfl)
        · intro j hj
          rcases hprov2 j hj with h | h | h
          · rcases List.mem_append.mp h with h1 | h1
            · exact Or.inl (List.mem_append_left _ h1)
            · rcases List.mem_cons.mp h1 with h2 | h2
              · subst h2
                rcases (Store.add_spec s hacc (s.buf w).box (s.buf w).id hfb).2.2.2.2.1 with
                  horig | horig
                · exact Or.inr (Or.inl horig)
                · exact Or.inr (Or.inr (le_of_eq horig.symm))
              · exact Or.inl (List.mem_append_right _ h2)
          · exact Or.inr (Or.inl (hs1sub j h))
          · exact Or.inr (Or.inr (by omega))
        · refine hperm2.trans ?_
          have hrR : recsOfL (s.add hacc (s.buf w).box (s.buf w).id).1 rest = recsOfL s rest :=
            recsOfL_congr fun j hj => by rw [hfr1' j (Or.inr hj)]; exact ⟨rfl, rfl⟩
          have hrK : recsOfL (s.add hacc (s.buf w).box (s.buf w).id).1 KL = recsOfL s KL :=
            recsOfL_congr fun j hj => by
              rw [hfr1' j (Or.inl (List.mem_append_left _ hj))]; exact ⟨rfl, rfl⟩
          have hrO : recsOfL (s.add hacc (s.buf w).box (s.buf w).id).1 OL = recsOfL s OL :=
            recsOfL_congr fun j hj => by
              rw [hfr1' j (Or.inl (List.mem_append_right _ hj))]; exact ⟨rfl, rfl⟩
          have hhead : recsOfL (s.add hacc (s.buf w).box (s.buf w).id).1
              ((s.add hacc (s.buf w).box (s.buf w).id).2 :: OL) =
              ((s.buf w).box, (s.buf w).id) ::
                recsOfL (s.add hacc (s.buf w).box (s.buf w).id).1 OL := by
            unfold recsOfL
            rw [List.map_cons, hw1]
          simp only [recsOfL_append]
          rw [hrR, hhead, hrO, hrK]
          have hwrec_eq : recsOfL s (w :: rest) =
              ((s.buf w).box, (s.buf w).id) :: recsOfL s rest := rfl
          rw [hwrec_eq]
          exact perm_shuffle2
        · intro k hk hk2 r hr
          refine hroute2 k hk hk2 r ?_
          rcases hr with hr | hr
          · left
            rw [child_contents_eq hki ((List.nodup_append.mp hnd).1) hnle1
              (fun j hj => hfr1' j (Or.inl (List.mem_append_left _ hj))) k hk]
            exact hr
          · obtain ⟨j, hj, hidxj, hrec_eq⟩ := hr
            rcases List.mem_cons.mp hj with rfl | hj
            · exfalso
              rw [hwidx] at hidxj
              omega
            · right
              exact ⟨j, hj, by rw [hfr1' j (Or.inr hj)]; exact hidxj,
                by rw [hfr1' j (Or.inr hj)]; exact hrec_eq⟩

/-- Permutation bookkeeping of the delegation step. -/
theorem perm_shuffle3 {α : Type} {A Lc B OL X : List α} {r : α}
    (hX : X.Perm (r :: Lc)) :
    ((A ++ (X ++ B)) ++ OL).Perm (r :: ((A ++ (Lc ++ B)) ++ OL)) := by
  refine List.Perm.trans (List.Perm.append_right OL
    (List.Perm.append_left A (hX.append_right B))) ?_
  have h2 : A ++ ((r :: Lc) ++ B) = A ++ (r :: (Lc ++ B)) := by simp
  rw [h2]
  refine List.Perm.trans (List.Perm.append_right OL (List.perm_middle)) ?_
  simp only [List.cons_append]
  exact List.Perm.refl _

/-- Specification of `Node.insert` on an invariant subtree with
sufficient fuel: the result is an invariant subtree at the same
level and box; the store only allocates; and the referenced records
gain exactly the new `(box, id)` pair when the self-filter passes
(everything untouched when it fails). -/
theorem Node.insertGo_spec {mo md : ℕ} :
    ∀ fuel : ℕ, ∀ (n : Node) (s : Store) (L : List ℕ) (b : Box) (id : ℤ),
      b.valid → TreeInv s md n L → L.Nodup →
      (∀ j ∈ L, j ∉ s.freeList) → (∀ j ∈ s.freeList, j < s.next) → s.freeList.Nodup →
      2 * md + 3 ≤ 2 * n.level + fuel →
      ∃ n' s' L', Node.insertGo mo md fuel b id n s = (n', s') ∧ TreeInv s' md n' L' ∧
        n'.level = n.level ∧ n'.box = n.box ∧
        L'.Nodup ∧ (∀ j ∈ L', j ∉ s'.freeList) ∧
        (∀ j ∈ s'.freeList, j < s'.next) ∧ s'.freeList.Nodup ∧
        s.next ≤ s'.next ∧ (∃ fl0, s.freeList = fl0 ++ s'.freeList) ∧
        (∀ j, j < s.next → j ∉ s.freeList → s'.buf j = s.buf j) ∧
        (∀ j ∈ L', j ∈ L ∨ j ∈ s.freeList ∨ s.next ≤ j) ∧
        (n.box.intersectsBox b = true → (recsOfL s' L').Perm ((b, id) :: recsOfL s L)) ∧
        (n.box.intersectsBox b = false → n' = n ∧ s' = s ∧ L' = L) := by
  intro fuel
  induction fuel with
  | zero =>
    intro n s L b id _ hinv _ _ _ _ hf
    exfalso
    obtain ⟨lv, bx, hd, cs⟩ := n
    rw [TreeInv_mk] at hinv
    have := hinv.2.1
    simp only [Node.level] at hf
    omega
  | succ f ih =>
    intro n s L b id hbv hinv hnd hnfl hfb hfnd hf
    obtain ⟨lv, bx, hd, cs⟩ := n
    rw [TreeInv_mk] at hinv
    obtain ⟨hv, hlv, hcs8, cl, ol, hk, hch, hrec, hL⟩ := hinv
    subst hL
    obtain ⟨hndc, hndo, hdisj⟩ := List.nodup_append.mp hnd
    simp only [Node.level] at hf
    have hKOlt : ∀ j ∈ cl ++ ol, j < s.next :=
      TreeInv_slots_lt (.mk lv bx hd cs) (cl ++ ol)
        (by rw [TreeInv_mk]; exact ⟨hv, hlv, hcs8, cl, ol, hk, hch, hrec, rfl⟩)
    simp only [Node.insertGo]
    by_cases hg : bx.intersectsBox b = false
    · rw [if_pos hg]
      refine ⟨.mk lv bx hd cs, s, cl ++ ol, rfl,
        by rw [TreeInv_mk]; exact ⟨hv, hlv, hcs8, cl, ol, hk, hch, hrec, rfl⟩,
        rfl, rfl, hnd, hnfl, hfb, hfnd, le_rfl, ⟨[], (List.nil_append _).symm⟩,
        fun j _ _ => rfl, fun j hj => Or.inl hj,
        fun ht => absurd ht (by simp only [Node.box]; simp [hg]), fun _ => ⟨rfl, rfl, rfl⟩⟩
    · rw [if_neg hg]
      have hgt : bx.intersectsBox b = true := by
        revert hg
        cases bx.intersectsBox b <;> simp
      by_cases hci : cs.isEmpty = false ∧ getChildIndex bx b ≠ -1
      · -- delegate to the classified child
        rw [if_pos hci]
        have hcsne : cs ≠ [] := by
          intro he
          rw [he] at hci
          simp at hci
        have hcs8' : cs.length = 8 ∧ lv < md := by
          rcases hcs8 with h | h
          · exact absurd h hcsne
          · exact h
        obtain ⟨hge0, hlt8⟩ := getChildIndex_lt _ _ hci.2
        have hklt : (getChildIndex bx b).toNat < cs.length := by omega
        have hgete : cs[(getChildIndex bx b).toNat]? =
            some (cs.get ⟨(getChildIndex bx b).toNat, hklt⟩) :=
          List.getElem?_eq_getElem hklt
        rw [hgete]
        dsimp only
        obtain ⟨A, Lc, B, hKLdec, hcti, hclv, hcbox, hset⟩ :=
          KidsInv_update cs 0 cl hk _ _ hgete
        subst hKLdec
        have hEQ : (A ++ Lc ++ B) ++ ol = (A ++ (Lc ++ B)) ++ ol := by
          rw [List.append_assoc A Lc B]
        rw [hEQ] at hnd hnfl hKOlt
        rw [List.append_assoc] at hk
        rw [hEQ]
        obtain ⟨hndc', hndo', hdisj'⟩ := List.nodup_append.mp hnd
        have hndA : A.Nodup := (List.nodup_append.mp hndc').1
        have hndLB : (Lc ++ B).Nodup := (List.nodup_append.mp hndc').2.1
        have hdALB : A.Disjoint (Lc ++ B) := (List.nodup_append.mp hndc').2.2
        have hndLc : Lc.Nodup := (List.nodup_append.mp hndLB).1
        have hndB : B.Nodup := (List.nodup_append.mp hndLB).2.1
        have hdLcB : Lc.Disjoint B := (List.nodup_append.mp hndLB).2.2
        have hLcmem : ∀ j ∈ Lc, j ∈ (A ++ (Lc ++ B)) ++ ol := fun j hj =>
          List.mem_append_left _ (List.mem_append_right _ (List.mem_append_left _ hj))
        have hAmem : ∀ j ∈ A, j ∈ (A ++ (Lc ++ B)) ++ ol := fun j hj =>
          List.mem_append_left _ (List.mem_append_left _ hj)
        have hBmem : ∀ j ∈ B, j ∈ (A ++ (Lc ++ B)) ++ ol := fun j hj =>
          List.mem_append_left _ (List.mem_append_right _ (List.mem_append_right _ hj))
        have hOLmem : ∀ j ∈ ol, j ∈ (A ++ (Lc ++ B)) ++ ol := fun j hj =>
          List.mem_append_right _ hj
        obtain ⟨c', s1, Lc', heqc, hti1, hlv1, hbox1, hndLc1, hnf1, hfb1, hfnd1, hnle1,
          hsfx1, hfr1, hprov1, hcont1, _⟩ :=
          ih _ s Lc b id hbv hcti hndLc (fun j hj => hnfl j (hLcmem j hj)) hfb hfnd
            (by rw [hclv]; omega)
        rw [heqc]
        dsimp only
        have hcint : (cs.get ⟨(getChildIndex bx b).toNat, hklt⟩).box.intersectsBox b = true := by
          rw [hcbox]
          simpa using classify_intersects_octant hv hbv hgt hci.2
        have hperm1 := hcont1 hcint
        have hfr1' : ∀ j, j ∈ (A ++ (Lc ++ B)) ++ ol → s1.buf j = s.buf j := fun j hj =>
          hfr1 j (hKOlt j hj) (hnfl j hj)
        have hs1sub : ∀ j ∈ s1.freeList, j ∈ s.freeList := suffix_subset hsfx1
        have hdisjLc1 : ∀ (X : List ℕ), (∀ j ∈ X, j < s.next ∧ j ∉ s.freeList) →
            X.Disjoint Lc → X.Disjoint Lc' := fun X hx hxl =>
          disjoint_of_provenance hx hxl hprov1
        have hki1 : KidsInv s1 md (lv + 1) bx 0
            (cs.set (getChildIndex bx b).toNat c') (A ++ (Lc' ++ B)) := by
          rw [← List.append_assoc]
          refine hset s1 hnle1 c' Lc' hti1 (by rw [hlv1, hclv]) (by rw [hbox1, hcbox]) ?_
          intro j hj
          rcases List.mem_append.mp hj with h1 | h1
          · exact hfr1' j (hAmem j h1)
          · exact hfr1' j (hBmem j h1)
        have hndnew : ((A ++ (Lc' ++ B)) ++ ol).Nodup := by
          rw [List.nodup_append]
          refine ⟨?_, hndo', ?_⟩
          · rw [List.nodup_append]
            refine ⟨hndA, ?_, ?_⟩
            · rw [List.nodup_append]
              refine ⟨hndLc1, hndB, ?_⟩
              intro a ha hb
              exact hdisjLc1 B (fun j hj => ⟨hKOlt j (hBmem j hj), hnfl j (hBmem j hj)⟩)
                (fun _ hx hxl => hdLcB hxl hx) hb ha
            · intro a ha hb
              rcases List.mem_append.mp hb with h1 | h1
              · exact hdisjLc1 A (fun j hj => ⟨hKOlt j (hAmem j hj), hnfl j (hAmem j hj)⟩)
                  (fun _ hx hxl => hdALB hx (List.mem_append_left _ hxl)) ha h1
              · exact hdALB ha (List.mem_append_right _ h1)
          · intro a ha hb
            rcases List.mem_append.mp ha with h1 | h1
            · exact hdisj' (List.mem_append_left _ h1) hb
            · rcases List.mem_append.mp h1 with h2 | h2
              · exact hdisjLc1 ol (fun j hj => ⟨hKOlt j (hOLmem j hj), hnfl j (hOLmem j hj)⟩)
                  (fun _ hx hxl =>
                    hdisj' (List.mem_append_right _ (List.mem_append_left _ hxl)) hx) hb h2
              · exact hdisj' (List.mem_append_right _ (List.mem_append_right _ h2)) hb
        refine ⟨.mk lv bx hd (cs.set (getChildIndex bx b).toNat c'), s1,
          (A ++ (Lc' ++ B)) ++ ol, rfl, ?_, rfl, rfl, hndnew, ?_, hfb1, hfnd1, hnle1,
          hsfx1, hfr1, ?_, ?_, fun hfls => Bool.noConfusion (hfls ▸ hgt)⟩
        · rw [TreeInv_mk]
          refine ⟨hv, hlv, Or.inr ⟨by simp [hcs8'.1], hcs8'.2⟩, A ++ (Lc' ++ B), ol,
            hki1, ?_, ?_, rfl⟩
          · exact SChain.mono hnle1 hch fun j hj => hfr1' j (hOLmem j hj)
          · intro j hj
            rw [hfr1' j (hOLmem j hj)]
            exact hrec j hj
        · intro j hj
          rcases List.mem_append.mp hj with h1 | h1
          · rcases List.mem_append.mp h1 with h2 | h2
            · exact fun hin => hnfl j (hAmem j h2) (hs1sub j hin)
            · rcases List.mem_append.mp h2 with h3 | h3
              · exact hnf1 j h3
              · exact fun hin => hnfl j (hBmem j h3) (hs1sub j hin)
          · exact fun hin => hnfl j (hOLmem j h1) (hs1sub j hin)
        · intro j hj
          rcases List.mem_append.mp hj with h1 | h1
          · rcases List.mem_append.mp h1 with h2 | h2
            · exact Or.inl (hAmem j h2)
            · rcases List.mem_append.mp h2 with h3 | h3
              · rcases hprov1 j h3 with h | h | h
                · exact Or.inl (hLcmem j h)
                · exact Or.inr (Or.inl h)
                · exact Or.inr (Or.inr h)
              · exact Or.inl (hBmem j h3)
          · exact Or.inl (hOLmem j h1)
        · intro _
          have hrA : recsOfL s1 A = recsOfL s A :=
            recsOfL_congr fun j hj => by rw [hfr1' j (hAmem j hj)]; exact ⟨rfl, rfl⟩
          have hrB : recsOfL s1 B = recsOfL s B :=
            recsOfL_congr fun j hj => by rw [hfr1' j (hBmem j hj)]; exact ⟨rfl, rfl⟩
          have hrO : recsOfL s1 ol = recsOfL s ol :=
            recsOfL_congr fun j hj => by rw [hfr1' j (hOLmem j hj)]; exact ⟨rfl, rfl⟩
          simp only [recsOfL_append]
          rw [hrA, hrB, hrO]
          exact perm_shuffle3 hperm1
      · -- store at this node (and maybe split)
        rw [if_neg hci]
        obtain ⟨hch1, hfresh, hw1, hfr1, hnle1, hsfx1, hknfl1, hfb1, hfnd1⟩ :=
          Store.add_chain_spec hch (fun j hj => hnfl j (List.mem_append_right _ hj)) hfb hfnd
        have hs1sub : ∀ j ∈ (s.add hd b id).1.freeList, j ∈ s.freeList :=
          suffix_subset hsfx1
        have hkneKO : ∀ j ∈ cl ++ ol, j ≠ (s.add hd b id).2 := fun j hj =>
          hfresh j (hKOlt j hj) (hnfl j hj)
        have hfr1' : ∀ j ∈ cl ++ ol, (s.add hd b id).1.buf j = s.buf j := fun j hj =>
          hfr1 j (hkneKO j hj)
        have horig := (Store.add_spec s hd b id hfb).2.2.2.2.1
        have hndnew : (cl ++ (s.add hd b id).2 :: ol).Nodup := by
          rw [List.nodup_middle, List.nodup_cons]
          exact ⟨fun hin => hkneKO _ hin rfl, hnd⟩
        by_cases htr : cs.isEmpty = true ∧ lv < md ∧
            mo ≤ Store.count (s.add hd b id).1 ((s.add hd b id).1.next + 1)
              ((s.add hd b id).2 : ℤ)
        · -- split
          rw [if_pos htr]
          have hcsnil : cs = [] := List.isEmpty_iff.mp htr.1
          subst hcsnil
          rw [KidsInv_nil] at hk
          subst hk
          simp only [List.nil_append] at hnd hnfl hKOlt hkneKO hfr1' hndnew ⊢
          have hndk : ((s.add hd b id).2 :: ol).Nodup := by simpa using hndnew
          have hwrec1 : ∀ j ∈ (s.add hd b id).2 :: ol,
              ((s.add hd b id).1.buf j).box.valid ∧
              bx.intersectsBox ((s.add hd b id).1.buf j).box = true := by
            intro j hj
            rcases List.mem_cons.mp hj with h2 | h2
            · subst h2
              rw [hw1]
              exact ⟨hbv, hgt⟩
            · rw [hfr1' j h2]
              exact ⟨(hrec j h2).2, (hrec j h2).1⟩
          have hwfl1 : ∀ j ∈ (s.add hd b id).2 :: ol, j ∉ (s.add hd b id).1.freeList := by
            intro j hj
            rcases List.mem_cons.mp hj with h2 | h2
            · subst h2
              exact hknfl1
            · exact fun hin => hnfl j h2 (hs1sub j hin)
          have hwlen1 : ((s.add hd b id).2 :: ol).length ≤ (s.add hd b id).1.next + 1 :=
            Nat.le_succ_of_le (length_le_of_nodup_lt hndk (SChain.slots_lt hch1))
          obtain ⟨hacc2, cs2, KL2, OL2, s2, heqw, hcs2, hki2, hoch2, horec2, hnd2, hnfl2,
            hfb2, hfnd2, hnle2, hsfx2, hfr2, hprov2, hperm2, _, _⟩ :=
            splitWalkF_spec (fun b2 i2 nn ss => Node.insertGo mo md f b2 i2 nn ss)
              (fun c s3 L3 b3 id3 hclv3 hbv3 hti3 hnd3 hnf3 hfb3 hfnd3 => by
                obtain ⟨n3, s4, L4, e1, e2, e3, e4, e5, e6, e7, e8, e9, e10, e11, e12,
                  e13, _⟩ :=
                  ih c s3 L3 b3 id3 hbv3 hti3 hnd3 hnf3 hfb3 hfnd3 (by rw [hclv3]; omega)
                exact ⟨n3, s4, L4, e1, e2, e3, e4, e5, e6, e7, e8, e9, e10, e11, e12, e13⟩)
              hv htr.2.1
              ((s.add hd b id).2 :: ol) ((s.add hd b id).1.next + 1)
              ((s.add hd b id).2 : ℤ) (-1) (splitChildren lv bx) [] []
              (s.add hd b id).1
              hch1 hwlen1 hwrec1 hwfl1
              (by intro a _ ha; simp at ha)
              (by simp [splitChildren])
              (KidsInv_splitChildren hv htr.2.1)
              SChain.nil
              (by intro j hj; cases hj)
              (by intro j hj; cases hj)
              (by simp)
              (by intro j hj; cases hj)
              hfb1 hfnd1
          refine ⟨.mk lv bx hacc2 cs2, s2, KL2 ++ OL2, heqw, ?_, rfl, rfl, hnd2, hnfl2,
            hfb2, hfnd2, le_trans hnle1 hnle2, suffix_trans hsfx1 hsfx2, ?_, ?_, ?_,
            fun hfls => Bool.noConfusion (hfls ▸ hgt)⟩
          · rw [TreeInv_mk]
            exact ⟨hv, hlv, Or.inr ⟨hcs2, htr.2.1⟩, KL2, OL2, hki2, hoch2, horec2, rfl⟩
          · intro j hjlt hjnfl
            rw [hfr2 j (lt_of_lt_of_le hjlt hnle1) (fun hin => hjnfl (hs1sub j hin))]
            exact hfr1 j (hfresh j hjlt hjnfl)
          · intro j hj
            rcases hprov2 j hj with h | h | h
            · simp at h
            · exact Or.inr (Or.inl (hs1sub j h))
            · exact Or.inr (Or.inr (by omega))
          · intro _
            refine hperm2.trans ?_
            have hrO : recsOfL (s.add hd b id).1 ol = recsOfL s ol :=
              recsOfL_congr fun j hj => by rw [hfr1' j hj]; exact ⟨rfl, rfl⟩
            have hhead : recsOfL (s.add hd b id).1 ((s.add hd b id).2 :: ol) =
                (b, id) :: recsOfL (s.add hd b id).1 ol := by
              unfold recsOfL
              rw [List.map_cons, hw1]
            rw [hhead, hrO]
            simp [recsOfL]
        · -- plain prepend, no split
          rw [if_neg htr]
          refine ⟨.mk lv bx ((s.add hd b id).2 : ℤ) cs, (s.add hd b id).1,
            cl ++ (s.add hd b id).2 :: ol, rfl, ?_, rfl, rfl, hndnew, ?_, hfb1, hfnd1,
            hnle1, hsfx1, fun j hjlt hjnfl => hfr1 j (hfresh j hjlt hjnfl), ?_, ?_,
            fun hfls => Bool.noConfusion (hfls ▸ hgt)⟩
          · rw [TreeInv_mk]
            refine ⟨hv, hlv, hcs8, cl, (s.add hd b id).2 :: ol, ?_, hch1, ?_, rfl⟩
            · exact KidsInv_mono hnle1 cs 0 cl hk fun j hj =>
                hfr1' j (List.mem_append_left _ hj)
            · intro j hj
              rcases List.mem_cons.mp hj with h2 | h2
              · subst h2
                rw [hw1]
                exact ⟨hgt, hbv⟩
              · rw [hfr1' j (List.mem_append_right _ h2)]
                exact hrec j h2
          · intro j hj
            rcases List.mem_append.mp hj with h1 | h1
            · exact fun hin => hnfl j (List.mem_append_left _ h1) (hs1sub j hin)
            · rcases List.mem_cons.mp h1 with h2 | h2
              · subst h2
                exact hknfl1
              · exact fun hin => hnfl j (List.mem_append_right _ h2) (hs1sub j hin)
          · intro j hj
            rcases List.mem_append.mp hj with h1 | h1
            · exact Or.inl (List.mem_append_left _ h1)
            · rcases List.mem_cons.mp h1 with h2 | h2
              · subst h2
                rcases horig with h | h
                · exact Or.inr (Or.inl h)
                · exact Or.inr (Or.inr (le_of_eq h.symm))
              · exact Or.inl (List.mem_append_right _ h2)
          · intro _
            have hrC : recsOfL (s.add hd b id).1 cl = recsOfL s cl :=
              recsOfL_congr fun j hj => by
                rw [hfr1' j (List.mem_append_left _ hj)]; exact ⟨rfl, rfl⟩
            have hrO : recsOfL (s.add hd b id).1 ol = recsOfL s ol :=
              recsOfL_congr fun j hj => by
                rw [hfr1' j (List.mem_append_right _ hj)]; exact ⟨rfl, rfl⟩
            have hhead : recsOfL (s.add hd b id).1 ((s.add hd b id).2 :: ol) =
                (b, id) :: recsOfL (s.add hd b id).1 ol := by
              unfold recsOfL
              rw [List.map_cons, hw1]
            rw [recsOfL_append, recsOfL_append, hrC, hhead, hrO]
            exact List.perm_middle

/-- `Box.subset` is reflexive. -/
theorem Box.subset_refl (a : Box) : a.subset a :=
  ⟨le_rfl, le_rfl, le_rfl, le_rfl, le_rfl, le_rfl⟩

/-- The ids of a slot list are the second components of its records. -/
theorem idsOfL_eq (s : Store) (L : List ℕ) :
    idsOfL s L = (recsOfL s L).map Prod.snd := by
  unfold idsOfL recsOfL
  rw [List.map_map]
  rfl

/-- Filtering slots by id matches filtering their records by id. -/
theorem recsOfL_filter (s : Store) (idv : ℤ) (L : List ℕ) :
    recsOfL s (L.filter fun j => (s.buf j).id ≠ idv) =
      (recsOfL s L).filter fun r => r.2 ≠ idv := by
  induction L with
  | nil => rfl
  | cons a t ih =>
    by_cases h : (s.buf a).id = idv
    · rw [List.filter_cons_of_neg (by simpa using h)]
      rw [ih]
      unfold recsOfL
      rw [List.map_cons, List.filter_cons_of_neg (by simpa using h)]
    · rw [List.filter_cons_of_pos (by simpa using h)]
      unfold recsOfL
      rw [List.map_cons, List.map_cons, List.filter_cons_of_pos (by simpa using h)]
      unfold recsOfL at ih
      rw [ih]

/-- Running a step-valid command sequence preserves the engine invariant
and tracks the live set exactly. -/
theorem applyOps_spec :
    ∀ (ops : List Op) (t : Octree) (live : List (Box × ℤ)),
      t.box.valid →
      OctInv t live →
      ((live.map Prod.snd).Nodup) →
      (∀ r ∈ live, t.box.intersectsBox r.1 = true ∧ r.1.valid) →
      SeqOK t.box live ops →
      OctInv (applyOps t ops) (liveFold ops live) ∧
      (applyOps t ops).box = t.box ∧ (applyOps t ops).maxDepth = t.maxDepth ∧
      (((liveFold ops live).map Prod.snd).Nodup) ∧
      (∀ r ∈ liveFold ops live, t.box.intersectsBox r.1 = true ∧ r.1.valid) := by
  intro ops
  induction ops with
  | nil =>
    intro t live _ hoct hnd hrec _
    exact ⟨hoct, rfl, rfl, hnd, hrec⟩
  | cons op rest ih =>
    intro t live hbv hoct hlnd hlrec hseq
    obtain ⟨hlv0, hbeq, L, hti, hnd, hnfl, hfb, hfnd, hperm⟩ := hoct
    cases op with
    | ins b i =>
      simp only [SeqOK] at hseq
      obtain ⟨hobv, hoint, hnotin, hrest⟩ := hseq
      obtain ⟨n', s', L', heq, hti', hlv', hbox', hnd', hnfl', hfb', hfnd', _, _, _, _,
        hcontT, _⟩ :=
        Node.insertGo_spec (2 * t.maxDepth + 3) t.root t.store L b i hobv hti hnd hnfl
          hfb hfnd (by rw [hlv0]; omega)
      have hpm := hcontT (by rw [hbeq]; exact hoint)
      have hroot' : (t.insert b i).root = n' := by
        simp only [Octree.insert]
        rw [heq]
      have hstore' : (t.insert b i).store = s' := by
        simp only [Octree.insert]
        rw [heq]
      have hoct' : OctInv (t.insert b i) (live ++ [(b, i)]) := by
        refine ⟨by rw [hroot', hlv', hlv0], by rw [hroot', hbox', hbeq]; rfl,
          L', by rw [hroot', hstore']; exact hti', hnd', by rw [hstore']; exact hnfl',
          by rw [hstore']; exact hfb', by rw [hstore']; exact hfnd', ?_⟩
        rw [hstore']
        exact hpm.trans ((hperm.cons (b, i)).trans (List.perm_append_singleton _ _).symm)
      have hbx' : (t.insert b i).box = t.box := rfl
      have hres := ih (t.insert b i) (live ++ [(b, i)]) (by rw [hbx']; exact hbv) hoct'
        (by
          rw [List.map_append]
          rw [List.nodup_append]
          refine ⟨hlnd, by simp, ?_⟩
          intro a ha hb
          simp at hb
          subst hb
          rcases List.mem_map.mp ha with ⟨r, hr, hsnd⟩
          exact hnotin r hr hsnd)
        (by
          intro r hr
          rcases List.mem_append.mp hr with h | h
          · exact hlrec r h
          · simp at h
            subst h
            exact ⟨hoint, hobv⟩)
        (by rw [hbx']; exact hrest)
      simp only [applyOps, liveFold]
      exact ⟨hres.1, hres.2.1, hres.2.2.1, hres.2.2.2.1, hres.2.2.2.2⟩
    | rem b i =>
      simp only [SeqOK] at hseq
      obtain ⟨hoint, hmem, hrest⟩ := hseq
      have hmemrec : (b, i) ∈ recsOfL t.store L := (hperm.mem_iff).mpr hmem
      rcases List.mem_map.mp hmemrec with ⟨j0, hj0, hpair⟩
      have hj0id : (t.store.buf j0).id = i := congrArg Prod.snd hpair
      have hj0box : (t.store.buf j0).box = b := congrArg Prod.fst hpair
      have hidnd : (idsOfL t.store L).Nodup := by
        rw [idsOfL_eq]
        exact ((hperm.map Prod.snd).nodup_iff).mpr hlnd
      have huniq : ∀ j ∈ L, (t.store.buf j).id = i → j = j0 := by
        intro j hj hjid
        have := List.inj_on_of_nodup_map (by rw [← idsOfL]; exact hidnd)
        exact this hj hj0 (by rw [hjid, hj0id])
      obtain ⟨n', s', heq, hti', hlv', hbox', hnext', hfl', hpay', _⟩ :=
        (Node.removeGo_spec (t.maxDepth + 2) t.root t.store L hti hnd
          (by rw [hlv0]; omega)).2 j0 hj0 hj0id hj0box huniq
      have hroot' : (t.remove b.toE i).root = n' := by
        simp only [Octree.remove]
        rw [heq]
      have hstore' : (t.remove b.toE i).store = s' := by
        simp only [Octree.remove]
        rw [heq]
      have hoct' : OctInv (t.remove b.toE i) (live.filter fun r => r.2 ≠ i) := by
        refine ⟨by rw [hroot', hlv', hlv0], by rw [hroot', hbox', hbeq]; rfl,
          L.erase j0, by rw [hroot', hstore']; exact hti', hnd.erase _, ?_, ?_, ?_, ?_⟩
        · intro j hj
          rw [hstore', hfl']
          have hje := (hnd.mem_erase_iff).mp hj
          intro hin
          rcases List.mem_cons.mp hin with h | h
          · exact hje.1 h
          · exact hnfl j hje.2 h
        · intro j hj
          rw [hstore', hnext']
          rw [hstore', hfl'] at hj
          rcases List.mem_cons.mp hj with h | h
          · rw [h]
            exact TreeInv_slots_lt t.root L hti j0 hj0
          · exact hfb j h
        · rw [hstore', hfl']
          rw [List.nodup_cons]
          exact ⟨hnfl j0 hj0, hfnd⟩
        · rw [hstore']
          have hpayrw : recsOfL s' (L.erase j0) = recsOfL t.store (L.erase j0) :=
            recsOfL_congr fun j _ => hpay' j
          rw [hpayrw]
          rw [← filter_ne_eq_erase hj0 hj0id huniq hnd]
          rw [recsOfL_filter]
          exact hperm.filter _
      have hbx' : (t.remove b.toE i).box = t.box := rfl
      have hres := ih (t.remove b.toE i) (live.filter fun r => r.2 ≠ i)
        (by rw [hbx']; exact hbv) hoct'
        (by
          have : ((live.filter fun r => r.2 ≠ i).map Prod.snd).Sublist
              (live.map Prod.snd) := (List.filter_sublist _).map _
          exact hlnd.sublist this)
        (fun r hr => hlrec r (List.mem_of_mem_filter hr))
        (by rw [hbx']; exact hrest)
      simp only [applyOps, liveFold]
      exact ⟨hres.1, hres.2.1, hres.2.2.1, hres.2.2.2.1, hres.2.2.2.2⟩

/-- The claim-level sequence hypothesis implies the step-wise one. -/
theorem OpsValid_SeqOK {rootBox : Box} :
    ∀ (ops pre : List Op) (live : List (Box × ℤ)),
      OpsValid rootBox (pre ++ ops) →
      (∀ b i, (b, i) ∈ live → Op.ins b i ∈ pre) →
      (∀ b i, Op.ins b i ∈ pre → (∀ b', Op.rem b' i ∉ pre) → (b, i) ∈ live) →
      SeqOK rootBox live ops := by
  intro ops
  induction ops with
  | nil => intro pre live _ _ _; trivial
  | cons op rest ih =>
    intro pre live hov ha hb
    have hov2 := hov
    obtain ⟨hinsnd, hremnd, hboxes, hmatch⟩ := hov
    cases op with
    | ins b i =>
      simp only [SeqOK]
      have hopmem : Op.ins b i ∈ pre ++ Op.ins b i :: rest :=
        List.mem_append_right _ (List.mem_cons_self _ _)
      refine ⟨(hboxes _ hopmem).2, (hboxes _ hopmem).1, ?_, ?_⟩
      · intro r hr hsnd
        have hins : Op.ins r.1 i ∈ pre := by
          have := ha r.1 r.2 (by rw [Prod.mk.eta]; exact hr)
          rw [hsnd] at this
          exact this
        have hsplit : (pre ++ Op.ins b i :: rest).filterMap
            (fun o => match o with | .ins _ i => some i | _ => none) =
            pre.filterMap (fun o => match o with | .ins _ i => some i | _ => none) ++
            i :: rest.filterMap (fun o => match o with | .ins _ i => some i | _ => none) := by
          rw [List.filterMap_append]
          rfl
        rw [hsplit] at hinsnd
        obtain ⟨_, _, hdisj2⟩ := List.nodup_append.mp hinsnd
        refine hdisj2 ?_ (List.mem_cons_self _ _)
        exact List.mem_filterMap.mpr ⟨Op.ins r.1 i, hins, rfl⟩
      · refine ih (pre ++ [Op.ins b i]) (live ++ [(b, i)]) ?_ ?_ ?_
        · rw [List.append_assoc, List.singleton_append]
          exact hov2
        · intro b2 i2 h2
          rcases List.mem_append.mp h2 with h | h
          · exact List.mem_append_left _ (ha b2 i2 h)
          · simp at h
            obtain ⟨hb2, hi2⟩ := h
            subst hb2
            subst hi2
            exact List.mem_append_right _ (List.mem_cons_self _ _)
        · intro b2 i2 hins2 hnorem
          rcases List.mem_append.mp hins2 with h | h
          · refine List.mem_append_left _ (hb b2 i2 h ?_)
            intro b' hmem'
            exact hnorem b' (List.mem_append_left _ hmem')
          · simp at h
            obtain ⟨hb2, hi2⟩ := h
            subst hb2
            subst hi2
            exact List.mem_append_right _ (by simp)
    | rem b i =>
      simp only [SeqOK]
      have hopmem : Op.rem b i ∈ pre ++ Op.rem b i :: rest :=
        List.mem_append_right _ (List.mem_cons_self _ _)
      have hkidx : pre.length < (pre ++ Op.rem b i :: rest).length := by
        simp
      have hgetd : (pre ++ Op.rem b i :: rest).getD pre.length opDummy = Op.rem b i := by
        rw [List.getD_eq_getElem?_getD]
        rw [List.getElem?_append_right (le_refl pre.length)]
        simp
      have htake : (pre ++ Op.rem b i :: rest).take pre.length = pre := List.take_left _ _
      have hck := hmatch pre.length hkidx
      rw [hgetd, htake] at hck
      simp only [remCheck, decide_eq_true_eq] at hck
      have hnorem : ∀ b', Op.rem b' i ∉ pre := by
        intro b' hmem'
        have hsplit : (pre ++ Op.rem b i :: rest).filterMap
            (fun o => match o with | .rem _ i => some i | _ => none) =
            pre.filterMap (fun o => match o with | .rem _ i => some i | _ => none) ++
            i :: rest.filterMap (fun o => match o with | .rem _ i => some i | _ => none) := by
          rw [List.filterMap_append]
          rfl
        rw [hsplit] at hremnd
        obtain ⟨_, _, hdisj2⟩ := List.nodup_append.mp hremnd
        refine hdisj2 ?_ (List.mem_cons_self _ _)
        exact List.mem_filterMap.mpr ⟨Op.rem b' i, hmem', rfl⟩
      refine ⟨(hboxes _ hopmem).1, hb b i hck hnorem, ?_⟩
      refine ih (pre ++ [Op.rem b i]) (live.filter fun r => r.2 ≠ i) ?_ ?_ ?_
      · rw [List.append_assoc, List.singleton_append]
        exact hov2
      · intro b2 i2 h2
        exact List.mem_append_left _ (ha b2 i2 (List.mem_of_mem_filter h2))
      · intro b2 i2 hins2 hnorem2
        have hi2ne : i2 ≠ i := by
          intro he
          subst he
          exact hnorem2 b (List.mem_append_right _ (by simp))
        rcases List.mem_append.mp hins2 with h | h
        · have hlive := hb b2 i2 h fun b' hmem' =>
            hnorem2 b' (List.mem_append_left _ hmem')
          refine List.mem_filter.mpr ⟨hlive, by simpa using hi2ne⟩
        · simp at h

/-- C3: the claim says a remove carrying the worker transport's empty box
(`new Box3()`, `min = +∞ > max = -∞`) disables the pruning and removes the
record.  The code does the opposite: the three.js intersection test of the
empty box against any finite node box is `false` (`node.max.x < +∞` short
circuits it), so `Node.remove` returns at its very first guard and the
whole remove is a no-op — the record with id 7 is still visited
afterwards. -/
theorem oc3_c3_empty_box_remove_is_noop :
    (∀ (t : Octree) (id : ℤ), t.remove emptyBox3 id = t) ∧
    (exTreeC3.remove emptyBox3 7).aabbQuery box10 = [7] := by
  constructor
  · intro t id
    obtain ⟨bx, md, mo, s, root⟩ := t
    obtain ⟨lv, nb, hd, cs⟩ := root
    simp [Octree.remove, Node.removeGo, emptyBox3_intersects_none]
  · with_unfolding_all decide

/-- C4 counterexample: `update` removes with the NEW box, so when the new
box does not intersect the subtree holding the old record, the old record
survives and the post-update `aabbQuery(root_box)` sees id 1 twice —
unlike `remove(b_old); insert(b_new)`, which sees it once. -/
theorem oc3_c4_counterexample :
    (exTreeC4.update ⟨5, 5, 5, 6, 6, 6⟩ 1).aabbQuery box10 = [1, 1, 2] ∧
    ((exTreeC4.remove (Box.toE ⟨-9, -9, -9, -8, -8, -8⟩) 1).insert
      ⟨5, 5, 5, 6, 6, 6⟩ 1).aabbQuery box10 = [1, 2] ∧
    (exTreeC4.update ⟨5, 5, 5, 6, 6, 6⟩ 1).aabbQuery box10 ≠
      ((exTreeC4.remove (Box.toE ⟨-9, -9, -9, -8, -8, -8⟩) 1).insert
        ⟨5, 5, 5, 6, 6, 6⟩ 1).aabbQuery box10 := by
  refine ⟨?_, ?_, ?_⟩ <;> with_unfolding_all decide

/-- C4 amended: `update({box: b_new, id})` equals `remove` with the NEW
box followed by `insert` with the new box — state equality, hence every
query observes the same result.  (Equivalence with `remove(b_old)` fails;
see the counterexample.) -/
theorem oc3_c4_update_eq_remove_new_then_insert :
    ∀ (t : Octree) (b : Box) (id : ℤ),
      t.update b id = (t.remove b.toE id).insert b id ∧
      (∀ qbox : Box, (t.update b id).aabbQuery qbox =
        ((t.remove b.toE id).insert b id).aabbQuery qbox) ∧
      (∀ planes : List Plane, (t.update b id).frustumQuery planes =
        ((t.remove b.toE id).insert b id).frustumQuery planes) ∧
      (∀ ox oy oz dx dy dz : ℚ, (t.update b id).raycast ox oy oz dx dy dz =
        ((t.remove b.toE id).insert b id).raycast ox oy oz dx dy dz) := by
  intro t b id
  exact ⟨rfl, fun _ => rfl, fun _ => rfl, fun _ _ _ _ _ _ => rfl⟩

/-- C2: the source pushes `(t_enter, childIndex)` pairs into one flat
array and sorts the WHOLE array numerically, destroying the pairing.
Here both surviving children of the root have `t_enter` (90 and 100)
larger than any child index, so the sorted array `[3, 7, 90, 100]` makes
the loop read `children[7]` and `children[100]`; the far child (id 2's,
`t_enter = 100`) is processed, then the `undefined` from `children[100]`
ends the loop — the near child's record (id 1, `t_enter = 94`) is never
emitted, instead of survivors being processed in ascending `t_enter`
order. -/
theorem oc3_c2_flat_sort_scrambles_traversal :
    exTreeC2.raycast (3/2) (3/2) (-100) (1/1000) (1/1000) 1 = [(2, 105)] ∧
    intersectRayBoxSlab (3/2) (3/2) (-100) 1000 1000 1 (octantBox box10 3) = some 90 ∧
    intersectRayBoxSlab (3/2) (3/2) (-100) 1000 1000 1 (octantBox box10 7) = some 100 ∧
    intersectRayBounds (3/2) (3/2) (-100) 1000 1000 1 ⟨1, 1, -6, 2, 2, -5⟩ = some 94 := by
  refine ⟨?_, ?_, ?_, ?_⟩ <;> with_unfolding_all decide

/-- C6: the flat-sort scramble can push the SAME child twice.  The ray
grazes the corner shared by four root octants with `t_enter = 4` at each,
so the flat array `[4,0,4,2,4,4,4,6]` sorts to `[0,2,4,4,4,4,4,6]` whose
odd positions are `2,4,4,6` — child 4 is pushed twice and its record
(id 1, stored at exactly one node, as the single `1` in the aabbQuery
output shows) is emitted twice by one raycast. -/
theorem oc3_c6_raycast_emits_id_twice :
    exTreeC6.raycast (-1) (-4) (-4) (1/1000) 1 1 = [(1, 4), (1, 4)] ∧
    exTreeC6.aabbQuery box10 = [2, 1] := by
  refine ⟨?_, ?_⟩ <;> with_unfolding_all decide

/-- C9: on a non-empty slab interval the test returns `t_enter` when it
is non-negative, else `t_exit` when non-negative (a ray starting inside
the box), else a miss; an empty interval is a miss.  Both slab functions
agree, and every raycast hit's recorded distance is exactly this slab
value of the hit record (modelled with exact arithmetic; `invDir = 1/d`
is faithful for direction components `d ≠ 0`). -/
theorem oc3_c9_slab_distance :
    (∀ (ox oy oz ix iy iz : ℚ) (b : Box),
      intersectRayBoxSlab ox oy oz ix iy iz b =
        if tEnter ox oy oz ix iy iz b ≤ tExit ox oy oz ix iy iz b then
          (if 0 ≤ tEnter ox oy oz ix iy iz b then some (tEnter ox oy oz ix iy iz b)
           else if 0 ≤ tExit ox oy oz ix iy iz b then some (tExit ox oy oz ix iy iz b)
           else none)
        else none) ∧
    (∀ (ox oy oz ix iy iz : ℚ) (b : Box),
      intersectRayBounds ox oy oz ix iy iz b = intersectRayBoxSlab ox oy oz ix iy iz b) ∧
    (∀ (t : Octree) (ox oy oz dx dy dz : ℚ) (id : ℤ) (dist : ℚ),
      (id, dist) ∈ t.raycast ox oy oz dx dy dz →
      ∃ n j, SubNode n t.root ∧ j ∈ Store.chain t.store (t.store.next + 1) n.head ∧
        (t.store.buf j).id = id ∧
        intersectRayBounds ox oy oz (1 / dx) (1 / dy) (1 / dz) (t.store.buf j).box = some dist) := by
  refine ⟨intersectRayBoxSlab_spec, intersectRayBounds_eq_slab, ?_⟩
  intro t ox oy oz dx dy dz id dist h
  rcases raycastGo_sound _ _ id dist h with ⟨n0, n, j, hn0, hsub, hj, hid, hslab⟩
  have h0 := Option.some.inj (List.mem_singleton.mp hn0)
  exact ⟨n, j, h0 ▸ hsub, hj, hid, hslab⟩

/-- C9 witness: the concrete hit `(2, 105)` of the C2 scenario is a
record of the tree whose slab distance is 105. -/
theorem oc3_c9_slab_distance_witness :
    (2, 105) ∈ exTreeC2.raycast (3/2) (3/2) (-100) (1/1000) (1/1000) 1 ∧
    (∃ n j, SubNode n exTreeC2.root ∧
      j ∈ Store.chain exTreeC2.store (exTreeC2.store.next + 1) n.head ∧
      (exTreeC2.store.buf j).id = 2 ∧
      intersectRayBounds (3/2) (3/2) (-100) (1 / (1/1000)) (1 / (1/1000)) (1 / 1)
        (exTreeC2.store.buf j).box = some 105) :=
  ⟨by with_unfolding_all decide,
   oc3_c9_slab_distance.2.2 exTreeC2 (3/2) (3/2) (-100) (1/1000) (1/1000) 1 2 105
     (by with_unfolding_all decide)⟩

/-- C1 counterexample: record 1's box `[-20,-5]³` pokes outside the root
box; it is stored in the `x,y,z < 0` subtree of the (split) root.  The
ray at `x = y = -15` slab-hits the record's bounds (`t = 55`) but misses
every root child box, so the whole subtree is pruned and `out` stays
empty — a finite-distance record hit is skipped. -/
theorem oc3_c1_counterexample :
    exTreeC1.raycast (-15) (-15) 50 (1/1000) (1/1000) (-1) = [] ∧
    intersectRayBounds (-15) (-15) 50 1000 1000 (-1) ⟨-20, -20, -20, -5, -5, -5⟩ = some 55 ∧
    exTreeC1.aabbQuery box10 = [2, 1] := by
  refine ⟨?_, ?_, ?_⟩ <;> with_unfolding_all decide

/-- C1 amended: the raycast appends a hit for every finite-slab record of
every node it visits — in particular for every record on the root node's
own list, at any distance, with no far-pruning — and every emitted hit is
a genuine stored record at its slab distance; but records of subtrees the
traversal does not reach (a child-box slab miss, or the flat-sort
mis-indexing) are skipped. -/
theorem oc3_c1_raycast_no_far_pruning_amended :
    (∀ (t : Octree) (ox oy oz dx dy dz : ℚ) (j : ℕ),
      j ∈ Store.chain t.store (t.store.next + 1) t.root.head →
      ∀ dist : ℚ,
        intersectRayBounds ox oy oz (1 / dx) (1 / dy) (1 / dz) (t.store.buf j).box = some dist →
        ((t.store.buf j).id, dist) ∈ t.raycast ox oy oz dx dy dz) ∧
    (∀ (t : Octree) (ox oy oz dx dy dz : ℚ) (id : ℤ) (dist : ℚ),
      (id, dist) ∈ t.raycast ox oy oz dx dy dz →
      ∃ n j, SubNode n t.root ∧ j ∈ Store.chain t.store (t.store.next + 1) n.head ∧
        (t.store.buf j).id = id ∧
        intersectRayBounds ox oy oz (1 / dx) (1 / dy) (1 / dz) (t.store.buf j).box = some dist) := by
  constructor
  · intro t ox oy oz dx dy dz j hj dist hslab
    show _ ∈ raycastGo t.store ox oy oz (1/dx) (1/dy) (1/dz) (8 ^ (t.maxDepth + 2) + 1)
      [some t.root]
    rw [raycastGo]
    refine List.mem_append.mpr (Or.inl ?_)
    exact List.mem_filterMap.mpr ⟨j, hj, by rw [hslab]⟩
  · intro t ox oy oz dx dy dz id dist h
    rcases raycastGo_sound _ _ id dist h with ⟨n0, n, j, hn0, hsub, hj, hid, hslab⟩
    have h0 := Option.some.inj (List.mem_singleton.mp hn0)
    exact ⟨n, j, h0 ▸ hsub, hj, hid, hslab⟩

/-- C1 amended witness: the single record of the C3 scenario sits on the
root's own list; a diagonal ray from the origin hits it at distance 1 and
the hit is emitted. -/
theorem oc3_c1_raycast_no_far_pruning_amended_witness :
    0 ∈ Store.chain exTreeC3.store (exTreeC3.store.next + 1) exTreeC3.root.head ∧
    intersectRayBounds 0 0 0 (1 / 1) (1 / 1) (1 / 1)
      (exTreeC3.store.buf 0).box = some 1 ∧
    ((exTreeC3.store.buf 0).id, 1) ∈ exTreeC3.raycast 0 0 0 1 1 1 :=
  ⟨by with_unfolding_all decide, by with_unfolding_all decide,
   oc3_c1_raycast_no_far_pruning_amended.1 exTreeC3 0 0 0 1 1 1 0
     (by with_unfolding_all decide) 1 (by with_unfolding_all decide)⟩

/-- `getChildIndex` returns `-1` exactly on boxes that straddle a
midplane. -/
theorem getChildIndex_eq_neg_one_iff (nbox objBox : Box) :
    getChildIndex nbox objBox = -1 ↔ straddles nbox objBox := by
  have key : ∀ a b c d e f : Bool,
      ((if a && c && e then (0 : ℤ) else if b && c && e then 1 else if a && d && e then 2
        else if b && d && e then 3 else if a && c && f then 4 else if b && c && f then 5
        else if a && d && f then 6 else if b && d && f then 7 else -1) = -1 ↔
       ((a = false ∧ b = false) ∨ (c = false ∧ d = false) ∨ (e = false ∧ f = false))) := by
    decide
  simp only [getChildIndex]
  rw [key]
  simp [straddles, decide_eq_false_iff_not]

/-- C8 counterexample: a zero-width box sitting exactly on the centroid
satisfies the claimed per-axis conditions for `i = 7` (`bmin.c ≥ c.c` on
every axis), yet `classify` returns 0, not 7 — on ties the first matching
branch wins, so "returns exactly that i" fails as stated. -/
theorem oc3_c8_counterexample :
    fitsBits box10 ⟨0, 0, 0, 0, 0, 0⟩ 7 ∧
    getChildIndex box10 ⟨0, 0, 0, 0, 0, 0⟩ = 0 := by
  constructor <;> with_unfolding_all decide

/-- C8 amended: (1) child `i` of a split covers exactly the octant the
three low bits of `i` select (bit 0 → x half, bit 1 → y, bit 2 → z);
(2) `classify` returns `i` whenever each axis fits the side of `i`'s bit
exclusively (and not also the other side — boxes touching a midplane with
zero width can satisfy several octants, and then the smallest matching
index wins); (3) `classify` returns `-1` exactly when the box straddles
some midplane. -/
theorem oc3_c8_octants_and_classify :
    (∀ (parent : Box) (lvl i : ℕ), i < 8 →
      (splitChildren lvl parent)[i]? = some (Node.mk (lvl + 1) (octantSpec parent i) (-1) [])) ∧
    (∀ (nbox objBox : Box) (i : ℕ), i < 8 → fitsBitsExclusive nbox objBox i →
      getChildIndex nbox objBox = (i : ℤ)) ∧
    (∀ nbox objBox : Box, getChildIndex nbox objBox = -1 ↔ straddles nbox objBox) := by
  refine ⟨?_, ?_, ?_⟩
  · intro parent lvl i hi
    unfold splitChildren
    rw [List.getElem?_map, List.getElem?_range hi]
    simp only [Option.map_some']
    congr 1
    interval_cases i <;> rfl
  · intro nbox objBox i hi hex
    unfold fitsBitsExclusive at hex
    interval_cases i <;>
      (norm_num at hex
       obtain ⟨⟨hx1, hx2⟩, ⟨hy1, hy2⟩, hz1, hz2⟩ := hex
       simp [getChildIndex, ge_iff_le, decide_eq_true hx1, decide_eq_true hy1,
         decide_eq_true hz1, decide_eq_false (not_le.mpr hx2),
         decide_eq_false (not_le.mpr hy2), decide_eq_false (not_le.mpr hz2)])
  · exact getChildIndex_eq_neg_one_iff

/-- C8 witness: child 5 of the `[-10,10]³` box is the `x` upper, `y`
lower, `z` upper octant, and the box `[1,2]³` (strictly inside the all-
upper octant) classifies to 7. -/
theorem oc3_c8_octants_and_classify_witness :
    (splitChildren 0 box10)[5]? = some (Node.mk 1 (octantSpec box10 5) (-1) []) ∧
    fitsBitsExclusive box10 ⟨1, 1, 1, 2, 2, 2⟩ 7 ∧
    getChildIndex box10 ⟨1, 1, 1, 2, 2, 2⟩ = (7 : ℤ) :=
  ⟨oc3_c8_octants_and_classify.1 box10 0 5 (by decide),
   by with_unfolding_all decide,
   oc3_c8_octants_and_classify.2.1 box10 ⟨1, 1, 1, 2, 2, 2⟩ 7 (by decide)
     (by with_unfolding_all decide)⟩

/-- C10: `store.remove(store.add(h, box, id), id)` matches the freshly
added head record, returns `h`, and pushes the allocated slot onto the
free list leaving buffer, `next` and capacity untouched; on a store with
the reachable-state shape (positive capacity, `next ≤ capacity`, free
slots below capacity) the very next allocation pops that same slot again
without growing. -/
theorem oc3_c10_add_remove_roundtrip :
    ∀ (s : Store) (head : ℤ) (box : Box) (id : ℤ),
      (Store.remove (s.add head box id).1 ((s.add head box id).1.next + 1)
          (((s.add head box id).2 : ℕ) : ℤ) id =
        ({ (s.add head box id).1 with
            freeList := (s.add head box id).2 :: (s.add head box id).1.freeList }, head)) ∧
      (0 < s.capacity → s.next ≤ s.capacity → (∀ j ∈ s.freeList, j < s.capacity) →
        ∀ (h2 : ℤ) (b2 : Box) (i2 : ℤ),
          (({ (s.add head box id).1 with
              freeList := (s.add head box id).2 :: (s.add head box id).1.freeList } : Store).add
            h2 b2 i2).2 = (s.add head box id).2 ∧
          (({ (s.add head box id).1 with
              freeList := (s.add head box id).2 :: (s.add head box id).1.freeList } : Store).add
            h2 b2 i2).1.capacity = (s.add head box id).1.capacity) := by
  intro s head box id
  constructor
  · unfold Store.add Store.write Store.remove Store.removeGo
    cases hfl : s.freeList with
    | nil =>
      have hne : ((s.next : ℕ) : ℤ) ≠ -1 := by omega
      simp [hne, Int.toNat_natCast]
    | cons i rest =>
      have hne : ((i : ℕ) : ℤ) ≠ -1 := by omega
      simp [hne, Int.toNat_natCast]
  · intro hcap hnext hfree h2 b2 i2
    unfold Store.add Store.write
    cases hfl : s.freeList with
    | nil =>
      simp only [ge_iff_le]
      split_ifs <;> simp_all <;> omega
    | cons i rest =>
      have hi : i < s.capacity := hfree i (by simp [hfl])
      simp only [ge_iff_le]
      split_ifs <;> simp_all <;> omega

/-- C10 witness: the round-trip at the fresh store — slot 0 is allocated,
freed by the remove, and immediately reallocated without growth. -/
theorem oc3_c10_add_remove_roundtrip_witness :
    (Store.remove (Store.init.add (-1) box10 5).1 ((Store.init.add (-1) box10 5).1.next + 1)
        (((Store.init.add (-1) box10 5).2 : ℕ) : ℤ) 5 =
      ({ (Store.init.add (-1) box10 5).1 with
          freeList := (Store.init.add (-1) box10 5).2 ::
            (Store.init.add (-1) box10 5).1.freeList }, -1)) ∧
    (({ (Store.init.add (-1) box10 5).1 with
        freeList := (Store.init.add (-1) box10 5).2 ::
          (Store.init.add (-1) box10 5).1.freeList } : Store).add (-1) box10 6).2 =
      (Store.init.add (-1) box10 5).2 ∧
    (({ (Store.init.add (-1) box10 5).1 with
        freeList := (Store.init.add (-1) box10 5).2 ::
          (Store.init.add (-1) box10 5).1.freeList } : Store).add (-1) box10 6).1.capacity =
      (Store.init.add (-1) box10 5).1.capacity :=
  ⟨(oc3_c10_add_remove_roundtrip Store.init (-1) box10 5).1,
   (oc3_c10_add_remove_roundtrip Store.init (-1) box10 5).2 (by decide) (by decide)
     (by decide) (-1) box10 6⟩

/-- C5: for every finite sequence of insert and remove commands with
pairwise distinct insert ids and pairwise distinct remove ids, every box
a valid AABB intersecting the root box, and every remove carrying the box
and id of one earlier insert, `aabbQuery` over the root box visits
exactly the ids inserted and not subsequently removed — each exactly
once (the emitted id list is a permutation of the live ids). -/
theorem oc3_c5_insert_remove_live_set (rootBox : Box) (md mo : ℕ) (ops : List Op)
    (hroot : rootBox.valid) (hops : OpsValid rootBox ops) :
    ((applyOps (Octree.create rootBox md mo) ops).aabbQuery rootBox).Perm
      ((liveAfter ops).map Prod.snd) := by
  have hseq : SeqOK rootBox [] ops :=
    OpsValid_SeqOK ops [] [] (by simpa using hops)
      (fun b i h => absurd h (List.not_mem_nil _))
      (fun b i h _ => absurd h (List.not_mem_nil _))
  have hinit : OctInv (Octree.create rootBox md mo) [] := by
    refine ⟨rfl, rfl, [], ?_, List.nodup_nil,
      fun j hj => absurd hj (List.not_mem_nil _), ?_, ?_, List.Perm.refl _⟩
    · simp only [Octree.create]
      rw [TreeInv_mk]
      exact ⟨hroot, Nat.zero_le _, Or.inl rfl, [], [], KidsInv_nil.mpr rfl, SChain.nil,
        fun j hj => absurd hj (List.not_mem_nil _), rfl⟩
    · intro j hj
      simp [Octree.create, Store.init] at hj
    · simp [Octree.create, Store.init]
  obtain ⟨hoct', hbox', hmd', _, hrec'⟩ :=
    applyOps_spec ops (Octree.create rootBox md mo) [] hroot hinit (by simp)
      (fun r hr => absurd hr (List.not_mem_nil _)) hseq
  obtain ⟨hlv0, hbeq, L, hti, hnd, _, _, _, hperm⟩ := hoct'
  have hquery := Node.aabbQueryGo_spec
    ((applyOps (Octree.create rootBox md mo) ops).maxDepth + 2)
    (applyOps (Octree.create rootBox md mo) ops).root
    (applyOps (Octree.create rootBox md mo) ops).store L hti hnd
    (by rw [hlv0]; omega)
    (by rw [hbeq, hbox']; exact Box.subset_refl rootBox)
    (by
      intro j hj
      have hrmem : ((applyOps (Octree.create rootBox md mo) ops).store.buf j |>.box,
          (applyOps (Octree.create rootBox md mo) ops).store.buf j |>.id) ∈
          recsOfL (applyOps (Octree.create rootBox md mo) ops).store L :=
        List.mem_map_of_mem _ hj
      exact (hrec' _ (hperm.mem_iff.mp hrmem)).1)
  show (Node.aabbQueryGo _ _ _ _).Perm _
  rw [hquery, idsOfL_eq]
  exact hperm.map Prod.snd

/-- Witness for C5 at a concrete sequence (three inserts forcing a
split, then a remove). -/
theorem oc3_c5_insert_remove_live_set_witness :
    ((applyOps (Octree.create box10 8 2) exOpsC5).aabbQuery box10).Perm
      ((liveAfter exOpsC5).map Prod.snd) :=
  oc3_c5_insert_remove_live_set box10 8 2 exOpsC5 (by with_unfolding_all decide)
    (by with_unfolding_all decide)

/-- C7: inserting into a leaf node splits it exactly when, after
prepending the new record, the level is strictly below `maxDepth` and the
list holds at least `maxObjects` records.  When it does not split, the
node stays a leaf with the record prepended.  When it splits, the eight
canonical octant children are created one level down; the walk
redistributes the detached old list (including the new record): the
resulting subtree references exactly the old records plus the new one (no
record lost or duplicated), every record left on the node's own list
straddles a midplane, and every record whose classification selects an
octant ends up in that octant child's subtree. -/
theorem oc3_c7_split_trigger_and_walk
    {mo md lv : ℕ} {bx : Box} {hd : ℤ} {s : Store} {ol : List ℕ}
    {b : Box} {id : ℤ} (f : ℕ)
    (hv : bx.valid) (hlv : lv ≤ md) (hbv : b.valid)
    (hch : SChain s hd ol) (hndo : ol.Nodup)
    (hrec : ∀ j ∈ ol, bx.intersectsBox (s.buf j).box = true ∧ (s.buf j).box.valid)
    (hnfl : ∀ j ∈ ol, j ∉ s.freeList) (hfb : ∀ j ∈ s.freeList, j < s.next)
    (hfnd : s.freeList.Nodup)
    (hguard : bx.intersectsBox b = true)
    (hf : 2 * md + 3 ≤ 2 * lv + (f + 1)) :
    (¬(lv < md ∧ mo ≤ ol.length + 1) →
      Node.insertGo mo md (f + 1) b id (.mk lv bx hd []) s =
        (.mk lv bx ((s.add hd b id).2 : ℤ) [], (s.add hd b id).1)) ∧
    (lv < md ∧ mo ≤ ol.length + 1 →
      ∃ hacc' cs' s' L',
        Node.insertGo mo md (f + 1) b id (.mk lv bx hd []) s =
          (.mk lv bx hacc' cs', s') ∧
        cs'.length = 8 ∧
        (∀ kk, ∀ hkk : kk < cs'.length, (cs'.get ⟨kk, hkk⟩).box = octantBox bx kk ∧
          (cs'.get ⟨kk, hkk⟩).level = lv + 1) ∧
        TreeInv s' md (.mk lv bx hacc' cs') L' ∧
        (recsOfL s' L').Perm ((b, id) :: recsOfL s ol) ∧
        (∃ OL', SChain s' hacc' OL' ∧
          ∀ j ∈ OL', getChildIndex bx (s'.buf j).box = -1) ∧
        (∀ kk, ∀ hkk : kk < cs'.length,
          (getChildIndex bx b = (kk : ℤ) →
            (b, id) ∈ Node.contents s' (md + 2) (cs'.get ⟨kk, hkk⟩)) ∧
          (∀ j ∈ ol, getChildIndex bx (s.buf j).box = (kk : ℤ) →
            ((s.buf j).box, (s.buf j).id) ∈
              Node.contents s' (md + 2) (cs'.get ⟨kk, hkk⟩)))) := by
  obtain ⟨hch1, hfresh, hw1, hfr1, hnle1, hsfx1, hknfl1, hfb1, hfnd1⟩ :=
    Store.add_chain_spec hch hnfl hfb hfnd
  have hndk : ((s.add hd b id).2 :: ol).Nodup := by
    rw [List.nodup_cons]
    exact ⟨fun hin => hfresh _ (SChain.slots_lt hch _ hin) (hnfl _ hin) rfl, hndo⟩
  have hcount : Store.count (s.add hd b id).1 ((s.add hd b id).1.next + 1)
      (((s.add hd b id).2 : ℕ) : ℤ) = ol.length + 1 := by
    have h1 := SChain.count_eq hch1 ((s.add hd b id).1.next + 1)
      (Nat.le_succ_of_le (length_le_of_nodup_lt hndk (SChain.slots_lt hch1)))
    simpa using h1
  have holfr : ∀ j ∈ ol, (s.add hd b id).1.buf j = s.buf j := fun j hj =>
    hfr1 j (hfresh j (SChain.slots_lt hch j hj) (hnfl j hj))
  simp only [Node.insertGo]
  rw [if_neg (by rw [hguard]; simp)]
  rw [if_neg (by simp)]
  constructor
  · intro hno
    rw [if_neg (by
      rintro ⟨_, h2, h3⟩
      rw [hcount] at h3
      exact hno ⟨h2, h3⟩)]
  · intro htrig
    rw [if_pos ⟨rfl, htrig.1, by rw [hcount]; exact htrig.2⟩]
    have hwrec1 : ∀ j ∈ (s.add hd b id).2 :: ol,
        ((s.add hd b id).1.buf j).box.valid ∧
        bx.intersectsBox ((s.add hd b id).1.buf j).box = true := by
      intro j hj
      rcases List.mem_cons.mp hj with h2 | h2
      · subst h2
        rw [hw1]
        exact ⟨hbv, hguard⟩
      · rw [holfr j h2]
        exact ⟨(hrec j h2).2, (hrec j h2).1⟩
    have hwfl1 : ∀ j ∈ (s.add hd b id).2 :: ol, j ∉ (s.add hd b id).1.freeList := by
      intro j hj
      rcases List.mem_cons.mp hj with h2 | h2
      · subst h2
        exact hknfl1
      · exact fun hin => hnfl j h2 (suffix_subset hsfx1 j hin)
    have hwlen1 : ((s.add hd b id).2 :: ol).length ≤ (s.add hd b id).1.next + 1 :=
      Nat.le_succ_of_le (length_le_of_nodup_lt hndk (SChain.slots_lt hch1))
    obtain ⟨hacc2, cs2, KL2, OL2, s2, heqw, hcs2, hki2, hoch2, horec2, hnd2, hnfl2,
      hfb2, hfnd2, hnle2, hsfx2, hfr2, hprov2, hperm2, hstrad2, hroute2⟩ :=
      splitWalkF_spec (fun b2 i2 nn ss => Node.insertGo mo md f b2 i2 nn ss)
        (fun c s3 L3 b3 id3 hclv3 hbv3 hti3 hnd3 hnf3 hfb3 hfnd3 => by
          obtain ⟨n3, s4, L4, e1, e2, e3, e4, e5, e6, e7, e8, e9, e10, e11, e12,
            e13, _⟩ :=
            Node.insertGo_spec f c s3 L3 b3 id3 hbv3 hti3 hnd3 hnf3 hfb3 hfnd3
              (by rw [hclv3]; omega)
          exact ⟨n3, s4, L4, e1, e2, e3, e4, e5, e6, e7, e8, e9, e10, e11, e12, e13⟩)
        hv htrig.1
        ((s.add hd b id).2 :: ol) ((s.add hd b id).1.next + 1)
        ((s.add hd b id).2 : ℤ) (-1) (splitChildren lv bx) [] []
        (s.add hd b id).1
        hch1 hwlen1 hwrec1 hwfl1
        (by intro a _ ha; simp at ha)
        (by simp [splitChildren])
        (KidsInv_splitChildren hv htrig.1)
        SChain.nil
        (by intro j hj; cases hj)
        (by intro j hj; cases hj)
        (by simp)
        (by intro j hj; cases hj)
        hfb1 hfnd1
    refine ⟨hacc2, cs2, s2, KL2 ++ OL2, heqw, hcs2, ?_, ?_, ?_, ⟨OL2, hoch2, hstrad2⟩, ?_⟩
    · intro kk hkk
      have h1 := KidsInv_box_at cs2 0 KL2 hki2 kk hkk
      rw [Nat.zero_add] at h1
      exact ⟨h1.1, h1.2⟩
    · rw [TreeInv_mk]
      exact ⟨hv, hlv, Or.inr ⟨hcs2, htrig.1⟩, KL2, OL2, hki2, hoch2, horec2, rfl⟩
    · refine hperm2.trans ?_
      have hrO : recsOfL (s.add hd b id).1 ol = recsOfL s ol :=
        recsOfL_congr fun j hj => by rw [holfr j hj]; exact ⟨rfl, rfl⟩
      have hhead : recsOfL (s.add hd b id).1 ((s.add hd b id).2 :: ol) =
          (b, id) :: recsOfL (s.add hd b id).1 ol := by
        unfold recsOfL
        rw [List.map_cons, hw1]
      rw [hhead, hrO]
      simp [recsOfL]
    · intro kk hkk
      constructor
      · intro hkb
        have hkk8 : kk < (splitChildren lv bx).length := by
          simp [splitChildren]
          rw [hcs2] at hkk
          omega
        refine hroute2 kk hkk8 hkk (b, id) (Or.inr ⟨(s.add hd b id).2,
          List.mem_cons_self _ _, ?_, ?_⟩)
        · rw [hw1]
          exact hkb
        · rw [hw1]
      · intro j hj hkj
        have hkk8 : kk < (splitChildren lv bx).length := by
          simp [splitChildren]
          rw [hcs2] at hkk
          omega
        refine hroute2 kk hkk8 hkk _ (Or.inr ⟨j, List.mem_cons_of_mem _ hj, ?_, ?_⟩)
        · rw [holfr j hj]
          exact hkj
        · rw [holfr j hj]

/-- Witness for C7 at a concrete non-splitting input (`maxObjects = 16`,
empty leaf): the hypotheses are satisfiable and the no-split
characterization applies. -/
theorem oc3_c7_split_trigger_and_walk_witness :
    ¬(0 < 8 ∧ 16 ≤ ([] : List ℕ).length + 1) ∧
    Node.insertGo 16 8 19 ⟨1, 1, 1, 2, 2, 2⟩ 9 (.mk 0 box10 (-1) []) Store.init =
      (.mk 0 box10 ((Store.init.add (-1) ⟨1, 1, 1, 2, 2, 2⟩ 9).2 : ℤ) [],
        (Store.init.add (-1) ⟨1, 1, 1, 2, 2, 2⟩ 9).1) :=
  ⟨by decide,
    (oc3_c7_split_trigger_and_walk 18 (by with_unfolding_all decide) (by omega)
      (by with_unfolding_all decide) SChain.nil List.nodup_nil
      (fun j hj => absurd hj (List.not_mem_nil _))
      (fun j hj => absurd hj (by simp [Store.init]))
      (fun j hj => absurd hj (by simp [Store.init]))
      (by simp [Store.init])
      (by with_unfolding_all decide) (by omega)).1 (by decide)⟩

end Oc3
